import Mathlib

/-!
Verification development for the Go module `github.com/abiiranathan/fn`.

Package `concurrent`:

* `Parallel` (concurrent.go) is embedded as an interleaving transition system: one
  state type holding the two channels, the wait group, the control point of every
  goroutine and the locals of `Parallel`; one step function per goroutine; a schedule
  (a list of actions) picks which goroutine moves next and which ready case a `select`
  takes. A task is represented by the error value its call returns, so task calls are
  assumed to return and not to panic. Claims about what `Parallel` returns are proved
  for every schedule, together with the facts that runs are bounded and that the
  program is never stuck before the call has returned.
* `Map` (map.go) is embedded as a sequential data type over a model of Go's builtin
  map: every method holds the map's mutex for its whole body, so a method call is one
  atomic state transformer and concurrent callers are serialised in some order. Keys
  are compared with Go's `==` (class `Comparable`), which need not be reflexive: a
  floating-point NaN is a key that no lookup finds, that every assignment stores anew
  and that `delete` never removes.
* `Set` (set.go) is embedded in store-passing style over a heap of set objects, so that
  a `*Set[K]` is an address and a result that shares no storage with an operand is a
  statement about cells of the heap. A traversal of a set takes its order as an
  argument, any permutation of the stored keys.

Package `fn` (functional.go): a slice is the list of its elements, `int` is an unbounded
integer, a loop takes a budget of steps and a call ends with an `Outcome`: returned,
panicked, or out of budget. `Take` and `Drop` work on `Slice`, which keeps the nil slice
apart from an empty one; the random source of `Shuffle` is a function giving the draw
made at each loop index; the function argument of `Zip` is total; the elements of
`Distinct` are compared with Go's `==`, as the keys of a map are.
-/

namespace Concurrent

/-! ## `Parallel`: data model -/

/-- Control point of one worker goroutine (`worker`, concurrent.go:83-87, wrapped by the
closure of lines 31-34). -/
inductive Worker (E : Type) where
  /-- At `for task := range tasks`: waiting to receive the next task. -/
  | idle
  /-- Inside the call `task()` of the task with index `j` of the `tasks` slice. -/
  | running (j : Nat)
  /-- The call returned `r`; at the send `results <- r`. -/
  | sending (r : Option E)
  /-- The range loop is over and the deferred `wg.Done()` has run. -/
  | exited
  deriving DecidableEq, Repr

/-- Control point of the goroutine of lines 48-51 (`wg.Wait(); close(resultsCh)`). -/
inductive Closer where
  /-- The `go` statement of line 48 has not run yet. -/
  | notStarted
  /-- Blocked in `wg.Wait()`. -/
  | waiting
  /-- Has closed `resultsCh`. -/
  | done
  deriving DecidableEq, Repr

/-- Control point of the goroutine that called `Parallel`. -/
inductive Pc (E : Type) where
  /-- In the loop of lines 38-44 (at the `select`), or, once every task is sent, at
  `close(tasksCh)` (line 45). -/
  | submitting
  /-- At the `go` statement of line 48. -/
  | spawning
  /-- At the `select` of the result loop (line 58). -/
  | collecting
  /-- `Parallel` has returned the error value `r` (`none` is Go's `nil`). -/
  | returned (r : Option E)
  deriving DecidableEq, Repr

/-- The `context.Context` argument, as far as `Parallel` observes it. -/
structure Ctx (E : Type) where
  /-- The context is already done when `Parallel` is called. -/
  done : Bool
  /-- The context can become done later (a cancel function or a deadline exists). -/
  canFire : Bool
  /-- The non-nil value that `ctx.Err()` returns once the context is done. -/
  err : E
  deriving DecidableEq, Repr

/-- The arguments of one call `Parallel(ctx, tasks, maxWorkers, stopOnError...)`.
A task is a `func() error`; it is represented by the error value that its call returns
(`none` for `nil`). `maxWorkers` is a natural number: a negative `maxWorkers` makes
`wg.Add` panic before anything else happens. -/
structure Cfg (E : Type) where
  ctx : Ctx E
  tasks : List (Option E)
  maxWorkers : Nat
  stopOnError : List Bool
  deriving DecidableEq, Repr

/-- State of one invocation of `Parallel`. A buffered channel is its queue (head is the
next value received) and its closed flag; both channels have capacity `len(tasks)`.
The fields `started`, `finished` and `received` are history variables: they record which
task calls began, which returned, and which values the result loop has read, in order. -/
structure State (E : Type) where
  ctxDone : Bool
  tasksCh : List Nat
  tasksClosed : Bool
  resultsCh : List (Option E)
  resultsClosed : Bool
  wg : Nat
  workers : List (Worker E)
  closer : Closer
  pc : Pc E
  /-- Number of loop iterations of lines 38-44 completed (index of the next task to send). -/
  i : Nat
  taskErr : Option E
  panicked : Bool
  started : List Nat
  finished : List Nat
  received : List (Option E)
  deriving DecidableEq, Repr

/-- A scheduling decision: which goroutine takes its next step. The goroutine that runs
`Parallel` has two actions, one for each case of its `select` statements. -/
inductive Action where
  /-- The environment makes the context done (cancel call or deadline). -/
  | cancel
  /-- The `case <-ctx.Done()` branch of the select the caller is at. -/
  | ctxCase
  /-- The channel branch of the select the caller is at, or its next plain statement. -/
  | main
  /-- The goroutine of lines 48-51. -/
  | closer
  /-- Worker goroutine number `w`. -/
  | worker (w : Nat)
  deriving DecidableEq, Repr

namespace Parallel

variable {E : Type}

/-- Lines 20-23: the variadic `stopOnError` defaults to false. -/
def stopOnErr (stopOnError : List Bool) : Bool :=
  match stopOnError with
  | [] => false
  | b :: _ => b

/-- State after lines 18-35: channels made, `wg.Add(maxWorkers)`, workers spawned. -/
def start (c : Cfg E) : State E :=
  { ctxDone := c.ctx.done
    tasksCh := []
    tasksClosed := false
    resultsCh := []
    resultsClosed := false
    wg := c.maxWorkers
    workers := List.replicate c.maxWorkers Worker.idle
    closer := Closer.notStarted
    pc := Pc.submitting
    i := 0
    taskErr := none
    panicked := false
    started := []
    finished := []
    received := [] }

/-- One step of worker `w` (lines 31-34 and 83-87): receive a task, or leave the loop when
`tasksCh` is closed and drained (then `wg.Done()`); run the task; send its result.
A send on a closed channel panics; a send on a full channel and a receive on an empty
open channel block (`none`). -/
def worker (c : Cfg E) (s : State E) (w : Nat) : Option (State E) :=
  match s.workers[w]? with
  | none => none
  | some Worker.idle =>
    match s.tasksCh with
    | j :: rest =>
      some { s with tasksCh := rest, workers := s.workers.set w (Worker.running j),
                    started := s.started ++ [j] }
    | [] =>
      if s.tasksClosed then
        some { s with workers := s.workers.set w Worker.exited, wg := s.wg - 1 }
      else none
  | some (Worker.running j) =>
    some { s with workers := s.workers.set w (Worker.sending (c.tasks.getD j none)),
                  finished := s.finished ++ [j] }
  | some (Worker.sending r) =>
    if s.resultsClosed then some { s with panicked := true }
    else if s.resultsCh.length < c.tasks.length then
      some { s with resultsCh := s.resultsCh ++ [r], workers := s.workers.set w Worker.idle }
    else none
  | some Worker.exited => none

/-- The `case <-ctx.Done(): return ctx.Err()` branch of the two selects (lines 40-41 and
59-60). Ready exactly when the context is done. -/
def ctxCase (c : Cfg E) (s : State E) : Option (State E) :=
  if s.ctxDone then
    match s.pc with
    | Pc.submitting =>
      if s.i < c.tasks.length then some { s with pc := Pc.returned (some c.ctx.err) } else none
    | Pc.collecting => some { s with pc := Pc.returned (some c.ctx.err) }
    | _ => none
  else none

/-- The other steps of the caller: `case tasksCh <- task` (line 42), `close(tasksCh)`
(line 45), the `go` statement (line 48), and `case err, ok := <-resultsCh` with the body of
lines 63-73 and the final `return taskErr` (line 79). -/
def main (c : Cfg E) (s : State E) : Option (State E) :=
  match s.pc with
  | Pc.submitting =>
    if s.i < c.tasks.length then
      if s.tasksCh.length < c.tasks.length then
        some { s with tasksCh := s.tasksCh ++ [s.i], i := s.i + 1 }
      else none
    else some { s with tasksClosed := true, pc := Pc.spawning }
  | Pc.spawning => some { s with closer := Closer.waiting, pc := Pc.collecting }
  | Pc.collecting =>
    match s.resultsCh with
    | err :: rest =>
      if stopOnErr c.stopOnError && err.isSome then
        some { s with resultsCh := rest, received := s.received ++ [err],
                      pc := Pc.returned err }
      else if s.taskErr.isNone && err.isSome then
        some { s with resultsCh := rest, received := s.received ++ [err], taskErr := err }
      else
        some { s with resultsCh := rest, received := s.received ++ [err] }
    | [] =>
      if s.resultsClosed then some { s with pc := Pc.returned s.taskErr } else none
  | Pc.returned _ => none

/-- Lines 48-51: `wg.Wait()` returns once the counter is zero, then `close(resultsCh)`. -/
def closer (s : State E) : Option (State E) :=
  match s.closer with
  | Closer.waiting =>
    if s.wg = 0 then some { s with resultsClosed := true, closer := Closer.done } else none
  | _ => none

/-- The context becomes done; it happens at most once and only if the context can fire. -/
def cancel (c : Cfg E) (s : State E) : Option (State E) :=
  if c.ctx.canFire && !s.ctxDone then some { s with ctxDone := true } else none

/-- One scheduled step of the whole program; `none` when the chosen goroutine is blocked
or finished, or when the program has panicked. -/
def step (c : Cfg E) (s : State E) (a : Action) : Option (State E) :=
  if s.panicked then none
  else
    match a with
    | Action.cancel => cancel c s
    | Action.ctxCase => ctxCase c s
    | Action.main => main c s
    | Action.closer => closer s
    | Action.worker w => worker c s w

/-- Run a schedule from state `s`; `none` if some scheduled action is not enabled. -/
def run (c : Cfg E) (s : State E) : List Action → Option (State E)
  | [] => some s
  | a :: rest => (step c s a).bind (fun t => run c t rest)

/-- A state is reachable when some schedule leads to it from the start state. -/
def Reachable (c : Cfg E) (s : State E) : Prop :=
  ∃ sched : List Action, run c (start c) sched = some s

/-- Concatenation of the contributions `f x` of the workers, in worker order. -/
def gather {α : Type} (f : Worker E → List α) : List (Worker E) → List α
  | [] => []
  | x :: xs => f x ++ gather f xs

/-- The worker is inside a task call: the index of that task. -/
def runTask : Worker E → List Nat
  | Worker.running j => [j]
  | _ => []

/-- The worker holds a result it has not sent yet. -/
def heldResult : Worker E → List (Option E)
  | Worker.sending r => [r]
  | _ => []

/-- The worker has not exited: one unit towards the wait-group counter. -/
def liveUnit : Worker E → List Unit
  | Worker.exited => []
  | _ => [()]

/-- Indices of the tasks being executed right now. -/
def runningOf (ws : List (Worker E)) : List Nat := gather runTask ws

/-- Results computed by a task call and not yet sent on `resultsCh`. -/
def sendingOf (ws : List (Worker E)) : List (Option E) := gather heldResult ws

/-- Number of workers that have not exited. -/
def liveOf (ws : List (Worker E)) : Nat := (gather liveUnit ws).length

/-- First non-nil error of a sequence of results, `none` if all are nil. -/
def firstErr : List (Option E) → Option E
  | [] => none
  | some e :: _ => some e
  | none :: rest => firstErr rest

/-- Weight of a worker in `stepsLeft`: one unit while it is at its loop, three while it
holds a result, four while it runs a task, none once it has exited. -/
def workUnits : Worker E → List Unit
  | Worker.idle => [()]
  | Worker.running _ => [(), (), (), ()]
  | Worker.sending _ => [(), (), ()]
  | Worker.exited => []

/-- Control points the caller still has to pass; the `go` statement counts twice because
it also arms the goroutine of lines 48-51. -/
def pcWeight : Pc E → Nat
  | Pc.submitting => 4
  | Pc.spawning => 3
  | Pc.collecting => 1
  | Pc.returned _ => 0

/-- One unit until the goroutine of lines 48-51 has closed `resultsCh`. -/
def closerWeight : Closer → Nat
  | Closer.done => 0
  | _ => 1

/-- A bound on the number of steps that can still happen from state `s`: every step
of `step` lowers it. -/
def stepsLeft (c : Cfg E) (s : State E) : Nat :=
  5 * (c.tasks.length - s.i) + 4 * s.tasksCh.length + (gather workUnits s.workers).length
    + s.resultsCh.length + pcWeight s.pc + closerWeight s.closer
    + (if s.ctxDone then 0 else 1) + (if s.panicked then 0 else 1)

/-- What the call has returned in state `s`, if it has returned. -/
def result (s : State E) : Option (Option E) :=
  match s.pc with
  | Pc.returned r => some r
  | _ => none

end Parallel

/-- The value `Parallel(ctx, tasks, maxWorkers, stopOnError...)` returns under the
schedule `sched`: `none` when the schedule is not executable or the call has not returned
by its end. -/
def Parallel {E : Type} (c : Cfg E) (sched : List Action) : Option (Option E) :=
  (Parallel.run c (Parallel.start c) sched).bind Parallel.result

end Concurrent

/-! ## Go's builtin map and the concurrent `Map` -/

namespace Concurrent

/-- Go's operator `==` on a key type `K` (the constraint `comparable`). A value of `K`
stands for a Go value up to `==`: two values that `==` holds of are one value (the two
floating-point zeros are one key). The operator need not be reflexive: a floating-point
NaN is a value `k` for which `k == k` is false. The operator is total: a comparison of
interface values that panics at run time is not represented. -/
class Comparable (K : Type) where
  /-- The result of `a == b`. -/
  eq : K → K → Bool
  /-- Values that `==` holds of are the same value. -/
  eq_same : ∀ a b : K, eq a b = true → a = b

/-- Keys of the types `int` and `string` (the keys of the tests, numbered): `==` is
equality. -/
instance instComparableNat : Comparable Nat where
  eq a b := decide (a = b)
  eq_same _ _ h := of_decide_eq_true h

/-- Values of type `float64`, as far as `==` tells them apart: the numbers (integers are
enough here) and NaN. -/
inductive Float64 where
  /-- The number `n`. -/
  | num (n : Int)
  /-- A NaN: not equal to any value, itself included. -/
  | nan
  deriving DecidableEq, Repr

/-- The operator `==` on `float64`: false as soon as one operand is NaN. -/
instance instComparableFloat64 : Comparable Float64 where
  eq a b :=
    match a, b with
    | Float64.num x, Float64.num y => decide (x = y)
    | _, _ => false
  eq_same a b h := by
    cases a <;> cases b <;> simp_all

/-- Go's builtin `map[K]V`: finitely many entries, no two of them with keys that are
`==` (so a key that is not `==` to itself, a NaN, can have several entries). The order
of `entries` carries no meaning; iteration takes its order as an argument. -/
structure GoMap (K V : Type) [Comparable K] where
  entries : List (K × V)
  distinct : entries.Pairwise (fun p q => Comparable.eq p.1 q.1 = false)

namespace GoMap

variable {K V : Type} [Comparable K]

/-- The value of the entry whose key is `==` to `k`, if any. -/
def lookup (k : K) : List (K × V) → Option V
  | [] => none
  | (k1, v) :: rest => if Comparable.eq k1 k then some v else lookup k rest

/-- The entries whose key is not `==` to `k`. -/
def without (k : K) (l : List (K × V)) : List (K × V) :=
  l.filter (fun p => !Comparable.eq p.1 k)

/-- Expression `make(map[K]V)`: the empty map. -/
def make : GoMap K V := ⟨[], List.Pairwise.nil⟩

/-- Expression `v, ok := m[k]`: the stored value and true, or the zero value and false. -/
def index [Inhabited V] (m : GoMap K V) (k : K) : V × Bool :=
  match lookup k m.entries with
  | some v => (v, true)
  | none => (default, false)

/-- Statement `m[k] = v`: overwrite the entry whose key is `==` to `k`, or insert a new
entry when there is none. -/
def assign (m : GoMap K V) (k : K) (v : V) : GoMap K V :=
  ⟨(k, v) :: without k m.entries, by
    refine List.pairwise_cons.2 ⟨?_, m.distinct.sublist (List.filter_sublist m.entries)⟩
    intro p hp
    have hpk : Comparable.eq p.1 k = false := by
      simpa using (List.mem_filter.1 hp).2
    cases hkp : Comparable.eq k p.1 with
    | false => rfl
    | true =>
      have hsame := Comparable.eq_same k p.1 hkp
      rw [← hsame] at hpk hkp
      rw [hpk] at hkp
      cases hkp⟩

/-- Statement `delete(m, k)`. -/
def delete (m : GoMap K V) (k : K) : GoMap K V :=
  ⟨without k m.entries, m.distinct.sublist (List.filter_sublist m.entries)⟩

/-- Expression `len(m)`. -/
def len (m : GoMap K V) : Nat := m.entries.length

end GoMap

/-- The type `Map[K, V]` of map.go, for maps made by `NewMap` (the inner map is never
nil). The mutex `mu` has no field: every method holds it for its whole body, so each
method below is one atomic step on the guarded map `m`. -/
structure Map (K V : Type) [Comparable K] where
  m : GoMap K V

/-- Function `NewMap` (map.go:13-17). -/
def NewMap {K V : Type} [Comparable K] : Map K V := ⟨GoMap.make⟩

namespace Map

variable {K V : Type} [Comparable K]

/-- Method `Get` (map.go:21-26). -/
def Get [Inhabited V] (m : Map K V) (key : K) : V × Bool := m.m.index key

/-- Method `Set` (map.go:29-33). -/
def Set (m : Map K V) (key : K) (value : V) : Map K V := ⟨m.m.assign key value⟩

/-- Method `Delete` (map.go:36-40). -/
def Delete (m : Map K V) (key : K) : Map K V := ⟨m.m.delete key⟩

/-- Method `Len` (map.go:43-48). -/
def Len (m : Map K V) : Nat := m.m.entries.length

end Map

end Concurrent

/-! ## Concrete runs used as witnesses -/

namespace Concurrent.Parallel

/-- The call of `TestParallelSum`: four all-success tasks (the chunks of ten numbers by
three), three workers, `context.Background()`, no `stopOnError` argument. -/
def sumCfg : Cfg Nat :=
  { ctx := { done := false, canFire := false, err := 0 }
    tasks := [none, none, none, none]
    maxWorkers := 3
    stopOnError := [] }

/-- One complete schedule of `sumCfg`: all tasks are sent, the three workers take tasks
0, 1, 2, worker 1 finishes first and also runs task 3, the workers exit, the results are
read and the call returns. -/
def sumSched : List Action :=
  [Action.main, Action.main, Action.main, Action.main, Action.main, Action.main,
   Action.worker 0, Action.worker 1, Action.worker 2,
   Action.worker 1, Action.worker 1, Action.worker 1, Action.main,
   Action.worker 0, Action.worker 2, Action.worker 2, Action.worker 0,
   Action.worker 1, Action.worker 1, Action.main, Action.main,
   Action.worker 0, Action.worker 1, Action.worker 2, Action.closer,
   Action.main, Action.main]

/-- The state at the end of `sumSched`. -/
def sumEnd : State Nat :=
  { ctxDone := false
    tasksCh := []
    tasksClosed := true
    resultsCh := []
    resultsClosed := true
    wg := 0
    workers := [Worker.exited, Worker.exited, Worker.exited]
    closer := Closer.done
    pc := Pc.returned none
    i := 4
    taskErr := none
    panicked := false
    started := [0, 1, 2, 3]
    finished := [1, 0, 2, 3]
    received := [none, none, none, none] }

/-- The example of the specification: two successes then a failure with error value 1,
one worker, `stopOnError = true`. -/
def failCfg : Cfg Nat :=
  { ctx := { done := false, canFire := false, err := 0 }
    tasks := [none, none, some 1]
    maxWorkers := 1
    stopOnError := [true] }

/-- A schedule of `failCfg`: the tasks are sent, the worker runs them in order, the caller
reads each result as it arrives and returns on the third. -/
def failSched : List Action :=
  [Action.main, Action.main, Action.main, Action.main, Action.main,
   Action.worker 0, Action.worker 0, Action.worker 0, Action.main,
   Action.worker 0, Action.worker 0, Action.worker 0, Action.main,
   Action.worker 0, Action.worker 0, Action.worker 0, Action.main]

/-- The state at the end of `failSched`: the call has returned while the worker is still
at its loop and `resultsCh` is still open. -/
def failEnd : State Nat :=
  { ctxDone := false
    tasksCh := []
    tasksClosed := true
    resultsCh := []
    resultsClosed := false
    wg := 1
    workers := [Worker.idle]
    closer := Closer.waiting
    pc := Pc.returned (some 1)
    i := 3
    taskErr := none
    panicked := false
    started := [0, 1, 2]
    finished := [0, 1, 2]
    received := [none, none, some 1] }

/-- Two failing tasks with error values 1 and 2, two workers, no `stopOnError`. -/
def raceCfg : Cfg Nat :=
  { ctx := { done := false, canFire := false, err := 0 }
    tasks := [some 1, some 2]
    maxWorkers := 2
    stopOnError := [] }

/-- A schedule of `raceCfg` in which the second task finishes and sends first. -/
def raceSched : List Action :=
  [Action.main, Action.main, Action.main, Action.main,
   Action.worker 0, Action.worker 1, Action.worker 1, Action.worker 1,
   Action.worker 0, Action.worker 0, Action.main, Action.main,
   Action.worker 0, Action.worker 1, Action.closer, Action.main]

/-- The state at the end of `raceSched`. -/
def raceEnd : State Nat :=
  { ctxDone := false
    tasksCh := []
    tasksClosed := true
    resultsCh := []
    resultsClosed := true
    wg := 0
    workers := [Worker.exited, Worker.exited]
    closer := Closer.done
    pc := Pc.returned (some 2)
    i := 2
    taskErr := some 2
    panicked := false
    started := [0, 1]
    finished := [1, 0]
    received := [some 2, some 1] }

/-- An empty task list, one worker, and a context that is already done; `ctx.Err()` is the
error value 7. -/
def cancelledCfg : Cfg Nat :=
  { ctx := { done := true, canFire := false, err := 7 }
    tasks := []
    maxWorkers := 1
    stopOnError := [] }

/-- The caller closes `tasksCh`, starts the closing goroutine and takes the `ctx.Done()`
case of the result select before the worker has been scheduled. -/
def cancelledSched : List Action := [Action.main, Action.main, Action.ctxCase]

/-- An empty task list, two workers, `context.Background()`. -/
def emptyCfg : Cfg Nat :=
  { ctx := { done := false, canFire := false, err := 0 }
    tasks := []
    maxWorkers := 2
    stopOnError := [] }

/-- The complete schedule of `emptyCfg`: close, spawn, both workers exit, `resultsCh` is
closed, the caller returns. -/
def emptySched : List Action :=
  [Action.main, Action.main, Action.worker 1, Action.worker 0, Action.closer, Action.main]

/-- The state at the end of `emptySched`. -/
def emptyEnd : State Nat :=
  { ctxDone := false
    tasksCh := []
    tasksClosed := true
    resultsCh := []
    resultsClosed := true
    wg := 0
    workers := [Worker.exited, Worker.exited]
    closer := Closer.done
    pc := Pc.returned none
    i := 0
    taskErr := none
    panicked := false
    started := []
    finished := []
    received := [] }

/-- The call of `TestContextCancellation`: two all-success tasks, two workers, a context
with a deadline; `ctx.Err()` is the error value 9. -/
def timeoutCfg : Cfg Nat :=
  { ctx := { done := false, canFire := true, err := 9 }
    tasks := [none, none]
    maxWorkers := 2
    stopOnError := [] }

/-- A schedule of `timeoutCfg`: the first task finishes and its result is read, the second
task is still running when the deadline passes. -/
def timeoutSched : List Action :=
  [Action.main, Action.main, Action.main, Action.main,
   Action.worker 0, Action.worker 1, Action.worker 0, Action.worker 0,
   Action.main, Action.cancel]

/-- The state at the end of `timeoutSched`: the caller waits at the result select, no
result is available, worker 1 is inside the call of task 1. -/
def timeoutWait : State Nat :=
  { ctxDone := true
    tasksCh := []
    tasksClosed := true
    resultsCh := []
    resultsClosed := false
    wg := 2
    workers := [Worker.idle, Worker.running 1]
    closer := Closer.waiting
    pc := Pc.collecting
    i := 2
    taskErr := none
    panicked := false
    started := [0, 1]
    finished := [0]
    received := [none] }

/-- Two tasks, the first of which would return the error 1, no worker, stopping at the
first error, `context.Background()`. -/
def zeroCfg : Cfg Nat :=
  { ctx := { done := false, canFire := false, err := 0 }
    tasks := [some 1, none]
    maxWorkers := 0
    stopOnError := [true] }

/-- The complete schedule of `zeroCfg`: both tasks are sent, `tasksCh` is closed, the
closing goroutine is started and closes `resultsCh`, the caller returns. -/
def zeroSched : List Action :=
  [Action.main, Action.main, Action.main, Action.main, Action.closer, Action.main]

/-- The state at the end of `zeroSched`: both tasks are still in the queue. -/
def zeroEnd : State Nat :=
  { ctxDone := false
    tasksCh := [0, 1]
    tasksClosed := true
    resultsCh := []
    resultsClosed := true
    wg := 0
    workers := []
    closer := Closer.done
    pc := Pc.returned none
    i := 2
    taskErr := none
    panicked := false
    started := []
    finished := []
    received := [] }

end Concurrent.Parallel

namespace Concurrent.Map

/-- The ten entries of `TestConcurrentAccess`, key `i` with value `i`. -/
def tenEntries : List (Nat × Nat) :=
  [(0, 0), (1, 1), (2, 2), (3, 3), (4, 4), (5, 5), (6, 6), (7, 7), (8, 8), (9, 9)]

/-- One order in which the ten concurrent `Set` calls may take the lock. -/
def tenOrder : List (Nat × Nat) :=
  [(3, 3), (0, 0), (9, 9), (1, 1), (7, 7), (2, 2), (8, 8), (5, 5), (4, 4), (6, 6)]

/-- A `Map[float64, int]` after `Set(NaN, 1)` on a new map. -/
def nanMap : Map Float64 Nat := NewMap.Set Float64.nan 1

end Concurrent.Map

/-! ## The concurrent `Set` -/

namespace Concurrent

/-- The heap of `Set[K]` objects. A `*Set[K]` is an address; `obj p` is the map `m` of the
object at address `p` (its mutex `mu` has no field: calls are taken one at a time, and
the read locks held by a method do not change what it computes). The addresses below
`next` are allocated. -/
structure SetHeap (K : Type) [Comparable K] where
  obj : Nat → GoMap K Unit
  next : Nat

namespace SetHeap

variable {K : Type} [Comparable K]

/-- The heap with the cell at address `p` replaced by `m`. -/
def write (h : SetHeap K) (p : Nat) (m : GoMap K Unit) : SetHeap K :=
  { obj := fun q => if q = p then m else h.obj q, next := h.next }

/-- The keys stored in the set at address `s`. -/
def keys (h : SetHeap K) (s : Nat) : List K := (h.obj s).entries.map Prod.fst

end SetHeap

/-- One traversal `for k := range s.m` of the set at address `s`: the keys in the order
the runtime yields them, which Go leaves unspecified: some permutation of the stored
keys. -/
structure Traversal {K : Type} [Comparable K] (h : SetHeap K) (s : Nat) where
  order : List K
  perm : order.Perm (h.keys s)

/-- A call that changes the set it is called on. -/
inductive Mutation (K : Type) where
  | add (key : K)
  | remove (key : K)
  | clear

/-- Function `NewSet` (set.go:13-17): allocate a set with an empty map; the result is
the heap after the call and the address of the new set. -/
def NewSet {K : Type} [Comparable K] (h : SetHeap K) : SetHeap K × Nat :=
  ({ obj := fun q => if q = h.next then GoMap.make else h.obj q,
     next := h.next + 1 }, h.next)

namespace Set

variable {K : Type} [Comparable K]

/-- Method `Add` (set.go:20-24). -/
def Add (h : SetHeap K) (s : Nat) (key : K) : SetHeap K :=
  h.write s ((h.obj s).assign key ())

/-- Method `Remove` (set.go:27-31). -/
def Remove (h : SetHeap K) (s : Nat) (key : K) : SetHeap K :=
  h.write s ((h.obj s).delete key)

/-- Method `Contains` (set.go:34-39). -/
def Contains (h : SetHeap K) (s : Nat) (key : K) : Bool :=
  ((h.obj s).index key).2

/-- Method `Len` (set.go:42-47). -/
def Len (h : SetHeap K) (s : Nat) : Nat := (h.obj s).len

/-- Method `Union` (set.go:62-77): a new set, then one loop over `s` and one over `other`,
each adding the key to the new set. The loops write to the new set only, so a traversal
of an operand in the heap `h` of the call is a traversal of it when its loop runs. The
result is the heap after the call and the address of the new set. -/
def Union (h : SetHeap K) (s other : Nat) (ordS : Traversal h s) (ordO : Traversal h other) :
    SetHeap K × Nat :=
  let r := NewSet h
  let h1 := ordS.order.foldl (fun acc k => Add acc r.2 k) r.1
  let h2 := ordO.order.foldl (fun acc k => Add acc r.2 k) h1
  (h2, r.2)

/-- Method `Intersection` (set.go:80-94): the test `other.Contains(k)` is evaluated in the
heap as it is when the loop reaches `k`. -/
def Intersection (h : SetHeap K) (s other : Nat) (ordS : Traversal h s) : SetHeap K × Nat :=
  let r := NewSet h
  (ordS.order.foldl (fun acc k => if Contains acc other k then Add acc r.2 k else acc) r.1,
    r.2)

/-- Method `Difference` (set.go:97-111). -/
def Difference (h : SetHeap K) (s other : Nat) (ordS : Traversal h s) : SetHeap K × Nat :=
  let r := NewSet h
  (ordS.order.foldl (fun acc k => if !Contains acc other k then Add acc r.2 k else acc) r.1,
    r.2)

/-- Method `SymmetricDifference` (set.go:114-133). -/
def SymmetricDifference (h : SetHeap K) (s other : Nat) (ordS : Traversal h s)
    (ordO : Traversal h other) : SetHeap K × Nat :=
  let r := NewSet h
  let h1 := ordS.order.foldl
    (fun acc k => if !Contains acc other k then Add acc r.2 k else acc) r.1
  let h2 := ordO.order.foldl
    (fun acc k => if !Contains acc s k then Add acc r.2 k else acc) h1
  (h2, r.2)

/-- The loop of `IsSubset` (set.go:143-148): false at the first key that `other` does
not contain, true when the traversal ends. -/
def subsetLoop (h : SetHeap K) (other : Nat) : List K → Bool
  | [] => true
  | k :: rest => if !Contains h other k then false else subsetLoop h other rest

/-- Method `IsSubset` (set.go:136-149). -/
def IsSubset (h : SetHeap K) (s other : Nat) (ordS : Traversal h s) : Bool :=
  subsetLoop h other ordS.order

/-- Method `IsSuperset` (set.go:152-154). -/
def IsSuperset (h : SetHeap K) (s other : Nat) (ordO : Traversal h other) : Bool :=
  IsSubset h other s ordO

/-- Method `Equal` (set.go:157-159). -/
def Equal (h : SetHeap K) (s other : Nat) (ordS : Traversal h s) (ordO : Traversal h other) :
    Bool :=
  IsSubset h s other ordS && IsSuperset h s other ordO

/-- Method `Clear` (set.go:162-166). -/
def Clear (h : SetHeap K) (s : Nat) : SetHeap K :=
  h.write s GoMap.make

/-- Method `Clone` (set.go:169-178). -/
def Clone (h : SetHeap K) (s : Nat) (ordS : Traversal h s) : SetHeap K × Nat :=
  let r := NewSet h
  (ordS.order.foldl (fun acc k => Add acc r.2 k) r.1, r.2)

/-- The heap after the call `m` on the set at address `s`. -/
def applyMutation (h : SetHeap K) (s : Nat) : Mutation K → SetHeap K
  | Mutation.add key => Add h s key
  | Mutation.remove key => Remove h s key
  | Mutation.clear => Clear h s

/-- The heap after a sequence of mutating calls, each on the set at the given address. -/
def mutate (h : SetHeap K) (calls : List (Nat × Mutation K)) : SetHeap K :=
  calls.foldl (fun acc c => applyMutation acc c.1 c.2) h

end Set

end Concurrent

namespace Concurrent.Set

variable {K : Type} [Comparable K]

/-- What it means for the result `out` (heap after the call, address of the result) of a
call made in heap `h` to be a fresh set that shares no storage with a set of `h`: its
address is not one of `h`; the call left every set of `h` as it was; any later sequence
of `Add`, `Remove` and `Clear` calls on the result leaves `Contains` and `Len` of every
set of `h` unchanged; and any later sequence of such calls on sets of `h` leaves the
result unchanged. -/
def Independent (h : SetHeap K) (out : SetHeap K × Nat) : Prop :=
  h.next ≤ out.2 ∧
  (∀ p, p < h.next → out.1.obj p = h.obj p) ∧
  (∀ calls : List (Nat × Mutation K), (∀ c ∈ calls, c.1 = out.2) →
    ∀ p, p < h.next →
      (∀ k, Contains (mutate out.1 calls) p k = Contains h p k) ∧
      Len (mutate out.1 calls) p = Len h p) ∧
  (∀ calls : List (Nat × Mutation K), (∀ c ∈ calls, c.1 < h.next) →
    (mutate out.1 calls).obj out.2 = out.1.obj out.2)

/-- The heap of the set tests with keys 1, 2, 3 for "one", "two", "three": the set
`{1, 2}` at address 0 and the set `{2, 3}` at address 1. -/
def testHeap : SetHeap Nat :=
  Add (Add (NewSet (Add (Add (NewSet ⟨fun _ => GoMap.make, 0⟩).1 0 1) 0 2)).1 1 2) 1 3

/-- A traversal of the set at address 0 of `testHeap`. -/
def testOrd0 : Traversal testHeap 0 := ⟨[1, 2], by decide⟩

/-- A traversal of the set at address 1 of `testHeap`. -/
def testOrd1 : Traversal testHeap 1 := ⟨[2, 3], by decide⟩

/-- A heap of `Set[float64]`: the set `{NaN}` at address 0 and the empty set at address
1. -/
def nanHeap : SetHeap Float64 :=
  (NewSet (Add (NewSet ⟨fun _ => GoMap.make, 0⟩).1 0 Float64.nan)).1

/-- The traversal of the set at address 0 of `nanHeap`. -/
def nanOrd0 : Traversal nanHeap 0 := ⟨[Float64.nan], by decide⟩

/-- The traversal of the set at address 1 of `nanHeap`. -/
def nanOrd1 : Traversal nanHeap 1 := ⟨[], by decide⟩

end Concurrent.Set

/-! ## Package `fn`: slices -/

namespace Fn

/-- How a call ends under a budget of loop steps. A slice is a list of its elements; Go's
`int` is an unbounded integer here, which is exact as long as no index computation
leaves the 64-bit range (slices of fewer than `2^62` elements). -/
inductive Outcome (α : Type) where
  /-- The call returned `value`. -/
  | done (value : α)
  /-- A run-time panic (index or slice bounds out of range). -/
  | panicked
  /-- The budget ran out before the call returned. -/
  | outOfFuel
  deriving DecidableEq, Repr

variable {T : Type}

/-- Slice expression `s[lo:hi]`: the elements from index `lo` up to `hi`; panics (`none`)
unless `0 <= lo <= hi <= len(s)`. Go checks `hi` against the capacity; the callers below
never pass a `hi` above `len(s)`, so the capacity plays no part. -/
def slice (s : List T) (lo hi : Int) : Option (List T) :=
  if 0 ≤ lo ∧ lo ≤ hi ∧ hi ≤ s.length then
    some ((s.drop lo.toNat).take (hi.toNat - lo.toNat))
  else none

/-- Index expression `s[i]`: panics (`none`) unless `0 <= i < len(s)`. -/
def index (s : List T) (i : Int) : Option T :=
  if 0 ≤ i then s[i.toNat]? else none

/-- The loop of `Chunk` (functional.go:89-95) from index `i` with the chunks collected so
far; one unit of `fuel` for every evaluation of the loop condition. -/
def chunkLoop (s : List T) (chunkSize : Int) :
    Nat → Int → List (List T) → Outcome (List (List T))
  | 0, _, _ => Outcome.outOfFuel
  | fuel + 1, i, chunks =>
    if i < s.length then
      match slice s i (if i + chunkSize > s.length then s.length else i + chunkSize) with
      | none => Outcome.panicked
      | some chunk => chunkLoop s chunkSize fuel (i + chunkSize) (chunks ++ [chunk])
    else Outcome.done chunks

/-- Function `Chunk` (functional.go:87-97). -/
def Chunk (fuel : Nat) (s : List T) (chunkSize : Int) : Outcome (List (List T)) :=
  chunkLoop s chunkSize fuel 0 []

/-- Function `Flatten` (functional.go:121-127). -/
def Flatten (s : List (List T)) : List T :=
  s.foldl (fun result subSlice => result ++ subSlice) []

/-- The loop of `Reverse` (functional.go:131-133) at indices `i` and `j`; one unit of
`fuel` for every evaluation of the loop condition. -/
def reverseLoop : Nat → List T → Int → Int → Outcome (List T)
  | 0, _, _, _ => Outcome.outOfFuel
  | fuel + 1, s, i, j =>
    if i < j then
      match index s i, index s j with
      | some a, some b => reverseLoop fuel ((s.set i.toNat b).set j.toNat a) (i + 1) (j - 1)
      | _, _ => Outcome.panicked
    else Outcome.done s

/-- Function `Reverse` (functional.go:130-134): the slice after the call. -/
def Reverse (fuel : Nat) (s : List T) : Outcome (List T) :=
  reverseLoop fuel s 0 ((s.length : Int) - 1)

/-- Function `RotateLeft` (functional.go:246-254): the slice `s` after the call. `Reverse`
of a sub-slice writes through to `s`: the part of `s` outside the sub-slice stays and
the part inside is replaced by the reversed elements. `%` is Go's truncated remainder. -/
def RotateLeft (fuel : Nat) (s : List T) (positions : Int) : Outcome (List T) :=
  if s.length < 2 then Outcome.done s
  else
    match slice s 0 (Int.tmod positions s.length) with
    | none => Outcome.panicked
    | some front =>
      match Reverse fuel front with
      | Outcome.done front1 =>
        match slice (front1 ++ s.drop front.length)
            (Int.tmod positions s.length) s.length with
        | none => Outcome.panicked
        | some back =>
          match Reverse fuel back with
          | Outcome.done back1 => Reverse fuel (front1 ++ back1)
          | Outcome.panicked => Outcome.panicked
          | Outcome.outOfFuel => Outcome.outOfFuel
      | Outcome.panicked => Outcome.panicked
      | Outcome.outOfFuel => Outcome.outOfFuel

end Fn

/-! ## Package `fn`: more slice functions -/

namespace Fn

variable {T U V : Type}

/-- Function `RotateRight` (functional.go:259-267): the slice `s` after the call, with
the same reading of sub-slices and of `%` as in `RotateLeft`. -/
def RotateRight (fuel : Nat) (s : List T) (positions : Int) : Outcome (List T) :=
  if s.length < 2 then Outcome.done s
  else
    match Reverse fuel s with
    | Outcome.done s1 =>
      match slice s1 0 (Int.tmod positions s.length) with
      | none => Outcome.panicked
      | some front =>
        match Reverse fuel front with
        | Outcome.done front1 =>
          match slice (front1 ++ s1.drop front.length)
              (Int.tmod positions s.length) s.length with
          | none => Outcome.panicked
          | some back =>
            match Reverse fuel back with
            | Outcome.done back1 => Outcome.done (front1 ++ back1)
            | Outcome.panicked => Outcome.panicked
            | Outcome.outOfFuel => Outcome.outOfFuel
        | Outcome.panicked => Outcome.panicked
        | Outcome.outOfFuel => Outcome.outOfFuel
    | Outcome.panicked => Outcome.panicked
    | Outcome.outOfFuel => Outcome.outOfFuel

/-- The loop of `Distinct` (functional.go:60-65) over the remaining elements, with the
map `seen` and the slice `result` built so far. -/
def distinctLoop [Concurrent.Comparable T] :
    List T → Concurrent.GoMap T Unit → List T → List T
  | [], _, result => result
  | v :: rest, seen, result =>
    if (seen.index v).2 then distinctLoop rest seen result
    else distinctLoop rest (seen.assign v ()) (result ++ [v])

/-- Function `Distinct` (functional.go:57-67); the element type is any `comparable`
type, with Go's `==`. -/
def Distinct [Concurrent.Comparable T] (s : List T) : List T :=
  distinctLoop s Concurrent.GoMap.make []

/-- Specification side of `Distinct`: the elements of `s` that are `==` to no element of
`before` and to no earlier element of `s`, in the order of `s`. -/
def firstOccurrencesFrom [Concurrent.Comparable T] (before : List T) : List T → List T
  | [] => []
  | x :: rest =>
    if before.any (fun y => Concurrent.Comparable.eq y x) then
      firstOccurrencesFrom (before ++ [x]) rest
    else x :: firstOccurrencesFrom (before ++ [x]) rest

/-- Specification side of `Distinct`: the subsequence of `s` made of the elements that
are `==` to no earlier element, that is of the first occurrence of each value. -/
def firstOccurrences [Concurrent.Comparable T] (s : List T) : List T :=
  firstOccurrencesFrom [] s

/-- The loop of `Zip` (functional.go:206-208) over the remaining indices of `range s1`. -/
def zipLoop (s1 : List T) (s2 : List U) (f : T → U → V) :
    List Nat → List V → Outcome (List V)
  | [], result => Outcome.done result
  | i :: rest, result =>
    match s1[i]?, s2[i]? with
    | some a, some b =>
      if i < result.length then zipLoop s1 s2 f rest (result.set i (f a b))
      else Outcome.panicked
    | _, _ => Outcome.panicked

/-- Function `Zip` (functional.go:201-210); `make([]V, len(s1))` is a slice of zero
values, `default` here. The function `f` is total and does not panic. -/
def Zip [Inhabited V] (s1 : List T) (s2 : List U) (f : T → U → V) : Outcome (List V) :=
  if s1.length ≠ s2.length then Outcome.panicked
  else zipLoop s1 s2 f (List.range s1.length) (List.replicate s1.length default)

/-- A slice value where being nil matters: Go's nil slice, or a non-nil slice with its
elements. -/
inductive Slice (T : Type) where
  /-- The nil slice. -/
  | nil
  /-- A non-nil slice holding `elems`. -/
  | of (elems : List T)
  deriving DecidableEq, Repr

/-- The elements of a slice; the nil slice has none. -/
def Slice.elems : Slice T → List T
  | Slice.nil => []
  | Slice.of l => l

/-- Expression `len(s)`. -/
def Slice.len (s : Slice T) : Int := (s.elems.length : Int)

/-- Slice expression `s[lo:hi]` on a slice value: slicing the nil slice gives the nil
slice. -/
def Slice.slice (s : Slice T) (lo hi : Int) : Option (Slice T) :=
  match s with
  | Slice.nil => if lo = 0 ∧ hi = 0 then some Slice.nil else none
  | Slice.of l => (Fn.slice l lo hi).map Slice.of

/-- Function `Take` (functional.go:138-143). -/
def Take (s : Slice T) (n : Int) : Outcome (Slice T) :=
  if n > s.len then Outcome.done s
  else
    match s.slice 0 n with
    | none => Outcome.panicked
    | some r => Outcome.done r

/-- Function `Drop` (functional.go:159-164). -/
def Drop (s : Slice T) (n : Int) : Outcome (Slice T) :=
  if n > s.len then Outcome.done Slice.nil
  else
    match s.slice n s.len with
    | none => Outcome.panicked
    | some r => Outcome.done r

/-- The loop of `Shuffle` (functional.go:101-104) at index `i`; `draw i` is the value that
`rand.Intn(i + 1)` returns in the iteration with index `i`. One unit of `fuel` for every
evaluation of the loop condition. -/
def shuffleLoop (draw : Int → Int) : Nat → List T → Int → Outcome (List T)
  | 0, _, _ => Outcome.outOfFuel
  | fuel + 1, s, i =>
    if i > 0 then
      match index s i, index s (draw i) with
      | some a, some b =>
        shuffleLoop draw fuel ((s.set i.toNat b).set (draw i).toNat a) (i - 1)
      | _, _ => Outcome.panicked
    else Outcome.done s

/-- Function `Shuffle` (functional.go:100-105): the slice after the call, for the random
draws `draw`. -/
def Shuffle (draw : Int → Int) (fuel : Nat) (s : List T) : Outcome (List T) :=
  shuffleLoop draw fuel s ((s.length : Int) - 1)

end Fn

/-! ## `Parallel`: invariant -/

namespace Concurrent.Parallel

variable {E : Type}

/-- The invariant of every reachable state of one invocation. -/
structure Inv (c : Cfg E) (s : State E) : Prop where
  nworkers : s.workers.length = c.maxWorkers
  ile : s.i ≤ c.tasks.length
  sub : (s.tasksCh ++ s.started).Perm (List.range s.i)
  exec : s.started.Perm (runningOf s.workers ++ s.finished)
  res : (s.finished.map (fun j => c.tasks.getD j none)).Perm
          (sendingOf s.workers ++ (s.received ++ s.resultsCh))
  wgLive : s.wg = liveOf s.workers
  noPanic : s.panicked = false
  closedWg : s.resultsClosed = true → s.wg = 0
  exitedDrained : s.wg < s.workers.length → s.tasksClosed = true ∧ s.tasksCh = []
  closedAll : s.tasksClosed = true → s.i = c.tasks.length
  pcSub : s.pc = Pc.submitting → s.tasksClosed = false ∧ s.closer = Closer.notStarted
  pcSpawn : s.pc = Pc.spawning → s.tasksClosed = true ∧ s.closer = Closer.notStarted
  pcColl : s.pc = Pc.collecting → s.tasksClosed = true ∧ s.closer ≠ Closer.notStarted
  closerOpen : s.closer ≠ Closer.done → s.resultsClosed = false
  closerDone : s.closer = Closer.done → s.resultsClosed = true
  ctxFired : s.ctxDone = true → c.ctx.done = true ∨ c.ctx.canFire = true
  errs : (∀ r, s.pc ≠ Pc.returned r) →
    s.taskErr = firstErr s.received ∧
      (stopOnErr c.stopOnError = true → ∀ x ∈ s.received, x = none)
  ret : ∀ r, s.pc = Pc.returned r →
    (s.ctxDone = true ∧ r = some c.ctx.err) ∨
    (stopOnErr c.stopOnError = true ∧ r.isSome = true ∧ r ∈ s.received) ∨
    (r = firstErr s.received ∧ s.resultsClosed = true ∧ s.resultsCh = [] ∧
      (stopOnErr c.stopOnError = true → ∀ x ∈ s.received, x = none))

theorem gather_set {α : Type} (f : Worker E → List α) (ws : List (Worker E)) (w : Nat)
    (x y : Worker E) (h : ws[w]? = some y) :
    (f y ++ gather f (ws.set w x)).Perm (f x ++ gather f ws) := by
  induction ws generalizing w with
  | nil => simp at h
  | cons a ws ih =>
    cases w with
    | zero =>
      simp at h
      subst h
      simp only [List.set_cons_zero, gather]
      exact List.perm_append_comm_assoc _ _ _
    | succ w =>
      simp at h
      simp only [List.set_cons_succ, gather]
      exact (List.perm_append_comm_assoc _ _ _).trans
        (((ih w h).append_left (f a)).trans (List.perm_append_comm_assoc _ _ _))

theorem gather_replicate_nil {α : Type} (f : Worker E → List α) (x : Worker E)
    (hx : f x = []) (n : Nat) : gather f (List.replicate n x) = [] := by
  induction n with
  | zero => rfl
  | succ n ih => simp [List.replicate_succ, gather, hx, ih]

theorem liveOf_replicate_idle (n : Nat) :
    liveOf (List.replicate n (Worker.idle : Worker E)) = n := by
  induction n with
  | zero => rfl
  | succ n ih =>
    simp only [liveOf] at ih
    simp [List.replicate_succ, liveOf, gather, liveUnit, ih, Nat.add_comm]

theorem firstErr_append (l : List (Option E)) (x : Option E) :
    firstErr (l ++ [x]) = if (firstErr l).isNone && x.isSome then x else firstErr l := by
  induction l with
  | nil => cases x <;> simp [firstErr]
  | cons a l ih =>
    cases a with
    | none => simpa [firstErr] using ih
    | some e => simp [firstErr]

theorem init_inv (c : Cfg E) : Inv c (start c) := by
  constructor <;>
    simp [start, runningOf, sendingOf, gather_replicate_nil, runTask, heldResult,
      liveOf_replicate_idle, firstErr]
  intro h
  exact Or.inl h

theorem runningOf_set (ws : List (Worker E)) (w : Nat) (x y : Worker E)
    (h : ws[w]? = some y) :
    (runTask y ++ runningOf (ws.set w x)).Perm (runTask x ++ runningOf ws) :=
  gather_set runTask ws w x y h

theorem sendingOf_set (ws : List (Worker E)) (w : Nat) (x y : Worker E)
    (h : ws[w]? = some y) :
    (heldResult y ++ sendingOf (ws.set w x)).Perm (heldResult x ++ sendingOf ws) :=
  gather_set heldResult ws w x y h

theorem liveOf_set (ws : List (Worker E)) (w : Nat) (x y : Worker E)
    (h : ws[w]? = some y) :
    (liveUnit y).length + liveOf (ws.set w x) = (liveUnit x).length + liveOf ws := by
  have := (gather_set liveUnit ws w x y h).length_eq
  simpa [liveOf] using this

theorem live_pos_of_mem (ws : List (Worker E)) (w : Nat) (y : Worker E)
    (h : ws[w]? = some y) (hy : y ≠ Worker.exited) : 0 < liveOf ws := by
  have := liveOf_set ws w Worker.exited y h
  cases y <;> simp_all [liveUnit] <;> omega

theorem worker_inv {c : Cfg E} {s t : State E} {w : Nat} (h : Inv c s)
    (hw : worker c s w = some t) : Inv c t := by
  unfold worker at hw
  split at hw
  · simp at hw
  · next hget =>
    have hrun := runningOf_set s.workers w
    have hsend := sendingOf_set s.workers w
    have hlive := liveOf_set s.workers w
    split at hw
    · next j rest hq =>
      cases hw
      have hrun := hrun (Worker.running j) _ hget
      have hsend := hsend (Worker.running j) _ hget
      have hlive := hlive (Worker.running j) _ hget
      simp only [runTask, heldResult, liveUnit, List.nil_append, List.length_singleton] at hrun hsend hlive
      have hsub := h.sub
      have hexec := h.exec
      rw [hq] at hsub
      exact { h with
        nworkers := by simpa using h.nworkers
        sub := by
          refine List.Perm.trans ?_ hsub
          rw [← Multiset.coe_eq_coe]
          simp only [← Multiset.coe_add, ← Multiset.cons_coe, ← Multiset.singleton_add,
            List.cons_append, Multiset.coe_nil]
          abel
        exec := by
          rw [← Multiset.coe_eq_coe] at hexec hrun ⊢
          simp only [← Multiset.coe_add, ← Multiset.cons_coe, ← Multiset.singleton_add,
            List.cons_append, Multiset.coe_nil] at hexec hrun ⊢
          rw [hexec, hrun]
          abel
        res := h.res.trans (hsend.symm.append_right _)
        wgLive := by
          have := h.wgLive
          show s.wg = liveOf (s.workers.set w (Worker.running j))
          omega
        exitedDrained := by
          intro hlt
          have := h.exitedDrained (by simpa using hlt)
          simp [hq] at this }
    · next hq =>
      split at hw
      · next hclosed =>
        cases hw
        have hrun := hrun Worker.exited _ hget
        have hsend := hsend Worker.exited _ hget
        have hlive := hlive Worker.exited _ hget
        simp only [runTask, heldResult, liveUnit, List.nil_append, List.length_singleton,
          List.length_nil] at hrun hsend hlive
        have hwg := h.wgLive
        exact { h with
          nworkers := by simpa using h.nworkers
          exec := h.exec.trans (hrun.symm.append_right _)
          res := h.res.trans (hsend.symm.append_right _)
          wgLive := by
            show s.wg - 1 = liveOf (s.workers.set w Worker.exited)
            omega
          closedWg := by
            intro hc
            have := h.closedWg hc
            show s.wg - 1 = 0
            omega
          exitedDrained := fun _ => ⟨hclosed, hq⟩ }
      · simp at hw
  · next j hget =>
    cases hw
    have hrun := runningOf_set s.workers w (Worker.sending (c.tasks.getD j none)) _ hget
    have hsend := sendingOf_set s.workers w (Worker.sending (c.tasks.getD j none)) _ hget
    have hlive := liveOf_set s.workers w (Worker.sending (c.tasks.getD j none)) _ hget
    simp only [runTask, heldResult, liveUnit, List.nil_append, List.length_singleton]
      at hrun hsend hlive
    have hexec := h.exec
    have hres := h.res
    exact { h with
      nworkers := by simpa using h.nworkers
      exec := by
        rw [← Multiset.coe_eq_coe] at hexec hrun ⊢
        simp only [← Multiset.coe_add, ← Multiset.cons_coe, ← Multiset.singleton_add,
          List.cons_append, Multiset.coe_nil] at hexec hrun ⊢
        rw [hexec, ← hrun]
        abel
      res := by
        show ((s.finished ++ [j]).map (fun j => c.tasks.getD j none)).Perm _
        rw [List.map_append, List.map_singleton]
        rw [← Multiset.coe_eq_coe] at hres hsend ⊢
        simp only [← Multiset.coe_add, ← Multiset.cons_coe, ← Multiset.singleton_add,
          List.cons_append, Multiset.coe_nil] at hres hsend ⊢
        rw [hres, hsend]
        abel
      wgLive := by
        have := h.wgLive
        show s.wg = liveOf (s.workers.set w (Worker.sending (c.tasks.getD j none)))
        omega
      exitedDrained := by
        intro hlt
        exact h.exitedDrained (by simpa using hlt) }
  · next r hget =>
    have hpos := live_pos_of_mem s.workers w _ hget (by simp)
    have hwg := h.wgLive
    split at hw
    · next hclosed =>
      have := h.closedWg hclosed
      omega
    · next hopen =>
      split at hw
      · cases hw
        have hrun := runningOf_set s.workers w Worker.idle _ hget
        have hsend := sendingOf_set s.workers w Worker.idle _ hget
        have hlive := liveOf_set s.workers w Worker.idle _ hget
        simp only [runTask, heldResult, liveUnit, List.nil_append, List.length_singleton]
          at hrun hsend hlive
        have hres := h.res
        exact { h with
          nworkers := by simpa using h.nworkers
          exec := h.exec.trans (hrun.symm.append_right _)
          res := by
            rw [← Multiset.coe_eq_coe] at hres hsend ⊢
            simp only [← Multiset.coe_add, ← Multiset.cons_coe, ← Multiset.singleton_add,
              List.cons_append, Multiset.coe_nil] at hres hsend ⊢
            rw [hres, ← hsend]
            abel
          wgLive := by
            show s.wg = liveOf (s.workers.set w Worker.idle)
            omega
          exitedDrained := by
            intro hlt
            exact h.exitedDrained (by simpa using hlt)
          ret := by
            intro r0 hr0
            rcases h.ret r0 hr0 with h1 | h1 | h1
            · exact Or.inl h1
            · exact Or.inr (Or.inl h1)
            · exact absurd h1.2.1 hopen }
      · simp at hw
  · simp at hw

theorem main_inv {c : Cfg E} {s t : State E} (h : Inv c s)
    (hm : main c s = some t) : Inv c t := by
  unfold main at hm
  split at hm
  · next hpc =>
    have hsubm := h.pcSub hpc
    split at hm
    · next hi =>
      split at hm
      · cases hm
        have hsub := h.sub
        exact { h with
          ile := hi
          sub := by
            show ((s.tasksCh ++ [s.i]) ++ s.started).Perm (List.range (s.i + 1))
            rw [List.range_succ]
            rw [← Multiset.coe_eq_coe] at hsub ⊢
            simp only [← Multiset.coe_add, ← Multiset.cons_coe, ← Multiset.singleton_add,
              List.cons_append, Multiset.coe_nil] at hsub ⊢
            rw [← hsub]
            abel
          exitedDrained := by
            intro hlt
            have := (h.exitedDrained hlt).1
            simp [hsubm.1] at this
          closedAll := by
            intro hc
            have : s.tasksClosed = true := hc
            simp [hsubm.1] at this }
      · simp at hm
    · next hi =>
      cases hm
      exact { h with
        exitedDrained := by
          intro hlt
          have := (h.exitedDrained hlt).1
          simp [hsubm.1] at this
        closedAll := by
          intro _
          have := h.ile
          show s.i = c.tasks.length
          omega
        pcSub := by intro hc; cases hc
        pcSpawn := fun _ => ⟨rfl, hsubm.2⟩
        pcColl := by intro hc; cases hc
        errs := fun _ => h.errs (by intro r; rw [hpc]; simp)
        ret := by intro r hr; cases hr }
  · next hpc =>
    cases hm
    have hsp := h.pcSpawn hpc
    exact { h with
      pcSub := by intro hc; cases hc
      pcSpawn := by intro hc; cases hc
      pcColl := fun _ => ⟨hsp.1, by simp⟩
      closerOpen := fun _ => h.closerOpen (by rw [hsp.2]; simp)
      closerDone := by intro hc; cases hc
      errs := fun _ => h.errs (by intro r; rw [hpc]; simp)
      ret := by intro r hr; cases hr }
  · next hpc =>
    have herrs := h.errs (by intro r; rw [hpc]; simp)
    split at hm
    · next err rest hq =>
      have hres := h.res
      rw [hq] at hres
      have hres2 : (s.finished.map (fun j => c.tasks.getD j none)).Perm
          (sendingOf s.workers ++ ((s.received ++ [err]) ++ rest)) := by
        simpa using hres
      split at hm
      · next hstop =>
        cases hm
        simp only [Bool.and_eq_true] at hstop
        exact { h with
          res := hres2
          pcSub := by intro hc; cases hc
          pcSpawn := by intro hc; cases hc
          pcColl := by intro hc; cases hc
          errs := by intro hne; exact absurd rfl (hne err)
          ret := by
            intro r hr
            cases hr
            exact Or.inr (Or.inl ⟨hstop.1, hstop.2, by simp⟩) }
      · next hstop =>
        have hnone : stopOnErr c.stopOnError = true → err = none := by
          intro hs
          cases err with
          | none => rfl
          | some e => simp [hs] at hstop
        split at hm
        · next hfirst =>
          cases hm
          exact { h with
            res := hres2
            errs := by
              intro _
              refine ⟨?_, ?_⟩
              · show err = firstErr (s.received ++ [err])
                rw [firstErr_append, ← herrs.1, hfirst]
                simp
              · intro hs x hx
                rcases List.mem_append.1 hx with hx | hx
                · exact herrs.2 hs x hx
                · simp at hx
                  rw [hx]
                  exact hnone hs
            ret := by intro r hr; exact absurd hr (by rw [hpc]; simp) }
        · next hfirst =>
          cases hm
          exact { h with
            res := hres2
            errs := by
              intro _
              refine ⟨?_, ?_⟩
              · show s.taskErr = firstErr (s.received ++ [err])
                rw [firstErr_append, ← herrs.1]
                simp [hfirst]
              · intro hs x hx
                rcases List.mem_append.1 hx with hx | hx
                · exact herrs.2 hs x hx
                · simp at hx
                  rw [hx]
                  exact hnone hs
            ret := by intro r hr; exact absurd hr (by rw [hpc]; simp) }
    · next hq =>
      split at hm
      · next hclosed =>
        cases hm
        exact { h with
          pcSub := by intro hc; cases hc
          pcSpawn := by intro hc; cases hc
          pcColl := by intro hc; cases hc
          errs := by intro hne; exact absurd rfl (hne s.taskErr)
          ret := by
            intro r hr
            cases hr
            exact Or.inr (Or.inr ⟨herrs.1, hclosed, hq, herrs.2⟩) }
      · simp at hm
  · simp at hm

theorem ctxCase_inv {c : Cfg E} {s t : State E} (h : Inv c s)
    (hm : ctxCase c s = some t) : Inv c t := by
  unfold ctxCase at hm
  split at hm
  · next hdone =>
    split at hm
    · split at hm
      · cases hm
        exact { h with
          pcSub := by intro hc; cases hc
          pcSpawn := by intro hc; cases hc
          pcColl := by intro hc; cases hc
          errs := by intro hne; exact absurd rfl (hne (some c.ctx.err))
          ret := by
            intro r hr
            cases hr
            exact Or.inl ⟨hdone, rfl⟩ }
      · simp at hm
    · cases hm
      exact { h with
        pcSub := by intro hc; cases hc
        pcSpawn := by intro hc; cases hc
        pcColl := by intro hc; cases hc
        errs := by intro hne; exact absurd rfl (hne (some c.ctx.err))
        ret := by
          intro r hr
          cases hr
          exact Or.inl ⟨hdone, rfl⟩ }
    · simp at hm
  · simp at hm

theorem closer_inv {c : Cfg E} {s t : State E} (h : Inv c s)
    (hm : closer s = some t) : Inv c t := by
  unfold closer at hm
  split at hm
  · next hcl =>
    split at hm
    · next hwg =>
      cases hm
      exact { h with
        closedWg := fun _ => hwg
        pcSub := by
          intro hc
          have := (h.pcSub hc).2
          simp [hcl] at this
        pcSpawn := by
          intro hc
          have := (h.pcSpawn hc).2
          simp [hcl] at this
        pcColl := fun hc => ⟨(h.pcColl hc).1, by simp⟩
        closerOpen := by intro hc; exact absurd rfl hc
        closerDone := fun _ => rfl
        ret := by
          intro r hr
          rcases h.ret r hr with h1 | h1 | h1
          · exact Or.inl h1
          · exact Or.inr (Or.inl h1)
          · exact Or.inr (Or.inr ⟨h1.1, rfl, h1.2.2⟩) }
    · simp at hm
  · simp at hm

theorem cancel_inv {c : Cfg E} {s t : State E} (h : Inv c s)
    (hm : cancel c s = some t) : Inv c t := by
  unfold cancel at hm
  split at hm
  · next hfire =>
    cases hm
    simp only [Bool.and_eq_true] at hfire
    exact { h with
      ctxFired := fun _ => Or.inr hfire.1
      ret := by
        intro r hr
        rcases h.ret r hr with h1 | h1 | h1
        · exact Or.inl ⟨rfl, h1.2⟩
        · exact Or.inr (Or.inl h1)
        · exact Or.inr (Or.inr h1) }
  · simp at hm

theorem step_inv {c : Cfg E} {s t : State E} {a : Action} (h : Inv c s)
    (hs : step c s a = some t) : Inv c t := by
  unfold step at hs
  split at hs
  · simp at hs
  · cases a with
    | cancel => exact cancel_inv h hs
    | ctxCase => exact ctxCase_inv h hs
    | main => exact main_inv h hs
    | closer => exact closer_inv h hs
    | worker w => exact worker_inv h hs

theorem run_inv {c : Cfg E} {s t : State E} (sched : List Action) (h : Inv c s)
    (hr : run c s sched = some t) : Inv c t := by
  induction sched generalizing s with
  | nil =>
    simp only [run, Option.some.injEq] at hr
    exact hr ▸ h
  | cons a rest ih =>
    simp only [run] at hr
    cases hstep : step c s a with
    | none => simp [hstep] at hr
    | some u =>
      rw [hstep] at hr
      exact ih (step_inv h hstep) hr

theorem reachable_inv {c : Cfg E} {s : State E} (h : Reachable c s) : Inv c s := by
  obtain ⟨sched, hr⟩ := h
  exact run_inv sched (init_inv c) hr

/-! ## `Parallel`: termination -/

theorem workUnits_set (ws : List (Worker E)) (w : Nat) (x y : Worker E)
    (h : ws[w]? = some y) :
    (workUnits y).length + (gather workUnits (ws.set w x)).length
      = (workUnits x).length + (gather workUnits ws).length := by
  have := (gather_set workUnits ws w x y h).length_eq
  simpa using this

theorem cancel_decreases {c : Cfg E} {s t : State E}
    (hs : cancel c s = some t) : stepsLeft c t < stepsLeft c s := by
  unfold cancel at hs
  split at hs
  · next hf =>
    cases hs
    simp only [Bool.and_eq_true, Bool.not_eq_true'] at hf
    simp [stepsLeft, hf.2]
  · simp at hs

theorem ctxCase_decreases {c : Cfg E} {s t : State E}
    (hs : ctxCase c s = some t) : stepsLeft c t < stepsLeft c s := by
  unfold ctxCase at hs
  split at hs
  · split at hs
    · next hpc =>
      split at hs
      · cases hs
        simp [stepsLeft, hpc, pcWeight]
      · simp at hs
    · next hpc =>
      cases hs
      simp [stepsLeft, hpc, pcWeight]
    · simp at hs
  · simp at hs

theorem main_decreases {c : Cfg E} {s t : State E}
    (hs : main c s = some t) : stepsLeft c t < stepsLeft c s := by
  unfold main at hs
  split at hs
  · next hpc =>
    split at hs
    · split at hs
      · cases hs
        simp only [stepsLeft, List.length_append, List.length_singleton]
        omega
      · simp at hs
    · cases hs
      simp [stepsLeft, hpc, pcWeight]
  · next hpc =>
    cases hs
    simp only [stepsLeft, hpc, pcWeight, closerWeight]
    cases hcl : s.closer <;> simp
  · next hpc =>
    split at hs
    · next err rest hq =>
      split at hs
      · cases hs
        simp only [stepsLeft, hpc, hq, pcWeight, List.length_cons]
        omega
      · split at hs
        · cases hs
          simp only [stepsLeft, hpc, hq, pcWeight, List.length_cons]
          omega
        · cases hs
          simp only [stepsLeft, hpc, hq, pcWeight, List.length_cons]
          omega
    · split at hs
      · cases hs
        simp [stepsLeft, hpc, pcWeight]
      · simp at hs
  · simp at hs

theorem closer_decreases {c : Cfg E} {s t : State E}
    (hs : closer s = some t) : stepsLeft c t < stepsLeft c s := by
  unfold closer at hs
  split at hs
  · next hcl =>
    split at hs
    · cases hs
      simp [stepsLeft, hcl, closerWeight]
    · simp at hs
  · simp at hs

theorem worker_decreases {c : Cfg E} {s t : State E} {w : Nat} (hp : ¬ s.panicked = true)
    (hs : worker c s w = some t) : stepsLeft c t < stepsLeft c s := by
  unfold worker at hs
  split at hs
  · simp at hs
  · next hget =>
    split at hs
    · next j rest hq =>
      cases hs
      have := workUnits_set s.workers w (Worker.running j) _ hget
      simp only [workUnits, List.length_cons, List.length_nil] at this
      simp only [stepsLeft, hq, List.length_cons]
      omega
    · split at hs
      · cases hs
        have := workUnits_set s.workers w Worker.exited _ hget
        simp only [workUnits, List.length_cons, List.length_nil] at this
        simp only [stepsLeft]
        omega
      · simp at hs
  · next j hget =>
    cases hs
    have := workUnits_set s.workers w (Worker.sending (c.tasks.getD j none)) _ hget
    simp only [workUnits, List.length_cons, List.length_nil] at this
    simp only [stepsLeft]
    omega
  · next r hget =>
    split at hs
    · cases hs
      simp [stepsLeft, hp]
    · split at hs
      · cases hs
        have := workUnits_set s.workers w Worker.idle _ hget
        simp only [workUnits, List.length_cons, List.length_nil] at this
        simp only [stepsLeft, List.length_append, List.length_singleton]
        omega
      · simp at hs
  · simp at hs

theorem step_decreases {c : Cfg E} {s t : State E} {a : Action}
    (hs : step c s a = some t) : stepsLeft c t < stepsLeft c s := by
  unfold step at hs
  split at hs
  · simp at hs
  · next hp =>
    cases a with
    | cancel => exact cancel_decreases hs
    | ctxCase => exact ctxCase_decreases hs
    | main => exact main_decreases hs
    | closer => exact closer_decreases hs
    | worker w => exact worker_decreases hp hs

theorem run_length {c : Cfg E} {s t : State E} (sched : List Action)
    (hr : run c s sched = some t) : sched.length + stepsLeft c t ≤ stepsLeft c s := by
  induction sched generalizing s with
  | nil =>
    simp only [run, Option.some.injEq] at hr
    subst hr
    simp
  | cons a rest ih =>
    simp only [run] at hr
    cases hstep : step c s a with
    | none => simp [hstep] at hr
    | some u =>
      rw [hstep] at hr
      have h1 := ih hr
      have h2 := step_decreases hstep
      simp only [List.length_cons]
      omega

theorem stepsLeft_start (c : Cfg E) :
    stepsLeft c (start c) ≤ 5 * c.tasks.length + c.maxWorkers + 7 := by
  have hlen : (gather workUnits (List.replicate c.maxWorkers (Worker.idle : Worker E))).length
      = c.maxWorkers := by
    induction c.maxWorkers with
    | zero => rfl
    | succ n ih => simp [List.replicate_succ, gather, workUnits, ih, Nat.add_comm]
  simp only [stepsLeft, start, hlen, pcWeight, closerWeight, List.length_nil]
  split <;> simp

theorem exists_live (ws : List (Worker E)) (h : 0 < liveOf ws) :
    ∃ (w : Nat) (y : Worker E), ws[w]? = some y ∧ y ≠ Worker.exited := by
  induction ws with
  | nil => simp [liveOf, gather] at h
  | cons a ws ih =>
    by_cases ha : a = Worker.exited
    · subst ha
      have h2 : 0 < liveOf ws := by simpa [liveOf, gather, liveUnit] using h
      obtain ⟨w, y, hw, hy⟩ := ih h2
      exact ⟨w + 1, y, by simpa using hw, hy⟩
    · exact ⟨0, a, by simp, ha⟩

theorem sending_pos (ws : List (Worker E)) (w : Nat) (r : Option E)
    (h : ws[w]? = some (Worker.sending r)) : 0 < (sendingOf ws).length := by
  have := (sendingOf_set ws w Worker.idle _ h).length_eq
  simp [heldResult] at this
  omega

theorem all_exited (ws : List (Worker E)) (h : liveOf ws = 0) :
    runningOf ws = [] ∧ sendingOf ws = [] := by
  induction ws with
  | nil => exact ⟨rfl, rfl⟩
  | cons a ws ih =>
    cases a with
    | exited =>
      have h2 : liveOf ws = 0 := by simpa [liveOf, gather, liveUnit] using h
      have := ih h2
      simpa [runningOf, sendingOf, gather, runTask, heldResult] using this
    | idle => simp [liveOf, gather, liveUnit] at h
    | running j => simp [liveOf, gather, liveUnit] at h
    | sending r => simp [liveOf, gather, liveUnit] at h

theorem step_noPanic {c : Cfg E} {s : State E} (h : Inv c s) (a : Action) :
    step c s a = match a with
      | Action.cancel => cancel c s
      | Action.ctxCase => ctxCase c s
      | Action.main => main c s
      | Action.closer => closer s
      | Action.worker w => worker c s w := by
  simp [step, h.noPanic]

/-- Before the call has returned some goroutine can always move: no deadlock. -/
theorem progress {c : Cfg E} {s : State E} (h : Inv c s)
    (hpc : ∀ r, s.pc ≠ Pc.returned r) : ∃ a t, step c s a = some t := by
  have hlenSub : s.tasksCh.length + s.started.length = s.i := by
    have := h.sub.length_eq
    simpa using this
  have hlenExec : s.started.length = (runningOf s.workers).length + s.finished.length := by
    have := h.exec.length_eq
    simpa using this
  have hlenRes : s.finished.length
      = (sendingOf s.workers).length + (s.received.length + s.resultsCh.length) := by
    have := h.res.length_eq
    simpa using this
  have hile := h.ile
  cases hp : s.pc with
  | returned r => exact absurd hp (hpc r)
  | submitting =>
    refine ⟨Action.main, ?_⟩
    rw [step_noPanic h]
    by_cases hi : s.i < c.tasks.length
    · have : s.tasksCh.length < c.tasks.length := by omega
      simp [main, hp, hi, this]
    · simp [main, hp, hi]
  | spawning =>
    refine ⟨Action.main, ?_⟩
    rw [step_noPanic h]
    simp [main, hp]
  | collecting =>
    have hcoll := h.pcColl hp
    cases hq : s.resultsCh with
    | cons err rest =>
      refine ⟨Action.main, ?_⟩
      rw [step_noPanic h]
      simp only [main, hp, hq]
      split
      · exact ⟨_, rfl⟩
      · split
        · exact ⟨_, rfl⟩
        · exact ⟨_, rfl⟩
    | nil =>
      by_cases hclosed : s.resultsClosed = true
      · refine ⟨Action.main, ?_⟩
        rw [step_noPanic h]
        simp [main, hp, hq, hclosed]
      · have hwait : s.closer = Closer.waiting := by
          cases hcl : s.closer with
          | notStarted => exact absurd hcl hcoll.2
          | waiting => rfl
          | done => exact absurd (h.closerDone hcl) hclosed
        by_cases hwg : s.wg = 0
        · refine ⟨Action.closer, ?_⟩
          rw [step_noPanic h]
          simp [closer, hwait, hwg]
        · have hlive : 0 < liveOf s.workers := by
            have := h.wgLive
            omega
          obtain ⟨w, y, hw, hy⟩ := exists_live s.workers hlive
          refine ⟨Action.worker w, ?_⟩
          rw [step_noPanic h]
          cases y with
          | exited => exact absurd rfl hy
          | idle =>
            cases ht : s.tasksCh with
            | nil => simp [worker, hw, ht, hcoll.1]
            | cons j rest => simp [worker, hw, ht]
          | running j => simp [worker, hw]
          | sending r =>
            have hpos := sending_pos s.workers w r hw
            have : s.resultsCh.length < c.tasks.length := by
              rw [hq]
              simp only [List.length_nil]
              omega
            simp [worker, hw, hclosed, this]

/-- From every state that satisfies the invariant some schedule makes the call return. -/
theorem can_return {c : Cfg E} (k : Nat) (s : State E) (hk : stepsLeft c s ≤ k)
    (h : Inv c s) : ∃ sched t r, run c s sched = some t ∧ t.pc = Pc.returned r := by
  induction k generalizing s with
  | zero =>
    by_cases hpc : ∀ r, s.pc ≠ Pc.returned r
    · obtain ⟨a, t, ht⟩ := progress h hpc
      have := step_decreases ht
      omega
    · push_neg at hpc
      obtain ⟨r, hr⟩ := hpc
      exact ⟨[], s, r, rfl, hr⟩
  | succ k ih =>
    by_cases hpc : ∀ r, s.pc ≠ Pc.returned r
    · obtain ⟨a, t, ht⟩ := progress h hpc
      have hlt := step_decreases ht
      obtain ⟨sched, u, r, hrun, hr⟩ := ih t (by omega) (step_inv h ht)
      exact ⟨a :: sched, u, r, by simp [run, ht, hrun], hr⟩
    · push_neg at hpc
      obtain ⟨r, hr⟩ := hpc
      exact ⟨[], s, r, rfl, hr⟩

/-! ## `Parallel`: what a closed result channel means -/

theorem map_getD_range (l : List (Option E)) :
    (List.range l.length).map (fun j => l.getD j none) = l := by
  apply List.ext_getElem
  · simp
  · intro n h1 h2
    simp [List.getD_eq_getElem?_getD, List.getElem?_eq_getElem h2]

theorem getD_mem_or_none (l : List (Option E)) (j : Nat) :
    l.getD j none = none ∨ l.getD j none ∈ l := by
  by_cases hj : j < l.length
  · right
    simp [List.getD_eq_getElem?_getD, List.getElem?_eq_getElem hj]
  · left
    simp [List.getD_eq_getElem?_getD, List.getElem?_eq_none (Nat.le_of_not_lt hj)]

/-- Every value read from `resultsCh` is the return value of one of the tasks. -/
theorem received_mem {c : Cfg E} {s : State E} (h : Inv c s) {x : Option E}
    (hx : x ∈ s.received) : x = none ∨ x ∈ c.tasks := by
  have h1 : x ∈ sendingOf s.workers ++ (s.received ++ s.resultsCh) := by simp [hx]
  have h2 := (h.res.mem_iff).2 h1
  obtain ⟨j, _, hj⟩ := List.mem_map.1 h2
  rw [← hj]
  exact getD_mem_or_none c.tasks j

theorem firstErr_all_none (l : List (Option E)) (h : ∀ x ∈ l, x = none) :
    firstErr l = none := by
  induction l with
  | nil => rfl
  | cons a l ih =>
    have ha : a = none := h a (by simp)
    subst ha
    simpa [firstErr] using ih (fun x hx => h x (by simp [hx]))

/-- With at least one worker, `resultsCh` is closed only after every task has been
sent, started and finished, and every result is in the channel or already read. -/
theorem drained {c : Cfg E} {s : State E} (h : Inv c s) (hw : 1 ≤ c.maxWorkers)
    (hc : s.resultsClosed = true) :
    s.i = c.tasks.length ∧ s.tasksCh = [] ∧ s.started.Perm (List.range c.tasks.length) ∧
      s.finished.Perm (List.range c.tasks.length) ∧
      (s.received ++ s.resultsCh).Perm c.tasks := by
  have hwg := h.closedWg hc
  have hlt : s.wg < s.workers.length := by
    rw [h.nworkers]
    omega
  obtain ⟨htc, hq⟩ := h.exitedDrained hlt
  have hi := h.closedAll htc
  have hlive : liveOf s.workers = 0 := by
    rw [← h.wgLive]
    exact hwg
  obtain ⟨hrun, hsend⟩ := all_exited s.workers hlive
  have hsub := h.sub
  have hexec := h.exec
  have hres := h.res
  rw [hq, hi] at hsub
  rw [hrun] at hexec
  rw [hsend] at hres
  simp only [List.nil_append] at hsub hexec hres
  have hfin : s.finished.Perm (List.range c.tasks.length) := hexec.symm.trans hsub
  refine ⟨hi, hq, hsub, hfin, ?_⟩
  have := (hfin.map (fun j => c.tasks.getD j none)).symm.trans hres
  rw [map_getD_range] at this
  exact this.symm

theorem count_of_perm_range {l : List Nat} {n j : Nat} (h : l.Perm (List.range n))
    (hj : j < n) : l.count j = 1 := by
  rw [h.count_eq]
  exact List.count_eq_one_of_mem (List.nodup_range n) (List.mem_range.2 hj)

/-- A context that is not done and cannot fire stays not done. -/
theorem never_done {c : Cfg E} {s : State E} (h : Inv c s)
    (hctx : c.ctx.done = false ∧ c.ctx.canFire = false) : s.ctxDone = false := by
  cases hd : s.ctxDone with
  | false => rfl
  | true =>
    rcases h.ctxFired hd with h1 | h1
    · simp [hctx.1] at h1
    · simp [hctx.2] at h1

/-- Termination facts shared by the claims: runs are bounded, the program is never
stuck before the call returns, and a returning continuation exists. -/
theorem returns_always {c : Cfg E} {sched : List Action} {s : State E}
    (hrun : run c (start c) sched = some s) :
    sched.length ≤ 5 * c.tasks.length + c.maxWorkers + 7 ∧
    ((∀ r, s.pc ≠ Pc.returned r) → ∃ a t, step c s a = some t) ∧
    ∃ more t r, run c s more = some t ∧ t.pc = Pc.returned r := by
  have hinv : Inv c s := run_inv sched (init_inv c) hrun
  refine ⟨?_, progress hinv, can_return _ s (Nat.le_refl _) hinv⟩
  have h1 := run_length sched hrun
  have h2 := stepsLeft_start c
  omega

/-- Safety half of C1 on the invariant. -/
theorem ret_all_success {c : Cfg E} {s : State E} (h : Inv c s)
    (hnil : ∀ x ∈ c.tasks, x = none) (hw : 1 ≤ c.maxWorkers)
    (hctx : c.ctx.done = false ∧ c.ctx.canFire = false) {r : Option E}
    (hr : s.pc = Pc.returned r) :
    r = none ∧ ∀ j, j < c.tasks.length → s.started.count j = 1 ∧ s.finished.count j = 1 := by
  have hnd := never_done h hctx
  rcases h.ret r hr with h1 | h1 | h1
  · simp [hnd] at h1
  · obtain ⟨_, hsome, hmem⟩ := h1
    rcases received_mem h hmem with h2 | h2
    · simp [h2] at hsome
    · simp [hnil r h2] at hsome
  · obtain ⟨hfirst, hclosed, hq, _⟩ := h1
    obtain ⟨_, _, hst, hfin, hperm⟩ := drained h hw hclosed
    refine ⟨?_, fun j hj => ⟨count_of_perm_range hst hj, count_of_perm_range hfin hj⟩⟩
    rw [hfirst]
    apply firstErr_all_none
    intro x hx
    exact hnil x ((hperm.mem_iff).1 (by simp [hx]))

/-- Safety half of C2 on the invariant. -/
theorem ret_single_failure {c : Cfg E} {s : State E} (h : Inv c s) {e : E} {a b : Nat}
    (htasks : c.tasks = List.replicate a none ++ some e :: List.replicate b none)
    (hstop : stopOnErr c.stopOnError = true) (hw : 1 ≤ c.maxWorkers)
    (hctx : c.ctx.done = false ∧ c.ctx.canFire = false) {r : Option E}
    (hr : s.pc = Pc.returned r) : r = some e := by
  have hnd := never_done h hctx
  have hval : ∀ x ∈ c.tasks, x = none ∨ x = some e := by
    intro x hx
    rw [htasks] at hx
    simp only [List.mem_append, List.mem_cons, List.mem_replicate] at hx
    rcases hx with hx | hx | hx
    · exact Or.inl hx.2
    · exact Or.inr hx
    · exact Or.inl hx.2
  have hmem : some e ∈ c.tasks := by
    rw [htasks]
    simp
  rcases h.ret r hr with h1 | h1 | h1
  · simp [hnd] at h1
  · obtain ⟨_, hsome, hin⟩ := h1
    rcases received_mem h hin with h2 | h2
    · simp [h2] at hsome
    · rcases hval r h2 with h3 | h3
      · simp [h3] at hsome
      · exact h3
  · obtain ⟨_, hclosed, hq, hall⟩ := h1
    obtain ⟨_, _, _, _, hperm⟩ := drained h hw hclosed
    have : some e ∈ s.received := by
      have := (hperm.mem_iff).2 hmem
      simpa [hq] using this
    have := hall hstop _ this
    simp at this

/-- The first non-nil element of a list, stated without `firstErr`. -/
theorem firstErr_spec (l : List (Option E)) :
    (firstErr l = none ∧ ∀ x ∈ l, x = none) ∨
    ∃ e pre post, firstErr l = some e ∧ l = pre ++ some e :: post ∧ ∀ x ∈ pre, x = none := by
  induction l with
  | nil => exact Or.inl ⟨rfl, by simp⟩
  | cons a l ih =>
    cases a with
    | some e => exact Or.inr ⟨e, [], l, rfl, rfl, by simp⟩
    | none =>
      rcases ih with ⟨h1, h2⟩ | ⟨e, pre, post, h1, h2, h3⟩
      · exact Or.inl ⟨by simpa [firstErr] using h1, by simpa using h2⟩
      · refine Or.inr ⟨e, none :: pre, post, by simpa [firstErr] using h1, by simp [h2], ?_⟩
        intro x hx
        rcases List.mem_cons.1 hx with hx | hx
        · exact hx
        · exact h3 x hx

/-- Safety half of C3 on the invariant. -/
theorem ret_drained {c : Cfg E} {s : State E} (h : Inv c s)
    (hstop : stopOnErr c.stopOnError = false) (hw : 1 ≤ c.maxWorkers)
    (hctx : c.ctx.done = false ∧ c.ctx.canFire = false) {r : Option E}
    (hr : s.pc = Pc.returned r) :
    r = firstErr s.received ∧ s.resultsCh = [] ∧ s.received.Perm c.tasks ∧
      ∀ j, j < c.tasks.length → s.started.count j = 1 ∧ s.finished.count j = 1 := by
  have hnd := never_done h hctx
  rcases h.ret r hr with h1 | h1 | h1
  · simp [hnd] at h1
  · simp [hstop] at h1
  · obtain ⟨hfirst, hclosed, hq, _⟩ := h1
    obtain ⟨_, _, hst, hfin, hperm⟩ := drained h hw hclosed
    refine ⟨hfirst, hq, ?_, fun j hj => ⟨count_of_perm_range hst hj, count_of_perm_range hfin hj⟩⟩
    simpa [hq] using hperm

/-- Safety half of the amended C4 on the invariant. -/
theorem ret_no_tasks {c : Cfg E} {s : State E} (h : Inv c s) (hempty : c.tasks = [])
    {r : Option E} (hr : s.pc = Pc.returned r) :
    r = none ∨ (r = some c.ctx.err ∧ s.ctxDone = true) := by
  have hall : ∀ x ∈ s.received, x = none := by
    intro x hx
    rcases received_mem h hx with h2 | h2
    · exact h2
    · simp [hempty] at h2
  rcases h.ret r hr with h1 | h1 | h1
  · exact Or.inr ⟨h1.2, h1.1⟩
  · obtain ⟨_, hsome, hin⟩ := h1
    have := hall r hin
    simp [this] at hsome
  · left
    rw [h1.1]
    exact firstErr_all_none _ hall

theorem runningOf_length_le (ws : List (Worker E)) : (runningOf ws).length ≤ ws.length := by
  induction ws with
  | nil => simp [runningOf, gather]
  | cons a ws ih =>
    simp only [runningOf, gather, List.length_append, List.length_cons] at ih ⊢
    cases a <;> simp [runTask] <;> omega

end Concurrent.Parallel

/-! ## `Map`: lemmas on the builtin map -/

namespace Concurrent.GoMap

variable {K V : Type} [Comparable K]

/-- The operator `==` holds of `a` and `b` exactly when they are the same value and that
value is `==` to itself. -/
theorem eq_iff (a b : K) :
    Comparable.eq a b = true ↔ a = b ∧ Comparable.eq a a = true := by
  constructor
  · intro h
    have hab := Comparable.eq_same a b h
    subst hab
    exact ⟨rfl, h⟩
  · rintro ⟨rfl, h⟩
    exact h

theorem eq_symm (a b : K) : Comparable.eq a b = Comparable.eq b a := by
  cases hab : Comparable.eq a b with
  | true =>
    have h := Comparable.eq_same a b hab
    subst h
    exact hab.symm
  | false =>
    cases hba : Comparable.eq b a with
    | false => rfl
    | true =>
      have h := Comparable.eq_same b a hba
      subst h
      rw [hab] at hba
      exact hba

theorem eq_false_of_ne {a b : K} (h : a ≠ b) : Comparable.eq a b = false := by
  cases hab : Comparable.eq a b with
  | false => rfl
  | true => exact absurd (Comparable.eq_same a b hab) h

theorem lookup_eq_none_iff (k : K) (l : List (K × V)) :
    lookup k l = none ↔ ∀ p ∈ l, Comparable.eq p.1 k = false := by
  induction l with
  | nil => simp [lookup]
  | cons p l ih =>
    obtain ⟨k1, v⟩ := p
    cases hp : Comparable.eq k1 k with
    | true => simp [lookup, hp]
    | false => simp [lookup, hp, ih]

theorem lookup_without_self (k : K) (l : List (K × V)) : lookup k (without k l) = none := by
  rw [lookup_eq_none_iff]
  intro p hp
  simpa [without] using (List.mem_filter.1 hp).2

theorem lookup_without_other {k k1 : K} (h : Comparable.eq k1 k = false)
    (l : List (K × V)) : lookup k1 (without k l) = lookup k1 l := by
  induction l with
  | nil => rfl
  | cons p l ih =>
    obtain ⟨k2, v⟩ := p
    cases hp : Comparable.eq k2 k with
    | true =>
      have h1 : without k ((k2, v) :: l) = without k l := by simp [without, hp]
      have h2 : Comparable.eq k2 k1 = false := by
        rw [(eq_iff k2 k).1 hp |>.1, eq_symm]
        exact h
      rw [h1, ih]
      simp [lookup, h2]
    | false =>
      have h1 : without k ((k2, v) :: l) = (k2, v) :: without k l := by simp [without, hp]
      rw [h1]
      simp only [lookup, ih]

theorem without_eq_self {k : K} {l : List (K × V)}
    (h : ∀ p ∈ l, Comparable.eq p.1 k = false) : without k l = l := by
  apply List.filter_eq_self.2
  intro p hp
  simp [h p hp]

theorem without_of_not_mem {k : K} {l : List (K × V)} (h : k ∉ l.map Prod.fst) :
    without k l = l := by
  apply without_eq_self
  intro p hp
  apply eq_false_of_ne
  intro h1
  exact h (List.mem_map.2 ⟨p, hp, h1⟩)

/-- Deleting a key that is found removes exactly one entry. -/
theorem length_without_of_found {k : K} {l : List (K × V)}
    (hd : l.Pairwise (fun p q => Comparable.eq p.1 q.1 = false))
    (h : ∃ p ∈ l, Comparable.eq p.1 k = true) : (without k l).length + 1 = l.length := by
  induction l with
  | nil => simp at h
  | cons p l ih =>
    rw [List.pairwise_cons] at hd
    cases hp : Comparable.eq p.1 k with
    | true =>
      have h1 : without k (p :: l) = without k l := by simp [without, hp]
      have h2 : ∀ q ∈ l, Comparable.eq q.1 k = false := by
        intro q hq
        have := hd.1 q hq
        rw [(eq_iff p.1 k).1 hp |>.1] at this
        rw [eq_symm]
        exact this
      rw [h1, without_eq_self h2]
      simp
    | false =>
      have h1 : without k (p :: l) = p :: without k l := by simp [without, hp]
      have h2 : ∃ q ∈ l, Comparable.eq q.1 k = true := by
        obtain ⟨q, hq, hqk⟩ := h
        rcases List.mem_cons.1 hq with h3 | h3
        · rw [h3, hp] at hqk
          cases hqk
        · exact ⟨q, h3, hqk⟩
      rw [h1]
      simp only [List.length_cons]
      have := ih hd.2 h2
      omega

/-- The flag of `v, ok := m[k]`: some entry has a key that is `==` to `k`. -/
theorem index_snd [Inhabited V] (m : GoMap K V) (k : K) :
    (m.index k).2 = m.entries.any (fun p => Comparable.eq p.1 k) := by
  have h := lookup_eq_none_iff k m.entries
  cases hl : lookup k m.entries with
  | none =>
    rw [hl] at h
    have hall := h.1 rfl
    have : m.entries.any (fun p => Comparable.eq p.1 k) = false := by
      rw [List.any_eq_false]
      intro p hp
      simp [hall p hp]
    simp [index, hl, this]
  | some v =>
    rw [hl] at h
    have : m.entries.any (fun p => Comparable.eq p.1 k) = true := by
      rw [List.any_eq_true]
      by_contra hne
      have hall : ∀ p ∈ m.entries, Comparable.eq p.1 k = false := by
        intro p hp
        cases hpk : Comparable.eq p.1 k with
        | false => rfl
        | true => exact absurd ⟨p, hp, hpk⟩ hne
      have := h.2 hall
      simp at this
    simp [index, hl, this]

theorem index_snd_iff [Inhabited V] (m : GoMap K V) (k : K) :
    (m.index k).2 = true ↔ k ∈ m.entries.map Prod.fst ∧ Comparable.eq k k = true := by
  rw [index_snd, List.any_eq_true]
  constructor
  · rintro ⟨p, hp, hpk⟩
    obtain ⟨h1, h2⟩ := (eq_iff p.1 k).1 hpk
    rw [h1] at h2
    exact ⟨List.mem_map.2 ⟨p, hp, h1⟩, h2⟩
  · rintro ⟨hmem, hk⟩
    obtain ⟨p, hp, h1⟩ := List.mem_map.1 hmem
    exact ⟨p, hp, by rw [h1]; exact hk⟩

end Concurrent.GoMap

namespace Concurrent.Map

variable {K V : Type} [Comparable K]

/-- Keys stored in the map. -/
theorem keys_Set_of_not_mem (m : Map K V) (k : K) (v : V)
    (h : k ∉ m.m.entries.map Prod.fst) :
    (m.Set k v).m.entries = (k, v) :: m.m.entries := by
  simp [Set, GoMap.assign, GoMap.without_of_not_mem h]

theorem Len_foldl_Set (kvs : List (K × V)) (m : Map K V)
    (hnd : (kvs.map Prod.fst).Nodup)
    (hdis : ∀ k ∈ kvs.map Prod.fst, k ∉ m.m.entries.map Prod.fst) :
    (kvs.foldl (fun acc kv => acc.Set kv.1 kv.2) m).Len = m.Len + kvs.length := by
  induction kvs generalizing m with
  | nil => simp
  | cons p kvs ih =>
    rw [List.map_cons, List.nodup_cons] at hnd
    have hp : p.1 ∉ m.m.entries.map Prod.fst := hdis p.1 (by simp)
    have hent := keys_Set_of_not_mem m p.1 p.2 hp
    rw [List.foldl_cons, ih (m.Set p.1 p.2) hnd.2]
    · simp only [Len, hent, List.length_cons]
      omega
    · intro k hk
      rw [hent, List.map_cons, List.mem_cons]
      rintro (h1 | h1)
      · exact hnd.1 (h1 ▸ hk)
      · exact hdis k (by simp [hk]) h1

end Concurrent.Map

namespace Concurrent.Map

variable {K V : Type}

end Concurrent.Map

namespace Concurrent

open Parallel

/-- C1: for a task list whose tasks all return nil, `maxWorkers >= 1` and a context that
is never cancelled, `Parallel` returns nil and every task has been started and has
finished exactly once when it returns. Under every schedule: whenever the call has
returned, the value is nil and each task ran once; the program is never stuck before the
call returns; no schedule is longer than `5 * len(tasks) + maxWorkers + 7` steps; and
every run extends to one where the call has returned nil. -/
theorem parallel_all_success {E : Type} (c : Cfg E)
    (hnil : ∀ x ∈ c.tasks, x = none) (hw : 1 ≤ c.maxWorkers)
    (hctx : c.ctx.done = false ∧ c.ctx.canFire = false)
    (sched : List Action) (s : State E) (hrun : run c (start c) sched = some s) :
    (∀ r, s.pc = Pc.returned r →
      r = none ∧ ∀ j, j < c.tasks.length → s.started.count j = 1 ∧ s.finished.count j = 1) ∧
    ((∀ r, s.pc ≠ Pc.returned r) → ∃ a t, step c s a = some t) ∧
    sched.length ≤ 5 * c.tasks.length + c.maxWorkers + 7 ∧
    ∃ more t, run c s more = some t ∧ t.pc = Pc.returned none ∧
      ∀ j, j < c.tasks.length → t.started.count j = 1 ∧ t.finished.count j = 1 := by
  have hinv : Inv c s := run_inv sched (init_inv c) hrun
  obtain ⟨hlen, hprog, more, t, r, hmore, hr⟩ := returns_always hrun
  have hinvt : Inv c t := run_inv more hinv hmore
  have ht := ret_all_success hinvt hnil hw hctx hr
  refine ⟨fun r hr => ret_all_success hinv hnil hw hctx hr, hprog, hlen, more, t, hmore, ?_, ht.2⟩
  rw [hr, ht.1]


/-- Witness for C1 on the call of `TestParallelSum`: the hypotheses hold, `sumSched` runs
to `sumEnd`, where the call has returned nil and each of the four tasks ran once. -/
theorem parallel_all_success_witness :
    (∀ x ∈ sumCfg.tasks, x = none) ∧ 1 ≤ sumCfg.maxWorkers ∧
    run sumCfg (start sumCfg) sumSched = some sumEnd ∧
    Parallel sumCfg sumSched = some none ∧
    (∀ j, j < sumCfg.tasks.length →
      sumEnd.started.count j = 1 ∧ sumEnd.finished.count j = 1) :=
  ⟨by decide, by decide, rfl, rfl,
    ((parallel_all_success sumCfg (by decide) (by decide) ⟨rfl, rfl⟩ sumSched sumEnd rfl).1
      none rfl).2⟩

/-- C2: with `stopOnError = true`, `maxWorkers >= 1` and a never-cancelled context, a task
list in which exactly one task (at any position `a`) returns the non-nil error `e` and
all others return nil makes `Parallel` return exactly `e`. Under every schedule: whenever
the call has returned, the value is `e`; the program is never stuck before the call
returns; schedules are bounded; and every run extends to one where the call has returned
`e`. -/
theorem parallel_single_failure {E : Type} (c : Cfg E) (e : E) (a b : Nat)
    (htasks : c.tasks = List.replicate a none ++ some e :: List.replicate b none)
    (hstop : stopOnErr c.stopOnError = true) (hw : 1 ≤ c.maxWorkers)
    (hctx : c.ctx.done = false ∧ c.ctx.canFire = false)
    (sched : List Action) (s : State E) (hrun : run c (start c) sched = some s) :
    (∀ r, s.pc = Pc.returned r → r = some e) ∧
    ((∀ r, s.pc ≠ Pc.returned r) → ∃ x t, step c s x = some t) ∧
    sched.length ≤ 5 * c.tasks.length + c.maxWorkers + 7 ∧
    ∃ more t, run c s more = some t ∧ t.pc = Pc.returned (some e) := by
  have hinv : Inv c s := run_inv sched (init_inv c) hrun
  obtain ⟨hlen, hprog, more, t, r, hmore, hr⟩ := returns_always hrun
  have hinvt : Inv c t := run_inv more hinv hmore
  have ht := ret_single_failure hinvt htasks hstop hw hctx hr
  refine ⟨fun r hr => ret_single_failure hinv htasks hstop hw hctx hr, hprog, hlen,
    more, t, hmore, ?_⟩
  rw [hr, ht]


/-- Witness for C2 on the example of the specification (`failCfg`): the hypotheses hold
with the failing task at position 2, and the call returns the error 1. -/
theorem parallel_single_failure_witness :
    failCfg.tasks = List.replicate 2 none ++ some 1 :: List.replicate 0 none ∧
    stopOnErr failCfg.stopOnError = true ∧
    run failCfg (start failCfg) failSched = some failEnd ∧
    Parallel failCfg failSched = some (some 1) ∧
    (∀ r, failEnd.pc = Pc.returned r → r = some 1) :=
  ⟨rfl, rfl, rfl, rfl,
    (parallel_single_failure failCfg 1 2 0 rfl rfl (by decide) ⟨rfl, rfl⟩
      failSched failEnd rfl).1⟩

/-- C3: with `stopOnError` false or omitted, `maxWorkers >= 1` and a never-cancelled
context, `Parallel` drains every result. Whenever the call has returned `r`, the result
channel is empty, the sequence `received` of values read from it (the arrival order) is a
permutation of the task results, `r` is the first non-nil value of that sequence or nil
if all are nil, and every task has been started and has finished exactly once. The
program is never stuck before the call returns, schedules are bounded, and every run
extends to one where the call has returned. -/
theorem parallel_drains_all {E : Type} (c : Cfg E)
    (hstop : stopOnErr c.stopOnError = false) (hw : 1 ≤ c.maxWorkers)
    (hctx : c.ctx.done = false ∧ c.ctx.canFire = false)
    (sched : List Action) (s : State E) (hrun : run c (start c) sched = some s) :
    (∀ r, s.pc = Pc.returned r →
      s.resultsCh = [] ∧ s.received.Perm c.tasks ∧
      ((r = none ∧ ∀ x ∈ s.received, x = none) ∨
        ∃ e pre post, r = some e ∧ s.received = pre ++ some e :: post ∧
          ∀ x ∈ pre, x = none) ∧
      ∀ j, j < c.tasks.length → s.started.count j = 1 ∧ s.finished.count j = 1) ∧
    ((∀ r, s.pc ≠ Pc.returned r) → ∃ x t, step c s x = some t) ∧
    sched.length ≤ 5 * c.tasks.length + c.maxWorkers + 7 ∧
    ∃ more t r, run c s more = some t ∧ t.pc = Pc.returned r := by
  have hinv : Inv c s := run_inv sched (init_inv c) hrun
  obtain ⟨hlen, hprog, hmore⟩ := returns_always hrun
  refine ⟨?_, hprog, hlen, hmore⟩
  intro r hr
  obtain ⟨h1, h2, h3, h4⟩ := ret_drained hinv hstop hw hctx hr
  refine ⟨h2, h3, ?_, h4⟩
  rw [h1]
  exact firstErr_spec s.received


/-- Witness for C3 on `raceCfg`: the results arrive in the order error 2, error 1, both
tasks have run, and the call returns error 2, the first in arrival order. -/
theorem parallel_drains_all_witness :
    stopOnErr raceCfg.stopOnError = false ∧ 1 ≤ raceCfg.maxWorkers ∧
    run raceCfg (start raceCfg) raceSched = some raceEnd ∧
    Parallel raceCfg raceSched = some (some 2) ∧
    raceEnd.received = [some 2, some 1] ∧
    (∀ j, j < raceCfg.tasks.length →
      raceEnd.started.count j = 1 ∧ raceEnd.finished.count j = 1) :=
  ⟨rfl, by decide, rfl, rfl, rfl,
    ((parallel_drains_all raceCfg rfl (by decide) ⟨rfl, rfl⟩ raceSched raceEnd rfl).1
      (some 2) rfl).2.2.2⟩

/-- C4 (amended): for an empty task list, whenever `Parallel` has returned, the value is
nil or it is `ctx.Err()` with the context done; with a never-cancelled context it is nil.
The program is never stuck before the call returns, schedules are bounded, and every run
extends to one where the call has returned. -/
theorem parallel_no_tasks {E : Type} (c : Cfg E) (hempty : c.tasks = [])
    (sched : List Action) (s : State E) (hrun : run c (start c) sched = some s) :
    (∀ r, s.pc = Pc.returned r → r = none ∨ (r = some c.ctx.err ∧ s.ctxDone = true)) ∧
    (c.ctx.done = false ∧ c.ctx.canFire = false → ∀ r, s.pc = Pc.returned r → r = none) ∧
    ((∀ r, s.pc ≠ Pc.returned r) → ∃ x t, step c s x = some t) ∧
    sched.length ≤ c.maxWorkers + 7 ∧
    ∃ more t r, run c s more = some t ∧ t.pc = Pc.returned r := by
  have hinv : Inv c s := run_inv sched (init_inv c) hrun
  obtain ⟨hlen, hprog, hmore⟩ := returns_always hrun
  refine ⟨fun r hr => ret_no_tasks hinv hempty hr, ?_, hprog, ?_, hmore⟩
  · intro hctx r hr
    rcases ret_no_tasks hinv hempty hr with h1 | h1
    · exact h1
    · have := never_done hinv hctx
      simp [this] at h1
  · simpa [hempty] using hlen


/-- Witness for the amended C4 on `emptyCfg`: no tasks, a context that is never
cancelled, and the call returns nil. -/
theorem parallel_no_tasks_witness :
    emptyCfg.tasks = [] ∧
    run emptyCfg (start emptyCfg) emptySched = some emptyEnd ∧
    Parallel emptyCfg emptySched = some none ∧
    (∀ r, emptyEnd.pc = Pc.returned r → r = none) :=
  ⟨rfl, rfl, rfl,
    (parallel_no_tasks emptyCfg rfl emptySched emptyEnd rfl).2.1 ⟨rfl, rfl⟩⟩

/-- Counterexample to C4 as stated: with an empty task list, one worker and a context
that is already done, the schedule `cancelledSched` makes `Parallel` return `ctx.Err()`
(the error 7), not nil. -/
theorem parallel_no_tasks_cancelled :
    cancelledCfg.tasks = [] ∧ 1 ≤ cancelledCfg.maxWorkers ∧ cancelledCfg.ctx.done = true ∧
    Parallel cancelledCfg cancelledSched = some (some 7) :=
  ⟨rfl, by decide, rfl, rfl⟩

/-- C6: in every reachable state of every invocation, at most `maxWorkers` tasks are
inside their call, no task has been started or has finished more than once, and a task
that has not been sent to the queue has not been started. -/
theorem parallel_bounded_exactly_once {E : Type} (c : Cfg E) (s : State E)
    (hreach : Reachable c s) :
    (runningOf s.workers).length ≤ c.maxWorkers ∧
    (∀ j, s.started.count j ≤ 1 ∧ s.finished.count j ≤ 1) ∧
    (∀ j, s.i ≤ j → s.started.count j = 0) := by
  have h : Inv c s := reachable_inv hreach
  have hnd : (s.tasksCh ++ s.started).Nodup := (h.sub.nodup_iff).2 (List.nodup_range s.i)
  have hst : s.started.Nodup := (List.nodup_append.1 hnd).2.1
  have hfin : s.finished.Nodup :=
    (List.nodup_append.1 ((h.exec.nodup_iff).1 hst)).2.1
  refine ⟨?_, fun j => ⟨List.nodup_iff_count_le_one.1 hst j,
    List.nodup_iff_count_le_one.1 hfin j⟩, ?_⟩
  · rw [← h.nworkers]
    exact runningOf_length_le s.workers
  · intro j hj
    apply List.count_eq_zero_of_not_mem
    intro hmem
    have : j ∈ List.range s.i := (h.sub.mem_iff).1 (by simp [hmem])
    have := List.mem_range.1 this
    omega


/-- Witness for C6 on the reachable state `timeoutWait`: one task is running, two workers
exist, and no task has been started twice. -/
theorem parallel_bounded_exactly_once_witness :
    run timeoutCfg (start timeoutCfg) timeoutSched = some timeoutWait ∧
    (runningOf timeoutWait.workers).length ≤ timeoutCfg.maxWorkers ∧
    (∀ j, timeoutWait.started.count j ≤ 1 ∧ timeoutWait.finished.count j ≤ 1) :=
  ⟨rfl, (parallel_bounded_exactly_once timeoutCfg timeoutWait ⟨timeoutSched, rfl⟩).1,
    (parallel_bounded_exactly_once timeoutCfg timeoutWait ⟨timeoutSched, rfl⟩).2.1⟩

/-- C7 (amended): after `Set(k, v)` with a key that is `==` to itself, `Get(k)` returns
`(v, true)`; with a key that is not (a floating-point NaN), `Get(k)` returns the zero
value and false, before and after, and `Len()` has grown by one. In both cases `Get` of
every key that is not `==` to `k`, so of every other key, returns what it returned
before. -/
theorem map_set_get {K V : Type} [Comparable K] [Inhabited V] (m : Map K V) (k : K) (v : V) :
    (Comparable.eq k k = true → (m.Set k v).Get k = (v, true)) ∧
    (Comparable.eq k k = false →
      (m.Set k v).Get k = (default, false) ∧ m.Get k = (default, false) ∧
      (m.Set k v).Len = m.Len + 1) ∧
    (∀ k1, Comparable.eq k1 k = false → (m.Set k v).Get k1 = m.Get k1) ∧
    (∀ k1, k1 ≠ k → (m.Set k v).Get k1 = m.Get k1) := by
  have hother : ∀ k1, Comparable.eq k1 k = false → (m.Set k v).Get k1 = m.Get k1 := by
    intro k1 hk
    have h1 : Comparable.eq k k1 = false := by rw [GoMap.eq_symm]; exact hk
    simp [Map.Set, Map.Get, GoMap.assign, GoMap.index, GoMap.lookup, h1,
      GoMap.lookup_without_other hk]
  refine ⟨?_, ?_, hother, fun k1 hk => hother k1 (GoMap.eq_false_of_ne hk)⟩
  · intro hk
    simp [Map.Set, Map.Get, GoMap.assign, GoMap.index, GoMap.lookup, hk]
  · intro hk
    have hnone : GoMap.lookup k m.m.entries = none := by
      rw [GoMap.lookup_eq_none_iff]
      intro p hp
      cases hpk : Comparable.eq p.1 k with
      | false => rfl
      | true =>
        have := ((GoMap.eq_iff p.1 k).1 hpk)
        rw [this.1, hk] at this
        cases this.2
    have hget : m.Get k = (default, false) := by
      simp [Map.Get, GoMap.index, hnone]
    refine ⟨(hother k hk).trans hget, hget, ?_⟩
    have hw : GoMap.without k m.m.entries = m.m.entries :=
      GoMap.without_eq_self ((GoMap.lookup_eq_none_iff k m.m.entries).1 hnone)
    simp [Map.Set, Map.Len, GoMap.assign, hw]

/-- Counterexample to C7 as stated: on a new `Map[float64, int]`, after `Set(NaN, 1)` the
call `Get(NaN)` returns `(0, false)`, not `(1, true)`, although `Len()` is 1. -/
theorem map_set_get_nan :
    Map.nanMap = (NewMap : Map Float64 Nat).Set Float64.nan 1 ∧
    Map.nanMap.Get Float64.nan = (0, false) ∧ Map.nanMap.Len = 1 :=
  ⟨rfl, by decide, by decide⟩

/-- C8: after `Delete(k)`, `Get(k)` returns the zero value and false, `Get` of every other
key is unchanged, `Len()` is one less if `k` was present, and the map is unchanged (so
`Len()` too) if `k` was absent. -/
theorem map_delete {K V : Type} [Comparable K] [Inhabited V] (m : Map K V) (k : K) :
    (m.Delete k).Get k = (default, false) ∧
    (∀ k1, k1 ≠ k → (m.Delete k).Get k1 = m.Get k1) ∧
    ((m.Get k).2 = true → (m.Delete k).Len + 1 = m.Len) ∧
    ((m.Get k).2 = false → m.Delete k = m ∧ (m.Delete k).Len = m.Len) := by
  refine ⟨?_, ?_, ?_, ?_⟩
  · simp [Map.Delete, Map.Get, GoMap.delete, GoMap.index, GoMap.lookup_without_self]
  · intro k1 hk
    simp [Map.Delete, Map.Get, GoMap.delete, GoMap.index,
      GoMap.lookup_without_other (GoMap.eq_false_of_ne hk)]
  · intro h
    have hfound : ∃ p ∈ m.m.entries, Comparable.eq p.1 k = true := by
      rw [Map.Get, GoMap.index_snd, List.any_eq_true] at h
      exact h
    exact GoMap.length_without_of_found m.m.distinct hfound
  · intro h
    have hall : ∀ p ∈ m.m.entries, Comparable.eq p.1 k = false := by
      apply (GoMap.lookup_eq_none_iff k m.m.entries).1
      cases hl : GoMap.lookup k m.m.entries with
      | none => rfl
      | some v => simp [Map.Get, GoMap.index, hl] at h
    have heq : m.Delete k = m := by
      obtain ⟨⟨entries, distinct⟩⟩ := m
      simp only [Map.Delete, GoMap.delete, Map.mk.injEq, GoMap.mk.injEq]
      exact GoMap.without_eq_self hall
    exact ⟨heq, by rw [heq]⟩

/-- C9: when `n` callers each `Set` one of `n` pairwise distinct keys on a fresh map, in
any order `order` of the `n` calls (the mutex makes each call atomic), `Len()` is `n`
afterwards. -/
theorem map_concurrent_sets {K V : Type} [Comparable K] (kvs order : List (K × V))
    (hdistinct : (kvs.map Prod.fst).Nodup) (horder : order.Perm kvs) :
    (order.foldl (fun acc kv => acc.Set kv.1 kv.2) (NewMap : Map K V)).Len = kvs.length := by
  have hnd : (order.map Prod.fst).Nodup := ((horder.map Prod.fst).nodup_iff).2 hdistinct
  rw [Map.Len_foldl_Set order NewMap hnd (by simp [NewMap, GoMap.make]), ← horder.length_eq]
  simp [Map.Len, NewMap, GoMap.make]

/-- Witness for C9 on the ten keys of `TestConcurrentAccess`, set in the order
`tenOrder`: `Len()` is 10. -/
theorem map_concurrent_sets_witness :
    (Map.tenEntries.map Prod.fst).Nodup ∧ Map.tenOrder.Perm Map.tenEntries ∧
    (Map.tenOrder.foldl (fun acc kv => acc.Set kv.1 kv.2) (NewMap : Map Nat Nat)).Len = 10 :=
  ⟨by decide, by decide,
    map_concurrent_sets Map.tenEntries Map.tenOrder (by decide) (by decide)⟩

end Concurrent

/-! ## `Set`: lemmas -/

namespace Concurrent.Set

variable {K : Type} [Comparable K]

theorem len_eq (h : SetHeap K) (s : Nat) : Len h s = (h.keys s).length := by
  simp [Len, GoMap.len, SetHeap.keys]

/-- No two keys of a set are `==`. -/
theorem keys_pairwise (h : SetHeap K) (s : Nat) :
    (h.keys s).Pairwise (fun a b => Comparable.eq a b = false) :=
  List.pairwise_map.2 (h.obj s).distinct

theorem traversal_pairwise {h : SetHeap K} {s : Nat} (o : Traversal h s) :
    o.order.Pairwise (fun a b => Comparable.eq a b = false) :=
  (o.perm.pairwise_iff (fun {x y} hxy => by rw [GoMap.eq_symm]; exact hxy)).2
    (keys_pairwise h s)

theorem write_obj_other (h : SetHeap K) {p q : Nat} (m : GoMap K Unit) (hpq : q ≠ p) :
    (h.write p m).obj q = h.obj q := by
  simp [SetHeap.write, hpq]

theorem write_obj_same (h : SetHeap K) (p : Nat) (m : GoMap K Unit) :
    (h.write p m).obj p = m := by
  simp [SetHeap.write]

theorem NewSet_spec (h : SetHeap K) :
    (NewSet h).2 = h.next ∧ (NewSet h).1.next = h.next + 1 ∧
    (∀ p, p ≠ h.next → (NewSet h).1.obj p = h.obj p) ∧
    (NewSet h).1.keys h.next = [] := by
  refine ⟨rfl, rfl, ?_, ?_⟩
  · intro p hp
    simp [NewSet, hp]
  · simp [NewSet, SetHeap.keys, GoMap.make]

/-- `Contains(k)` is true exactly when `k` is a stored key that is `==` to itself. -/
theorem contains_iff (h : SetHeap K) (s : Nat) (k : K) :
    Contains h s k = true ↔ k ∈ h.keys s ∧ Comparable.eq k k = true :=
  GoMap.index_snd_iff (h.obj s) k

theorem contains_congr {g h : SetHeap K} {p q : Nat} (hobj : g.obj p = h.obj q) (k : K) :
    Contains g p k = Contains h q k := by
  simp [Contains, hobj]

/-- `Contains(k)` in terms of a traversal: some traversed key is `==` to `k`. -/
theorem contains_eq_any {h : SetHeap K} {s : Nat} (o : Traversal h s) (k : K) :
    Contains h s k = o.order.any (fun y => Comparable.eq k y) := by
  rw [Bool.eq_iff_iff, contains_iff, List.any_eq_true]
  constructor
  · rintro ⟨hk, hkk⟩
    exact ⟨k, o.perm.mem_iff.2 hk, hkk⟩
  · rintro ⟨y, hy, hky⟩
    obtain ⟨h1, h2⟩ := (GoMap.eq_iff k y).1 hky
    rw [h1]
    rw [h1] at h2
    exact ⟨o.perm.mem_iff.1 hy, h2⟩

/-- A key that is not `==` to itself is in no set. -/
theorem contains_of_not_self (h : SetHeap K) (s : Nat) {k : K}
    (hk : Comparable.eq k k = false) : Contains h s k = false := by
  cases hc : Contains h s k with
  | false => rfl
  | true =>
    have := ((contains_iff h s k).1 hc).2
    rw [hk] at this
    cases this

theorem keys_Add (h : SetHeap K) (r : Nat) (k : K) :
    (Add h r k).keys r = k :: (h.keys r).filter (fun x => !Comparable.eq x k) := by
  simp only [SetHeap.keys, Add, write_obj_same, GoMap.assign, GoMap.without, List.map_cons,
    List.filter_map]
  rfl

/-- A loop that adds to the set at `r` the traversed keys that pass a test which does
not depend on the set at `r`: every other cell is left as it was, and the set at `r`
holds the traversed keys that pass, last one first, followed by those of its former
keys that are `==` to none of them. -/
theorem foldl_condAdd (c : SetHeap K → K → Bool) (c0 : K → Bool) (r : Nat) (l : List K)
    (h : SetHeap K)
    (hc : ∀ g k, (∀ p, p ≠ r → g.obj p = h.obj p) → c g k = c0 k)
    (hl : l.Pairwise (fun a b => Comparable.eq a b = false)) :
    (∀ p, p ≠ r →
      (l.foldl (fun acc k => if c acc k then Add acc r k else acc) h).obj p = h.obj p) ∧
    (l.foldl (fun acc k => if c acc k then Add acc r k else acc) h).next = h.next ∧
    (l.foldl (fun acc k => if c acc k then Add acc r k else acc) h).keys r
      = (l.filter c0).reverse ++
        (h.keys r).filter (fun x => !(l.filter c0).any (fun k => Comparable.eq x k)) := by
  induction l generalizing h with
  | nil => simp
  | cons k l ih =>
    have hck : c h k = c0 k := hc h k (fun _ _ => rfl)
    rw [List.pairwise_cons] at hl
    rw [List.foldl_cons]
    by_cases hk : c0 k = true
    · have hstep : (if c h k = true then Add h r k else h) = Add h r k := by simp [hck, hk]
      rw [hstep]
      have hframe : ∀ p, p ≠ r → (Add h r k).obj p = h.obj p :=
        fun p hp => write_obj_other h _ hp
      obtain ⟨h1, h2, h3⟩ := ih (Add h r k)
        (fun g k1 hg => hc g k1 (fun p hp => (hg p hp).trans (hframe p hp))) hl.2
      refine ⟨fun p hp => (h1 p hp).trans (hframe p hp), h2, ?_⟩
      have hkeep : (!(l.filter c0).any (fun k1 => Comparable.eq k k1)) = true := by
        rw [Bool.not_eq_true', List.any_eq_false]
        intro x hx
        simp [hl.1 x (List.mem_filter.1 hx).1]
      have e1 : List.filter (fun x => !(l.filter c0).any (fun k1 => Comparable.eq x k1))
          (k :: List.filter (fun x => !Comparable.eq x k) (h.keys r))
          = k :: List.filter (fun x => !(l.filter c0).any (fun k1 => Comparable.eq x k1))
              (List.filter (fun x => !Comparable.eq x k) (h.keys r)) := by
        rw [List.filter_cons]
        simp only [hkeep, if_true]
      have e2 : List.filter c0 (k :: l) = k :: List.filter c0 l := by
        rw [List.filter_cons]
        simp only [hk, if_true]
      rw [h3, keys_Add, e1, e2, List.filter_filter, List.reverse_cons, List.append_assoc,
        List.singleton_append]
      congr 2
      apply List.filter_congr
      intro x _
      simp only [List.any_cons, Bool.not_or, Bool.and_comm]
    · have hstep : (if c h k = true then Add h r k else h) = h := by simp [hck, hk]
      rw [hstep]
      obtain ⟨h1, h2, h3⟩ := ih h hc hl.2
      refine ⟨h1, h2, ?_⟩
      have e2 : List.filter c0 (k :: l) = List.filter c0 l := by
        rw [List.filter_cons]
        simp [hk]
      rw [h3, e2]

/-- The loop `for k := range ... { result.Add(k) }`. -/
theorem foldl_Add (r : Nat) (l : List K) (h : SetHeap K)
    (hl : l.Pairwise (fun a b => Comparable.eq a b = false)) :
    (∀ p, p ≠ r → (l.foldl (fun acc k => Add acc r k) h).obj p = h.obj p) ∧
    (l.foldl (fun acc k => Add acc r k) h).next = h.next ∧
    (l.foldl (fun acc k => Add acc r k) h).keys r
      = l.reverse ++ (h.keys r).filter (fun x => !l.any (fun k => Comparable.eq x k)) := by
  have := foldl_condAdd (fun _ _ => true) (fun _ => true) r l h (fun _ _ _ => rfl) hl
  simpa using this

end Concurrent.Set

namespace Concurrent.Set

variable {K : Type} [Comparable K]

theorem Union_spec (h : SetHeap K) (a b : Nat) (oa : Traversal h a) (ob : Traversal h b) :
    (Union h a b oa ob).2 = h.next ∧ (Union h a b oa ob).1.next = h.next + 1 ∧
    (∀ p, p ≠ h.next → (Union h a b oa ob).1.obj p = h.obj p) ∧
    (Union h a b oa ob).1.keys h.next
      = ob.order.reverse ++ oa.order.reverse.filter (fun x => !Contains h b x) := by
  obtain ⟨_, n0, f0, k0⟩ := NewSet_spec h
  obtain ⟨f1, n1, k1⟩ := foldl_Add h.next oa.order (NewSet h).1 (traversal_pairwise oa)
  obtain ⟨f2, n2, k2⟩ := foldl_Add h.next ob.order
    (oa.order.foldl (fun acc k => Add acc h.next k) (NewSet h).1) (traversal_pairwise ob)
  refine ⟨rfl, n2.trans (n1.trans n0), ?_, ?_⟩
  · intro p hp
    exact (f2 p hp).trans ((f1 p hp).trans (f0 p hp))
  · rw [k0, List.filter_nil, List.append_nil] at k1
    rw [k1] at k2
    simp only [← contains_eq_any ob] at k2
    exact k2

theorem Intersection_spec (h : SetHeap K) (a b : Nat) (hb : b < h.next) (oa : Traversal h a) :
    (Intersection h a b oa).2 = h.next ∧ (Intersection h a b oa).1.next = h.next + 1 ∧
    (∀ p, p ≠ h.next → (Intersection h a b oa).1.obj p = h.obj p) ∧
    (Intersection h a b oa).1.keys h.next
      = (oa.order.filter (fun k => Contains h b k)).reverse := by
  obtain ⟨_, n0, f0, k0⟩ := NewSet_spec h
  have hbne : b ≠ h.next := Nat.ne_of_lt hb
  obtain ⟨f1, n1, k1⟩ := foldl_condAdd (fun acc k => Contains acc b k)
    (fun k => Contains h b k) h.next oa.order (NewSet h).1
    (fun g k hg => contains_congr ((hg b hbne).trans (f0 b hbne)) k) (traversal_pairwise oa)
  refine ⟨rfl, n1.trans n0, fun p hp => (f1 p hp).trans (f0 p hp), ?_⟩
  rw [k0, List.filter_nil, List.append_nil] at k1
  exact k1

theorem Difference_spec (h : SetHeap K) (a b : Nat) (hb : b < h.next) (oa : Traversal h a) :
    (Difference h a b oa).2 = h.next ∧ (Difference h a b oa).1.next = h.next + 1 ∧
    (∀ p, p ≠ h.next → (Difference h a b oa).1.obj p = h.obj p) ∧
    (Difference h a b oa).1.keys h.next
      = (oa.order.filter (fun k => !Contains h b k)).reverse := by
  obtain ⟨_, n0, f0, k0⟩ := NewSet_spec h
  have hbne : b ≠ h.next := Nat.ne_of_lt hb
  obtain ⟨f1, n1, k1⟩ := foldl_condAdd (fun acc k => !Contains acc b k)
    (fun k => !Contains h b k) h.next oa.order (NewSet h).1
    (fun g k hg => by
      show (!Contains g b k) = !Contains h b k
      rw [contains_congr ((hg b hbne).trans (f0 b hbne)) k]) (traversal_pairwise oa)
  refine ⟨rfl, n1.trans n0, fun p hp => (f1 p hp).trans (f0 p hp), ?_⟩
  rw [k0, List.filter_nil, List.append_nil] at k1
  exact k1

theorem SymmetricDifference_spec (h : SetHeap K) (a b : Nat) (ha : a < h.next)
    (hb : b < h.next) (oa : Traversal h a) (ob : Traversal h b) :
    (SymmetricDifference h a b oa ob).2 = h.next ∧
    (SymmetricDifference h a b oa ob).1.next = h.next + 1 ∧
    (∀ p, p ≠ h.next → (SymmetricDifference h a b oa ob).1.obj p = h.obj p) ∧
    (SymmetricDifference h a b oa ob).1.keys h.next
      = (ob.order.filter (fun k => !Contains h a k)).reverse ++
        (oa.order.filter (fun k => !Contains h b k)).reverse := by
  obtain ⟨_, n0, f0, k0⟩ := NewSet_spec h
  have hane : a ≠ h.next := Nat.ne_of_lt ha
  have hbne : b ≠ h.next := Nat.ne_of_lt hb
  obtain ⟨f1, n1, k1⟩ := foldl_condAdd (fun acc k => !Contains acc b k)
    (fun k => !Contains h b k) h.next oa.order (NewSet h).1
    (fun g k hg => by
      show (!Contains g b k) = !Contains h b k
      rw [contains_congr ((hg b hbne).trans (f0 b hbne)) k]) (traversal_pairwise oa)
  obtain ⟨f2, n2, k2⟩ := foldl_condAdd (fun acc k => !Contains acc a k)
    (fun k => !Contains h a k) h.next ob.order
    (oa.order.foldl (fun acc k => if !Contains acc b k then Add acc h.next k else acc)
      (NewSet h).1)
    (fun g k hg => by
      show (!Contains g a k) = !Contains h a k
      rw [contains_congr ((hg a hane).trans ((f1 a hane).trans (f0 a hane))) k])
    (traversal_pairwise ob)
  refine ⟨rfl, n2.trans (n1.trans n0), fun p hp => (f2 p hp).trans ((f1 p hp).trans (f0 p hp)),
    ?_⟩
  rw [k0, List.filter_nil, List.append_nil] at k1
  rw [k1] at k2
  refine k2.trans ?_
  congr 1
  apply List.filter_eq_self.2
  intro x hx
  have hx1 := List.mem_filter.1 (List.mem_reverse.1 hx)
  rw [Bool.not_eq_true', List.any_eq_false]
  intro k hk
  have hk1 := List.mem_filter.1 hk
  cases hxk : Comparable.eq x k with
  | false => simp
  | true =>
    obtain ⟨e1, e2⟩ := (GoMap.eq_iff x k).1 hxk
    have hcb : Contains h b x = true :=
      (contains_iff h b x).2 ⟨by rw [e1]; exact ob.perm.mem_iff.1 hk1.1, e2⟩
    have := hx1.2
    rw [hcb] at this
    simp at this

theorem Clone_spec (h : SetHeap K) (a : Nat) (oa : Traversal h a) :
    (Clone h a oa).2 = h.next ∧ (Clone h a oa).1.next = h.next + 1 ∧
    (∀ p, p ≠ h.next → (Clone h a oa).1.obj p = h.obj p) ∧
    (Clone h a oa).1.keys h.next = oa.order.reverse := by
  obtain ⟨_, n0, f0, k0⟩ := NewSet_spec h
  obtain ⟨f1, n1, k1⟩ := foldl_Add h.next oa.order (NewSet h).1 (traversal_pairwise oa)
  refine ⟨rfl, n1.trans n0, fun p hp => (f1 p hp).trans (f0 p hp), ?_⟩
  rw [k0, List.filter_nil, List.append_nil] at k1
  exact k1

theorem subsetLoop_iff (h : SetHeap K) (other : Nat) (l : List K) :
    subsetLoop h other l = true ↔ ∀ k ∈ l, Contains h other k = true := by
  induction l with
  | nil => simp [subsetLoop]
  | cons k l ih =>
    by_cases hk : Contains h other k = true
    · simp [subsetLoop, hk, ih]
    · simp [subsetLoop, hk]

/-- `IsSubset` is true exactly when `other` contains every stored key: every key of the
set is a key of `other` and is `==` to itself. -/
theorem IsSubset_iff (h : SetHeap K) (a b : Nat) (oa : Traversal h a) :
    IsSubset h a b oa = true ↔
      ∀ x, x ∈ h.keys a → x ∈ h.keys b ∧ Comparable.eq x x = true := by
  rw [IsSubset, subsetLoop_iff]
  constructor
  · intro hall x hx
    exact (contains_iff h b x).1 (hall x (oa.perm.mem_iff.2 hx))
  · intro hall x hx
    exact (contains_iff h b x).2 (hall x (oa.perm.mem_iff.1 hx))

/-- `Equal` is true exactly when the two sets store the same keys and every one of them
is `==` to itself. -/
theorem Equal_iff (h : SetHeap K) (a b : Nat) (oa : Traversal h a) (ob : Traversal h b) :
    Equal h a b oa ob = true ↔
      (∀ x, x ∈ h.keys a ↔ x ∈ h.keys b) ∧ ∀ x, x ∈ h.keys a → Comparable.eq x x = true := by
  rw [Equal, IsSuperset, Bool.and_eq_true, IsSubset_iff, IsSubset_iff]
  constructor
  · rintro ⟨h1, h2⟩
    exact ⟨fun x => ⟨fun hx => (h1 x hx).1, fun hx => (h2 x hx).1⟩, fun x hx => (h1 x hx).2⟩
  · rintro ⟨h1, h2⟩
    exact ⟨fun x hx => ⟨(h1 x).1 hx, h2 x hx⟩,
      fun x hx => ⟨(h1 x).2 hx, h2 x ((h1 x).2 hx)⟩⟩

theorem applyMutation_obj_other (g : SetHeap K) {p q : Nat} (m : Mutation K) (hpq : q ≠ p) :
    (applyMutation g p m).obj q = g.obj q := by
  cases m <;> exact write_obj_other g _ hpq

/-- A sequence of mutating calls leaves every set that none of the calls is on as it
was. -/
theorem mutate_obj_other (calls : List (Nat × Mutation K)) (g : SetHeap K) (q : Nat)
    (hq : ∀ c ∈ calls, c.1 ≠ q) : (mutate g calls).obj q = g.obj q := by
  induction calls generalizing g with
  | nil => rfl
  | cons c calls ih =>
    simp only [mutate, List.foldl_cons]
    have h1 := ih (applyMutation g c.1 c.2) (fun d hd => hq d (by simp [hd]))
    simp only [mutate] at h1
    rw [h1]
    exact applyMutation_obj_other g c.2 (fun heq => hq c (by simp) heq.symm)

/-- A call whose result is at the next free address and that leaves every other cell
as it was returns an independent set. -/
theorem independent_of_frame (h : SetHeap K) (out : SetHeap K × Nat)
    (hr : out.2 = h.next) (hf : ∀ p, p ≠ h.next → out.1.obj p = h.obj p) :
    Independent h out := by
  refine ⟨by omega, fun p hp => hf p (Nat.ne_of_lt hp), ?_, ?_⟩
  · intro calls hcalls p hp
    have hne : p ≠ h.next := Nat.ne_of_lt hp
    have hobj : (mutate out.1 calls).obj p = h.obj p := by
      rw [mutate_obj_other calls out.1 p (fun c hc => by rw [hcalls c hc, hr]; exact hne.symm)]
      exact hf p hne
    exact ⟨fun k => contains_congr hobj k, by simp [Len, hobj]⟩
  · intro calls hcalls
    exact mutate_obj_other calls out.1 out.2
      (fun c hc => by rw [hr]; exact Nat.ne_of_lt (hcalls c hc))

end Concurrent.Set

namespace Concurrent

/-- C11: a key is in `A.Union(B)` if and only if it is in `A` or in `B`, for all sets `A`
and `B` (at any addresses, also the same one) and every traversal order of the two
loops. -/
theorem set_union_contains {K : Type} [Comparable K] (h : SetHeap K) (a b : Nat)
    (oa : Traversal h a) (ob : Traversal h b) (k : K) :
    Set.Contains (Set.Union h a b oa ob).1 (Set.Union h a b oa ob).2 k = true ↔
      Set.Contains h a k = true ∨ Set.Contains h b k = true := by
  obtain ⟨hr, _, _, hk⟩ := Set.Union_spec h a b oa ob
  rw [hr, Set.contains_iff, hk, List.mem_append, List.mem_reverse, List.mem_filter,
    List.mem_reverse, ob.perm.mem_iff, oa.perm.mem_iff, Set.contains_iff h a]
  have hcb := Set.contains_iff h b k
  cases hb : Set.Contains h b k with
  | true =>
    rw [hb] at hcb
    have := hcb.1 rfl
    simp [this]
  | false =>
    rw [hb] at hcb
    constructor
    · rintro ⟨h1 | h1, h2⟩
      · exact absurd (hcb.2 ⟨h1, h2⟩) (by simp)
      · exact Or.inl ⟨h1.1, h2⟩
    · rintro (h1 | h1)
      · exact ⟨Or.inr ⟨h1.1, by simp⟩, h1.2⟩
      · simp at h1

/-- C12: a key is in `A.Intersection(B)` if and only if it is in `A` and in `B`, for all
sets `A` and `B` of the heap and every traversal order. -/
theorem set_intersection_contains {K : Type} [Comparable K] (h : SetHeap K) (a b : Nat)
    (hb : b < h.next) (oa : Traversal h a) (k : K) :
    Set.Contains (Set.Intersection h a b oa).1 (Set.Intersection h a b oa).2 k = true ↔
      Set.Contains h a k = true ∧ Set.Contains h b k = true := by
  obtain ⟨hr, _, _, hk⟩ := Set.Intersection_spec h a b hb oa
  rw [hr, Set.contains_iff, hk, List.mem_reverse, List.mem_filter, oa.perm.mem_iff,
    Set.contains_iff h a]
  constructor
  · rintro ⟨⟨h1, h2⟩, h3⟩
    exact ⟨⟨h1, h3⟩, h2⟩
  · rintro ⟨⟨h1, h3⟩, h2⟩
    exact ⟨⟨h1, h2⟩, h3⟩

/-- Witness for C12 on the sets of `TestSetIntersection`: the result contains 2 and
neither 1 nor 3. -/
theorem set_intersection_contains_witness :
    1 < Set.testHeap.next ∧
    Set.Contains (Set.Intersection Set.testHeap 0 1 Set.testOrd0).1
      (Set.Intersection Set.testHeap 0 1 Set.testOrd0).2 2 = true ∧
    Set.Contains (Set.Intersection Set.testHeap 0 1 Set.testOrd0).1
      (Set.Intersection Set.testHeap 0 1 Set.testOrd0).2 1 = false ∧
    Set.Len (Set.Intersection Set.testHeap 0 1 Set.testOrd0).1
      (Set.Intersection Set.testHeap 0 1 Set.testOrd0).2 = 1 :=
  ⟨by decide,
    (set_intersection_contains Set.testHeap 0 1 (by decide) Set.testOrd0 2).2
      ⟨by decide, by decide⟩,
    by decide, by decide⟩

/-- C13: a key is in `A.Difference(B)` if and only if it is in `A` and not in `B`, for
all sets `A` and `B` of the heap and every traversal order. -/
theorem set_difference_contains {K : Type} [Comparable K] (h : SetHeap K) (a b : Nat)
    (hb : b < h.next) (oa : Traversal h a) (k : K) :
    Set.Contains (Set.Difference h a b oa).1 (Set.Difference h a b oa).2 k = true ↔
      Set.Contains h a k = true ∧ Set.Contains h b k = false := by
  obtain ⟨hr, _, _, hk⟩ := Set.Difference_spec h a b hb oa
  rw [hr, Set.contains_iff, hk, List.mem_reverse, List.mem_filter, oa.perm.mem_iff,
    Set.contains_iff h a, Bool.not_eq_true']
  constructor
  · rintro ⟨⟨h1, h2⟩, h3⟩
    exact ⟨⟨h1, h3⟩, h2⟩
  · rintro ⟨⟨h1, h3⟩, h2⟩
    exact ⟨⟨h1, h2⟩, h3⟩

/-- Witness for C13 on the sets of `TestSetDifference`: the result contains 1 and not
2. -/
theorem set_difference_contains_witness :
    1 < Set.testHeap.next ∧
    Set.Contains (Set.Difference Set.testHeap 0 1 Set.testOrd0).1
      (Set.Difference Set.testHeap 0 1 Set.testOrd0).2 1 = true ∧
    Set.Contains (Set.Difference Set.testHeap 0 1 Set.testOrd0).1
      (Set.Difference Set.testHeap 0 1 Set.testOrd0).2 2 = false :=
  ⟨by decide,
    (set_difference_contains Set.testHeap 0 1 (by decide) Set.testOrd0 1).2
      ⟨by decide, by decide⟩,
    by decide⟩

/-- C14 (amended): a key is in `A.SymmetricDifference(B)` if and only if it is in exactly
one of `A` and `B`; `B.SymmetricDifference(A)`, computed afterwards, contains the same
keys (`Contains` agrees on every key and the stored keys are the same, equally often);
the two results are `Equal` if and only if every key stored in `A` or `B` is `==` to
itself, so always when `==` is reflexive on the key type and never when `A` or `B` holds
a NaN. All of it for all sets `A` and `B` of the heap and all traversal orders. -/
theorem set_symmetric_difference {K : Type} [Comparable K] (h : SetHeap K) (a b : Nat)
    (ha : a < h.next) (hb : b < h.next) (oa : Traversal h a) (ob : Traversal h b) :
    (∀ k, Set.Contains (Set.SymmetricDifference h a b oa ob).1
        (Set.SymmetricDifference h a b oa ob).2 k = true ↔
      (Set.Contains h a k = true ∧ Set.Contains h b k = false) ∨
      (Set.Contains h a k = false ∧ Set.Contains h b k = true)) ∧
    ∀ (ob1 : Traversal (Set.SymmetricDifference h a b oa ob).1 b)
      (oa1 : Traversal (Set.SymmetricDifference h a b oa ob).1 a)
      (t1 : Traversal (Set.SymmetricDifference (Set.SymmetricDifference h a b oa ob).1
        b a ob1 oa1).1 (Set.SymmetricDifference h a b oa ob).2)
      (t2 : Traversal (Set.SymmetricDifference (Set.SymmetricDifference h a b oa ob).1
        b a ob1 oa1).1 (Set.SymmetricDifference (Set.SymmetricDifference h a b oa ob).1
        b a ob1 oa1).2),
      (∀ k, Set.Contains (Set.SymmetricDifference (Set.SymmetricDifference h a b oa ob).1
            b a ob1 oa1).1 (Set.SymmetricDifference h a b oa ob).2 k
          = Set.Contains (Set.SymmetricDifference (Set.SymmetricDifference h a b oa ob).1
            b a ob1 oa1).1 (Set.SymmetricDifference (Set.SymmetricDifference h a b oa ob).1
            b a ob1 oa1).2 k) ∧
      ((Set.SymmetricDifference (Set.SymmetricDifference h a b oa ob).1 b a ob1 oa1).1.keys
          (Set.SymmetricDifference h a b oa ob).2).Perm
        ((Set.SymmetricDifference (Set.SymmetricDifference h a b oa ob).1 b a ob1 oa1).1.keys
          (Set.SymmetricDifference (Set.SymmetricDifference h a b oa ob).1 b a ob1 oa1).2) ∧
      (Set.Equal (Set.SymmetricDifference (Set.SymmetricDifference h a b oa ob).1
            b a ob1 oa1).1
          (Set.SymmetricDifference h a b oa ob).2
          (Set.SymmetricDifference (Set.SymmetricDifference h a b oa ob).1 b a ob1 oa1).2
          t1 t2 = true ↔
        (∀ x ∈ h.keys a, Comparable.eq x x = true) ∧
        (∀ x ∈ h.keys b, Comparable.eq x x = true)) ∧
      ((∀ x : K, Comparable.eq x x = true) →
        Set.Equal (Set.SymmetricDifference (Set.SymmetricDifference h a b oa ob).1
            b a ob1 oa1).1
          (Set.SymmetricDifference h a b oa ob).2
          (Set.SymmetricDifference (Set.SymmetricDifference h a b oa ob).1 b a ob1 oa1).2
          t1 t2 = true) := by
  obtain ⟨hr, hn, hf, hk⟩ := Set.SymmetricDifference_spec h a b ha hb oa ob
  have hane : a ≠ h.next := Nat.ne_of_lt ha
  have hbne : b ≠ h.next := Nat.ne_of_lt hb
  refine ⟨?_, ?_⟩
  · intro k
    rw [hr, Set.contains_iff, hk, List.mem_append, List.mem_reverse, List.mem_reverse,
      List.mem_filter, List.mem_filter, oa.perm.mem_iff, ob.perm.mem_iff,
      Bool.not_eq_true', Bool.not_eq_true']
    have hca := Set.contains_iff h a k
    have hcb := Set.contains_iff h b k
    constructor
    · rintro ⟨⟨h1, h2⟩ | ⟨h1, h2⟩, h3⟩
      · exact Or.inr ⟨h2, hcb.2 ⟨h1, h3⟩⟩
      · exact Or.inl ⟨hca.2 ⟨h1, h3⟩, h2⟩
    · rintro (⟨h1, h2⟩ | ⟨h1, h2⟩)
      · exact ⟨Or.inr ⟨(hca.1 h1).1, h2⟩, (hca.1 h1).2⟩
      · exact ⟨Or.inl ⟨(hcb.1 h2).1, h1⟩, (hcb.1 h2).2⟩
  · intro ob1 oa1 t1 t2
    have ha1 : a < (Set.SymmetricDifference h a b oa ob).1.next := by omega
    have hb1 : b < (Set.SymmetricDifference h a b oa ob).1.next := by omega
    obtain ⟨hr2, _, hf2, hk2⟩ :=
      Set.SymmetricDifference_spec (Set.SymmetricDifference h a b oa ob).1 b a hb1 ha1 ob1 oa1
    have hrne : h.next ≠ (Set.SymmetricDifference h a b oa ob).1.next := by omega
    have e1 : (Set.SymmetricDifference (Set.SymmetricDifference h a b oa ob).1
        b a ob1 oa1).1.keys (Set.SymmetricDifference h a b oa ob).2
        = (Set.SymmetricDifference h a b oa ob).1.keys h.next := by
      rw [hr]
      simp only [SetHeap.keys, hf2 h.next hrne]
    have ea : (Set.SymmetricDifference h a b oa ob).1.keys a = h.keys a := by
      simp only [SetHeap.keys, hf a hane]
    have eb : (Set.SymmetricDifference h a b oa ob).1.keys b = h.keys b := by
      simp only [SetHeap.keys, hf b hbne]
    have hca : ∀ k, Set.Contains (Set.SymmetricDifference h a b oa ob).1 a k
        = Set.Contains h a k := fun k => Set.contains_congr (hf a hane) k
    have hcb : ∀ k, Set.Contains (Set.SymmetricDifference h a b oa ob).1 b k
        = Set.Contains h b k := fun k => Set.contains_congr (hf b hbne) k
    have hpa : oa1.order.Perm oa.order := (oa1.perm.trans (ea ▸ List.Perm.refl _)).trans
      oa.perm.symm
    have hpb : ob1.order.Perm ob.order := (ob1.perm.trans (eb ▸ List.Perm.refl _)).trans
      ob.perm.symm
    have hperm : ((Set.SymmetricDifference (Set.SymmetricDifference h a b oa ob).1
          b a ob1 oa1).1.keys (Set.SymmetricDifference h a b oa ob).2).Perm
        ((Set.SymmetricDifference (Set.SymmetricDifference h a b oa ob).1 b a ob1 oa1).1.keys
          (Set.SymmetricDifference (Set.SymmetricDifference h a b oa ob).1
            b a ob1 oa1).2) := by
      rw [e1, hr2, hk, hk2]
      simp only [hca, hcb]
      refine List.perm_append_comm.trans (List.Perm.append ?_ ?_)
      · exact (List.reverse_perm _).trans
          (((hpa.filter _).symm).trans (List.reverse_perm _).symm)
      · exact (List.reverse_perm _).trans
          (((hpb.filter _).symm).trans (List.reverse_perm _).symm)
    have hmem : ∀ x, x ∈ (Set.SymmetricDifference h a b oa ob).1.keys h.next ↔
        (x ∈ h.keys b ∧ Set.Contains h a x = false) ∨
        (x ∈ h.keys a ∧ Set.Contains h b x = false) := by
      intro x
      rw [hk, List.mem_append, List.mem_reverse, List.mem_reverse, List.mem_filter,
        List.mem_filter, oa.perm.mem_iff, ob.perm.mem_iff, Bool.not_eq_true',
        Bool.not_eq_true']
    have hequal : Set.Equal (Set.SymmetricDifference (Set.SymmetricDifference h a b oa ob).1
            b a ob1 oa1).1
          (Set.SymmetricDifference h a b oa ob).2
          (Set.SymmetricDifference (Set.SymmetricDifference h a b oa ob).1 b a ob1 oa1).2
          t1 t2 = true ↔
        (∀ x ∈ h.keys a, Comparable.eq x x = true) ∧
        (∀ x ∈ h.keys b, Comparable.eq x x = true) := by
      rw [Set.Equal_iff]
      constructor
      · rintro ⟨_, hself⟩
        rw [e1] at hself
        constructor
        · intro x hx
          cases hxx : Comparable.eq x x with
          | true => rfl
          | false =>
            have := hself x ((hmem x).2 (Or.inr ⟨hx, Set.contains_of_not_self h b hxx⟩))
            rw [hxx] at this
            cases this
        · intro x hx
          cases hxx : Comparable.eq x x with
          | true => rfl
          | false =>
            have := hself x ((hmem x).2 (Or.inl ⟨hx, Set.contains_of_not_self h a hxx⟩))
            rw [hxx] at this
            cases this
      · rintro ⟨hsa, hsb⟩
        refine ⟨fun x => hperm.mem_iff, ?_⟩
        intro x hx
        rw [e1] at hx
        rcases (hmem x).1 hx with h1 | h1
        · exact hsb x h1.1
        · exact hsa x h1.1
    refine ⟨?_, hperm, hequal, fun hrefl => hequal.2 ⟨fun x _ => hrefl x, fun x _ => hrefl x⟩⟩
    intro k
    rw [Bool.eq_iff_iff, Set.contains_iff, Set.contains_iff, hperm.mem_iff]

/-- Witness for C14 on the sets of `TestSetSymmetricDifference`: the result contains 1
and 3 and not 2. -/
theorem set_symmetric_difference_witness :
    0 < Set.testHeap.next ∧ 1 < Set.testHeap.next ∧
    Set.Contains (Set.SymmetricDifference Set.testHeap 0 1 Set.testOrd0 Set.testOrd1).1
      (Set.SymmetricDifference Set.testHeap 0 1 Set.testOrd0 Set.testOrd1).2 3 = true ∧
    Set.Contains (Set.SymmetricDifference Set.testHeap 0 1 Set.testOrd0 Set.testOrd1).1
      (Set.SymmetricDifference Set.testHeap 0 1 Set.testOrd0 Set.testOrd1).2 2 = false :=
  ⟨by decide, by decide,
    ((set_symmetric_difference Set.testHeap 0 1 (by decide) (by decide)
      Set.testOrd0 Set.testOrd1).1 3).2 (Or.inr ⟨by decide, by decide⟩),
    by decide⟩

/-- Counterexample to C14 as stated: with `A = {NaN}` and `B` empty (`nanHeap`),
`A.SymmetricDifference(B)` (at address 2) and `B.SymmetricDifference(A)` (at address 3)
both hold the key NaN, and `Equal` of the two returns false. -/
theorem set_symmetric_difference_nan :
    (Set.SymmetricDifference Set.nanHeap 0 1 Set.nanOrd0 Set.nanOrd1).2 = 2 ∧
    (Set.SymmetricDifference
      (Set.SymmetricDifference Set.nanHeap 0 1 Set.nanOrd0 Set.nanOrd1).1 1 0
      ⟨[], by decide⟩ ⟨[Float64.nan], by decide⟩).2 = 3 ∧
    (Set.SymmetricDifference
      (Set.SymmetricDifference Set.nanHeap 0 1 Set.nanOrd0 Set.nanOrd1).1 1 0
      ⟨[], by decide⟩ ⟨[Float64.nan], by decide⟩).1.keys 2 = [Float64.nan] ∧
    (Set.SymmetricDifference
      (Set.SymmetricDifference Set.nanHeap 0 1 Set.nanOrd0 Set.nanOrd1).1 1 0
      ⟨[], by decide⟩ ⟨[Float64.nan], by decide⟩).1.keys 3 = [Float64.nan] ∧
    Set.Equal
      (Set.SymmetricDifference
        (Set.SymmetricDifference Set.nanHeap 0 1 Set.nanOrd0 Set.nanOrd1).1 1 0
        ⟨[], by decide⟩ ⟨[Float64.nan], by decide⟩).1 2 3
      ⟨[Float64.nan], by decide⟩ ⟨[Float64.nan], by decide⟩ = false :=
  ⟨rfl, rfl, by decide, by decide, by decide⟩

/-- C15: with `U := A.Union(B)` and then `I := A.Intersection(B)`, `U.Len()` equals
`A.Len() + B.Len() - I.Len()` (as integers), for all sets `A` and `B` of the heap and
all traversal orders. -/
theorem set_union_len {K : Type} [Comparable K] (h : SetHeap K) (a b : Nat)
    (ha : a < h.next) (hb : b < h.next) (oa : Traversal h a) (ob : Traversal h b)
    (oa1 : Traversal (Set.Union h a b oa ob).1 a) :
    ((Set.Len (Set.Intersection (Set.Union h a b oa ob).1 a b oa1).1
        (Set.Union h a b oa ob).2 : Nat) : Int)
      = (Set.Len (Set.Intersection (Set.Union h a b oa ob).1 a b oa1).1 a : Int)
        + (Set.Len (Set.Intersection (Set.Union h a b oa ob).1 a b oa1).1 b : Int)
        - (Set.Len (Set.Intersection (Set.Union h a b oa ob).1 a b oa1).1
            (Set.Intersection (Set.Union h a b oa ob).1 a b oa1).2 : Int) := by
  obtain ⟨hr, hn, hf, hk⟩ := Set.Union_spec h a b oa ob
  have hb1 : b < (Set.Union h a b oa ob).1.next := by omega
  obtain ⟨hr2, _, hf2, hk2⟩ := Set.Intersection_spec (Set.Union h a b oa ob).1 a b hb1 oa1
  have hane : a ≠ h.next := Nat.ne_of_lt ha
  have hbne : b ≠ h.next := Nat.ne_of_lt hb
  have hane2 : a ≠ (Set.Union h a b oa ob).1.next := by omega
  have hbne2 : b ≠ (Set.Union h a b oa ob).1.next := by omega
  have hrne : h.next ≠ (Set.Union h a b oa ob).1.next := by omega
  have eu : (Set.Intersection (Set.Union h a b oa ob).1 a b oa1).1.keys
      (Set.Union h a b oa ob).2 = (Set.Union h a b oa ob).1.keys h.next := by
    rw [hr]
    simp only [SetHeap.keys, hf2 h.next hrne]
  have ea : (Set.Intersection (Set.Union h a b oa ob).1 a b oa1).1.keys a = h.keys a := by
    simp only [SetHeap.keys, hf2 a hane2, hf a hane]
  have eb : (Set.Intersection (Set.Union h a b oa ob).1 a b oa1).1.keys b = h.keys b := by
    simp only [SetHeap.keys, hf2 b hbne2, hf b hbne]
  have ea1 : (Set.Union h a b oa ob).1.keys a = h.keys a := by
    simp only [SetHeap.keys, hf a hane]
  have hcb : ∀ k, Set.Contains (Set.Union h a b oa ob).1 b k = Set.Contains h b k :=
    fun k => Set.contains_congr (hf b hbne) k
  have hpa : oa1.order.Perm oa.order :=
    (oa1.perm.trans (ea1 ▸ List.Perm.refl _)).trans oa.perm.symm
  -- the keys of `A` split into those that `B` contains and the others
  have hsplit := (List.filter_append_perm (fun k => Set.Contains h b k) oa.order).length_eq
  rw [List.length_append] at hsplit
  have hin : (oa1.order.filter (fun k => Set.Contains h b k)).length
      = (oa.order.filter (fun k => Set.Contains h b k)).length := (hpa.filter _).length_eq
  have hlenU : ((Set.Union h a b oa ob).1.keys h.next).length
      = ob.order.length + (oa.order.filter (fun k => !Set.Contains h b k)).length := by
    rw [hk, List.length_append, List.length_reverse, List.filter_reverse,
      List.length_reverse]
  have hlenI : ((Set.Intersection (Set.Union h a b oa ob).1 a b oa1).1.keys
      (Set.Union h a b oa ob).1.next).length
      = (oa.order.filter (fun k => Set.Contains h b k)).length := by
    rw [hk2, List.length_reverse]
    simp only [hcb]
    exact hin
  rw [Set.len_eq, Set.len_eq, Set.len_eq, Set.len_eq, eu, ea, eb, hr2, hlenU, hlenI,
    ← oa.perm.length_eq, ← ob.perm.length_eq]
  omega

/-- Witness for C15 on the sets of `TestSetUnion`: the union has 3 keys, the operands 2
each, the intersection 1. -/
theorem set_union_len_witness :
    0 < Set.testHeap.next ∧ 1 < Set.testHeap.next ∧
    Set.Len (Set.Union Set.testHeap 0 1 Set.testOrd0 Set.testOrd1).1
      (Set.Union Set.testHeap 0 1 Set.testOrd0 Set.testOrd1).2 = 3 ∧
    ((Set.Len (Set.Intersection (Set.Union Set.testHeap 0 1 Set.testOrd0 Set.testOrd1).1
        0 1 ⟨[2, 1], by decide⟩).1
        (Set.Union Set.testHeap 0 1 Set.testOrd0 Set.testOrd1).2 : Nat) : Int)
      = (2 : Int) + 2 - 1 :=
  ⟨by decide, by decide, by decide,
    (set_union_len Set.testHeap 0 1 (by decide) (by decide) Set.testOrd0 Set.testOrd1
      ⟨[2, 1], by decide⟩).trans (by decide)⟩

/-- C16 (amended): `A.IsSubset(A.Union(B))` returns true if and only if every key stored
in `A` is `==` to itself; so it returns true for all sets `A` and `B` when `==` is
reflexive on the key type, and false as soon as `A` holds a NaN. For all sets `A` and `B`
of the heap and all traversal orders. -/
theorem set_subset_union {K : Type} [Comparable K] (h : SetHeap K) (a b : Nat)
    (ha : a < h.next) (oa : Traversal h a) (ob : Traversal h b)
    (oa1 : Traversal (Set.Union h a b oa ob).1 a) :
    (Set.IsSubset (Set.Union h a b oa ob).1 a (Set.Union h a b oa ob).2 oa1 = true ↔
      ∀ x ∈ h.keys a, Comparable.eq x x = true) ∧
    ((∀ x : K, Comparable.eq x x = true) →
      Set.IsSubset (Set.Union h a b oa ob).1 a (Set.Union h a b oa ob).2 oa1 = true) := by
  obtain ⟨hr, _, hf, hk⟩ := Set.Union_spec h a b oa ob
  have hane : a ≠ h.next := Nat.ne_of_lt ha
  have ea : (Set.Union h a b oa ob).1.keys a = h.keys a := by
    simp only [SetHeap.keys, hf a hane]
  have hiff : Set.IsSubset (Set.Union h a b oa ob).1 a (Set.Union h a b oa ob).2 oa1 = true ↔
      ∀ x ∈ h.keys a, Comparable.eq x x = true := by
    rw [Set.IsSubset_iff, hr, ea, hk]
    constructor
    · intro hall x hx
      exact (hall x hx).2
    · intro hall x hx
      refine ⟨?_, hall x hx⟩
      rw [List.mem_append, List.mem_reverse, List.mem_filter, List.mem_reverse,
        ob.perm.mem_iff, oa.perm.mem_iff, Bool.not_eq_true']
      cases hcb : Set.Contains h b x with
      | true => exact Or.inl ((Set.contains_iff h b x).1 hcb).1
      | false => exact Or.inr ⟨hx, rfl⟩
  exact ⟨hiff, fun hrefl => hiff.2 (fun x _ => hrefl x)⟩

/-- Witness for C16 on the sets of `TestSetUnion`. -/
theorem set_subset_union_witness :
    0 < Set.testHeap.next ∧ (∀ x ∈ Set.testHeap.keys 0, Comparable.eq x x = true) ∧
    Set.IsSubset (Set.Union Set.testHeap 0 1 Set.testOrd0 Set.testOrd1).1 0
      (Set.Union Set.testHeap 0 1 Set.testOrd0 Set.testOrd1).2 ⟨[2, 1], by decide⟩ = true :=
  ⟨by decide, by decide,
    (set_subset_union Set.testHeap 0 1 (by decide) Set.testOrd0 Set.testOrd1
      ⟨[2, 1], by decide⟩).1.2 (by decide)⟩

/-- Counterexample to C16 as stated: with `A = {NaN}` and `B` empty (`nanHeap`), the
union (at address 2) holds the key NaN and `A.IsSubset(A.Union(B))` returns false. -/
theorem set_subset_union_nan :
    (Set.Union Set.nanHeap 0 1 Set.nanOrd0 Set.nanOrd1).2 = 2 ∧
    (Set.Union Set.nanHeap 0 1 Set.nanOrd0 Set.nanOrd1).1.keys 2 = [Float64.nan] ∧
    Set.IsSubset (Set.Union Set.nanHeap 0 1 Set.nanOrd0 Set.nanOrd1).1 0
      (Set.Union Set.nanHeap 0 1 Set.nanOrd0 Set.nanOrd1).2
      ⟨[Float64.nan], by decide⟩ = false :=
  ⟨rfl, by decide, by decide⟩

/-- C17 (amended): `a.IsSuperset(b)` is `b.IsSubset(a)`; `a.Equal(b)` is true if and only
if `a.IsSubset(b)` and `b.IsSubset(a)` are, if and only if `a` and `b` contain the same
keys and no key stored in `a` or `b` is unequal to itself; `a.Equal(a)` is true if and
only if every key stored in `a` is `==` to itself; `Equal` is symmetric and transitive.
When `==` is reflexive on the key type, `Equal` is true if and only if `a` and `b`
contain the same keys, and it is reflexive. All of it for every heap, all sets and all
traversal orders. -/
theorem set_equal_equivalence {K : Type} [Comparable K] (h : SetHeap K) (a b c : Nat)
    (oa oa1 : Traversal h a) (ob ob1 : Traversal h b) (oc : Traversal h c) :
    Set.IsSuperset h a b ob = Set.IsSubset h b a ob ∧
    (Set.Equal h a b oa ob = true ↔
      Set.IsSubset h a b oa = true ∧ Set.IsSubset h b a ob = true) ∧
    (Set.Equal h a b oa ob = true ↔
      (∀ k, Set.Contains h a k = Set.Contains h b k) ∧
      (∀ x ∈ h.keys a, Comparable.eq x x = true) ∧
      (∀ x ∈ h.keys b, Comparable.eq x x = true)) ∧
    (Set.Equal h a a oa oa1 = true ↔ ∀ x ∈ h.keys a, Comparable.eq x x = true) ∧
    Set.Equal h a b oa ob = Set.Equal h b a ob1 oa1 ∧
    (Set.Equal h a b oa ob = true → Set.Equal h b c ob1 oc = true →
      Set.Equal h a c oa1 oc = true) ∧
    ((∀ x : K, Comparable.eq x x = true) →
      (Set.Equal h a b oa ob = true ↔ ∀ k, Set.Contains h a k = Set.Contains h b k) ∧
      Set.Equal h a a oa oa1 = true) := by
  have hcontains : Set.Equal h a b oa ob = true ↔
      (∀ k, Set.Contains h a k = Set.Contains h b k) ∧
      (∀ x ∈ h.keys a, Comparable.eq x x = true) ∧
      (∀ x ∈ h.keys b, Comparable.eq x x = true) := by
    rw [Set.Equal_iff]
    constructor
    · rintro ⟨hmem, hself⟩
      refine ⟨?_, hself, fun x hx => hself x ((hmem x).2 hx)⟩
      intro k
      rw [Bool.eq_iff_iff, Set.contains_iff, Set.contains_iff, hmem k]
    · rintro ⟨hall, hsa, hsb⟩
      refine ⟨fun x => ⟨fun hx => ?_, fun hx => ?_⟩, hsa⟩
      · have := (Set.contains_iff h a x).2 ⟨hx, hsa x hx⟩
        rw [hall x] at this
        exact ((Set.contains_iff h b x).1 this).1
      · have := (Set.contains_iff h b x).2 ⟨hx, hsb x hx⟩
        rw [← hall x] at this
        exact ((Set.contains_iff h a x).1 this).1
  have hrefl : Set.Equal h a a oa oa1 = true ↔ ∀ x ∈ h.keys a, Comparable.eq x x = true := by
    rw [Set.Equal_iff]
    exact ⟨fun hh => hh.2, fun hh => ⟨fun _ => Iff.rfl, hh⟩⟩
  refine ⟨rfl, ?_, hcontains, hrefl, ?_, ?_, ?_⟩
  · simp [Set.Equal, Set.IsSuperset]
  · rw [Bool.eq_iff_iff, Set.Equal_iff, Set.Equal_iff]
    constructor
    · rintro ⟨hmem, hself⟩
      exact ⟨fun x => (hmem x).symm, fun x hx => hself x ((hmem x).2 hx)⟩
    · rintro ⟨hmem, hself⟩
      exact ⟨fun x => (hmem x).symm, fun x hx => hself x ((hmem x).2 hx)⟩
  · rw [Set.Equal_iff, Set.Equal_iff, Set.Equal_iff]
    rintro ⟨h1, s1⟩ ⟨h2, _⟩
    exact ⟨fun x => (h1 x).trans (h2 x), s1⟩
  · intro hall
    refine ⟨?_, hrefl.2 (fun x _ => hall x)⟩
    rw [hcontains]
    exact ⟨fun hh => hh.1, fun hh => ⟨hh, fun x _ => hall x, fun x _ => hall x⟩⟩

/-- Counterexample to C17 as stated: in `nanHeap` the set `{NaN}` at address 0 is not
`Equal` to itself, and it is not `Equal` to the empty set at address 1 although
`Contains` returns the same on the two sets for every key. -/
theorem set_equal_nan :
    Set.nanHeap.keys 0 = [Float64.nan] ∧ Set.nanHeap.keys 1 = [] ∧
    Set.Equal Set.nanHeap 0 0 Set.nanOrd0 Set.nanOrd0 = false ∧
    (∀ k, Set.Contains Set.nanHeap 0 k = Set.Contains Set.nanHeap 1 k) ∧
    Set.Equal Set.nanHeap 0 1 Set.nanOrd0 Set.nanOrd1 = false := by
  refine ⟨by decide, by decide, by decide, ?_, by decide⟩
  intro k
  cases k with
  | nan => decide
  | num n =>
    rw [Bool.eq_iff_iff, Set.contains_iff, Set.contains_iff]
    have h0 : Set.nanHeap.keys 0 = [Float64.nan] := by decide
    have h1 : Set.nanHeap.keys 1 = [] := by decide
    simp [h0, h1]

/-- C18 (amended): `Union`, `Intersection`, `Difference`, `SymmetricDifference` and
`Clone` return an `Independent` set: at a new address, with every existing set (the
operands included) left as it was, such that later `Add`, `Remove` and `Clear` calls on
the result leave `Contains` and `Len` of every existing set unchanged, and later such
calls on existing sets leave the result unchanged. Right after the call the result of
`Clone` stores the same keys as the original, equally often, so `Contains` and `Len`
agree; it is `Equal` to the original if and only if every key stored in the original is
`==` to itself, so always when `==` is reflexive on the key type. -/
theorem set_results_independent {K : Type} [Comparable K] (h : SetHeap K) (a b : Nat)
    (ha : a < h.next) (hb : b < h.next) (oa : Traversal h a) (ob : Traversal h b) :
    Set.Independent h (Set.Union h a b oa ob) ∧
    Set.Independent h (Set.Intersection h a b oa) ∧
    Set.Independent h (Set.Difference h a b oa) ∧
    Set.Independent h (Set.SymmetricDifference h a b oa ob) ∧
    Set.Independent h (Set.Clone h a oa) ∧
    ((Set.Clone h a oa).1.keys (Set.Clone h a oa).2).Perm (h.keys a) ∧
    (∀ k, Set.Contains (Set.Clone h a oa).1 (Set.Clone h a oa).2 k = Set.Contains h a k) ∧
    Set.Len (Set.Clone h a oa).1 (Set.Clone h a oa).2 = Set.Len h a ∧
    ∀ (t1 : Traversal (Set.Clone h a oa).1 a)
      (t2 : Traversal (Set.Clone h a oa).1 (Set.Clone h a oa).2),
      (Set.Equal (Set.Clone h a oa).1 a (Set.Clone h a oa).2 t1 t2 = true ↔
        ∀ x ∈ h.keys a, Comparable.eq x x = true) ∧
      ((∀ x : K, Comparable.eq x x = true) →
        Set.Equal (Set.Clone h a oa).1 a (Set.Clone h a oa).2 t1 t2 = true) := by
  obtain ⟨u1, _, u2, _⟩ := Set.Union_spec h a b oa ob
  obtain ⟨i1, _, i2, _⟩ := Set.Intersection_spec h a b hb oa
  obtain ⟨d1, _, d2, _⟩ := Set.Difference_spec h a b hb oa
  obtain ⟨s1, _, s2, _⟩ := Set.SymmetricDifference_spec h a b ha hb oa ob
  obtain ⟨c1, _, c2, c3⟩ := Set.Clone_spec h a oa
  have hperm : ((Set.Clone h a oa).1.keys (Set.Clone h a oa).2).Perm (h.keys a) := by
    rw [c1, c3]
    exact (List.reverse_perm _).trans oa.perm
  have ea : (Set.Clone h a oa).1.keys a = h.keys a := by
    simp only [SetHeap.keys, c2 a (Nat.ne_of_lt ha)]
  refine ⟨Set.independent_of_frame h _ u1 u2, Set.independent_of_frame h _ i1 i2,
    Set.independent_of_frame h _ d1 d2, Set.independent_of_frame h _ s1 s2,
    Set.independent_of_frame h _ c1 c2, hperm, ?_, ?_, ?_⟩
  · intro k
    rw [Bool.eq_iff_iff, Set.contains_iff, Set.contains_iff, hperm.mem_iff]
  · rw [Set.len_eq, Set.len_eq, hperm.length_eq]
  · intro t1 t2
    have hiff : Set.Equal (Set.Clone h a oa).1 a (Set.Clone h a oa).2 t1 t2 = true ↔
        ∀ x ∈ h.keys a, Comparable.eq x x = true := by
      rw [Set.Equal_iff, ea]
      exact ⟨fun hh => hh.2, fun hh => ⟨fun x => (hperm.mem_iff).symm, hh⟩⟩
    exact ⟨hiff, fun hrefl => hiff.2 (fun x _ => hrefl x)⟩

/-- Witness for C18 on the sets of `TestSetClone` and `TestSetUnion`: after the union of
the sets at addresses 0 and 1 (the result is at address 2), adding the key 9 to the
result and clearing it leaves the operands with 2 keys each and without 9, and clearing
both operands leaves the result with its 3 keys. -/
theorem set_results_independent_witness :
    0 < Set.testHeap.next ∧ 1 < Set.testHeap.next ∧
    (Set.Union Set.testHeap 0 1 Set.testOrd0 Set.testOrd1).2 = 2 ∧
    Set.Contains (Set.mutate (Set.Union Set.testHeap 0 1 Set.testOrd0 Set.testOrd1).1
      [(2, Mutation.add 9), (2, Mutation.clear)]) 0 9 = Set.Contains Set.testHeap 0 9 ∧
    Set.Len (Set.mutate (Set.Union Set.testHeap 0 1 Set.testOrd0 Set.testOrd1).1
      [(2, Mutation.add 9), (2, Mutation.clear)]) 1 = Set.Len Set.testHeap 1 ∧
    Set.Len (Set.mutate (Set.Union Set.testHeap 0 1 Set.testOrd0 Set.testOrd1).1
      [(0, Mutation.clear), (1, Mutation.clear)]) 2 = 3 :=
  ⟨by decide, by decide, rfl,
    (((set_results_independent Set.testHeap 0 1 (by decide) (by decide)
      Set.testOrd0 Set.testOrd1).1.2.2.1 [(2, Mutation.add 9), (2, Mutation.clear)]
      (by decide)) 0 (by decide)).1 9,
    (((set_results_independent Set.testHeap 0 1 (by decide) (by decide)
      Set.testOrd0 Set.testOrd1).1.2.2.1 [(2, Mutation.add 9), (2, Mutation.clear)]
      (by decide)) 1 (by decide)).2,
    by decide⟩

/-- Counterexample to C18 as stated: the clone (at address 2) of the set `{NaN}` at
address 0 of `nanHeap` holds the key NaN, and `Equal` of the original and the clone
returns false right after the call. -/
theorem set_clone_nan :
    (Set.Clone Set.nanHeap 0 Set.nanOrd0).2 = 2 ∧
    (Set.Clone Set.nanHeap 0 Set.nanOrd0).1.keys 2 = [Float64.nan] ∧
    Set.Equal (Set.Clone Set.nanHeap 0 Set.nanOrd0).1 0 (Set.Clone Set.nanHeap 0 Set.nanOrd0).2
      ⟨[Float64.nan], by decide⟩ ⟨[Float64.nan], by decide⟩ = false :=
  ⟨rfl, by decide, by decide⟩

end Concurrent

/-! ## Package `fn`: lemmas -/

namespace Fn

variable {T : Type}

theorem foldl_append_init (l : List (List T)) (acc : List T) :
    l.foldl (fun result subSlice => result ++ subSlice) acc
      = acc ++ l.foldl (fun result subSlice => result ++ subSlice) [] := by
  induction l generalizing acc with
  | nil => simp
  | cons c l ih =>
    simp only [List.foldl_cons, List.nil_append]
    rw [ih (acc ++ c), ih c, List.append_assoc]

theorem Flatten_cons (c : List T) (cs : List (List T)) :
    Flatten (c :: cs) = c ++ Flatten cs := by
  simp only [Flatten, List.foldl_cons, List.nil_append]
  exact foldl_append_init cs c

/-- The chunk cut at index `m` is the next `k` elements, or all that is left. -/
theorem slice_chunk (s : List T) (m k : Nat) (hm : m < s.length) (hk : 1 ≤ k) :
    slice s (m : Int)
      (if (m : Int) + (k : Int) > (s.length : Int) then (s.length : Int)
        else (m : Int) + (k : Int))
      = some ((s.drop m).take k) := by
  by_cases hover : (m : Int) + (k : Int) > (s.length : Int)
  · have hcond : (0 : Int) ≤ (m : Int) ∧ (m : Int) ≤ (s.length : Int)
        ∧ (s.length : Int) ≤ (s.length : Int) := by omega
    simp only [hover, if_true, slice, hcond, and_self, Int.toNat_ofNat]
    congr 1
    rw [List.take_of_length_le (by simp), List.take_of_length_le (by simp; omega)]
  · have hcond : (0 : Int) ≤ (m : Int) ∧ (m : Int) ≤ (m : Int) + (k : Int)
        ∧ (m : Int) + (k : Int) ≤ (s.length : Int) := by omega
    have hnat : ((m : Int) + (k : Int)).toNat - m = k := by omega
    simp only [hover, if_false, slice, hcond, and_self, Int.toNat_ofNat, hnat, if_true]

theorem ceil_step (d k : Nat) (hk : 1 ≤ k) (hd : 0 < d) :
    (d - k + k - 1) / k + 1 = (d + k - 1) / k := by
  by_cases hle : k ≤ d
  · have : d + k - 1 = (d - k + k - 1) + k := by omega
    rw [this, Nat.add_div_right _ (by omega)]
  · have h1 : d - k + k - 1 = k - 1 := by omega
    have h2 : (k - 1) / k = 0 := Nat.div_eq_of_lt (by omega)
    have h3 : (d + k - 1) / k = 1 := by
      apply Nat.div_eq_of_lt_le <;> omega
    rw [h1, h2, h3]

/-- The loop of `Chunk` from index `m` with enough fuel, for a chunk size `k >= 1`. -/
theorem chunkLoop_spec (s : List T) (k : Nat) (hk : 1 ≤ k) (fuel m : Nat)
    (acc : List (List T)) (hfuel : s.length - m < fuel) :
    ∃ cs, chunkLoop s (k : Int) fuel (m : Int) acc = Outcome.done (acc ++ cs) ∧
      Flatten cs = s.drop m ∧
      (∀ c ∈ cs, 1 ≤ c.length ∧ c.length ≤ k) ∧
      (∀ c ∈ cs.dropLast, c.length = k) ∧
      cs.length = (s.length - m + k - 1) / k := by
  induction fuel generalizing m acc with
  | zero => omega
  | succ fuel ih =>
    by_cases hm : m < s.length
    · have hcond : (m : Int) < (s.length : Int) := by omega
      obtain ⟨cs, h1, h2, h3, h4, h5⟩ := ih (m + k) (acc ++ [(s.drop m).take k]) (by omega)
      refine ⟨(s.drop m).take k :: cs, ?_, ?_, ?_, ?_, ?_⟩
      · simp only [chunkLoop, hcond, if_true, slice_chunk s m k hm hk]
        have : ((m : Int) + (k : Int)) = ((m + k : Nat) : Int) := by omega
        rw [this, h1]
        simp
      · rw [Flatten_cons, h2, ← List.drop_drop, List.take_append_drop]
      · intro c hc
        rcases List.mem_cons.1 hc with rfl | hc
        · simp only [List.length_take, List.length_drop]
          omega
        · exact h3 c hc
      · intro c hc
        cases cs with
        | nil => simp at hc
        | cons c1 cs =>
          rw [List.dropLast_cons₂] at hc
          rcases List.mem_cons.1 hc with rfl | hc
          · have hpos : 0 < (s.length - (m + k) + k - 1) / k := by
              rw [← h5]
              simp
            have : 0 < s.length - (m + k) := by
              by_contra hz
              have hz0 : s.length - (m + k) = 0 := by omega
              rw [hz0, Nat.zero_add, Nat.div_eq_of_lt (by omega)] at hpos
              omega
            simp only [List.length_take, List.length_drop]
            omega
          · exact h4 c hc
      · simp only [List.length_cons, h5]
        have := ceil_step (s.length - m) k hk (by omega)
        have e : s.length - (m + k) = s.length - m - k := by omega
        rw [e]
        exact this
    · have hcond : ¬ (m : Int) < (s.length : Int) := by omega
      refine ⟨[], ?_, ?_, ?_, ?_, ?_⟩
      · simp [chunkLoop, hcond]
      · simp [Flatten, List.drop_eq_nil_of_le (Nat.le_of_not_lt hm)]
      · simp
      · simp
      · have : s.length - m = 0 := by omega
        rw [this, Nat.zero_add, Nat.div_eq_of_lt (by omega)]
        rfl

end Fn

namespace Fn

variable {T : Type}

theorem get_mid (pre rest : List T) (a : T) :
    (pre ++ a :: rest)[pre.length]? = some a := by
  induction pre with
  | nil => simp
  | cons x pre ih => simpa using ih

theorem set_mid (pre rest : List T) (a b : T) :
    (pre ++ a :: rest).set pre.length b = pre ++ b :: rest := by
  induction pre with
  | nil => rfl
  | cons x pre ih => simp

/-- The loop of `Reverse` started at the two ends of the segment `mid` reverses that
segment and leaves the rest of the slice as it is. -/
theorem reverseLoop_spec (fuel : Nat) (pre mid post : List T) (hfuel : mid.length < fuel) :
    reverseLoop fuel (pre ++ mid ++ post) (pre.length : Int)
        ((pre.length : Int) + (mid.length : Int) - 1)
      = Outcome.done (pre ++ mid.reverse ++ post) := by
  induction fuel generalizing pre mid post with
  | zero => omega
  | succ fuel ih =>
    cases mid with
    | nil =>
      have hcond : ¬ ((pre.length : Int) < (pre.length : Int) + ((0 : Nat) : Int) - 1) := by
        omega
      simp [reverseLoop, hcond]
    | cons a mid1 =>
      rcases List.eq_nil_or_concat mid1 with rfl | ⟨mid2, b, hmid⟩
      · have hcond : ¬ ((pre.length : Int) < (pre.length : Int) + ((1 : Nat) : Int) - 1) := by
          omega
        simp only [List.length_singleton, reverseLoop, hcond, if_false, List.reverse_singleton]
      · rw [List.concat_eq_append] at hmid
        subst hmid
        have hlen : ((a :: (mid2 ++ [b])).length : Int) = (mid2.length : Int) + 2 := by
          simp
          omega
        have hcond : (pre.length : Int) < (pre.length : Int) + ((mid2.length : Int) + 2) - 1 := by
          omega
        have hj : (pre.length : Int) + ((mid2.length : Int) + 2) - 1
            = (((pre ++ a :: mid2).length : Nat) : Int) := by
          simp
          omega
        have hs : pre ++ a :: (mid2 ++ [b]) ++ post = (pre ++ a :: mid2) ++ b :: post := by
          simp
        have hi0 : (0 : Int) ≤ (pre.length : Int) := by omega
        have hj0 : (0 : Int) ≤ (((pre ++ a :: mid2).length : Nat) : Int) := by omega
        have ga : (pre ++ a :: (mid2 ++ [b]) ++ post)[pre.length]? = some a := by
          rw [List.append_assoc]
          exact get_mid pre _ a
        have gb : (pre ++ a :: (mid2 ++ [b]) ++ post)[(pre ++ a :: mid2).length]? = some b := by
          rw [hs]
          exact get_mid _ post b
        have hset : ((pre ++ a :: (mid2 ++ [b]) ++ post).set pre.length b).set
            (pre ++ a :: mid2).length a = (pre ++ [b]) ++ mid2 ++ (a :: post) := by
          have e1 : (pre ++ a :: (mid2 ++ [b]) ++ post).set pre.length b
              = (pre ++ b :: mid2) ++ b :: post := by
            rw [List.append_assoc, List.cons_append, set_mid]
            simp
          have e2 : (pre ++ a :: mid2).length = (pre ++ b :: mid2).length := by simp
          rw [e1, e2, set_mid]
          simp
        rw [hlen]
        simp only [reverseLoop, hcond, if_true, hj, index, hi0, hj0, Int.toNat_ofNat, ga, gb,
          hset]
        have hi1 : (pre.length : Int) + 1 = (((pre ++ [b]).length : Nat) : Int) := by simp
        have hj1 : (((pre ++ a :: mid2).length : Nat) : Int) - 1
            = (((pre ++ [b]).length : Nat) : Int) + (mid2.length : Int) - 1 := by
          simp
          omega
        rw [hi1, hj1, ih (pre ++ [b]) mid2 (a :: post) (by simp at hfuel; omega)]
        simp

theorem Reverse_spec (fuel : Nat) (s : List T) (hfuel : s.length < fuel) :
    Reverse fuel s = Outcome.done s.reverse := by
  have := reverseLoop_spec fuel [] s [] hfuel
  simpa [Reverse] using this

end Fn

namespace Fn

variable {T : Type}

theorem slice_front (s : List T) (p : Nat) (hp : p ≤ s.length) :
    slice s 0 (p : Int) = some (s.take p) := by
  have hcond : (0 : Int) ≤ 0 ∧ (0 : Int) ≤ (p : Int) ∧ (p : Int) ≤ (s.length : Int) := by omega
  simp [slice, hcond]

theorem slice_back (s : List T) (p : Nat) (hp : p ≤ s.length) :
    slice s (p : Int) (s.length : Int) = some (s.drop p) := by
  have hcond : (0 : Int) ≤ (p : Int) ∧ (p : Int) ≤ (s.length : Int)
      ∧ (s.length : Int) ≤ (s.length : Int) := by omega
  simp only [slice, hcond, and_self, if_true, Int.toNat_ofNat]
  rw [List.take_of_length_le (by simp)]

/-- With enough fuel, `RotateLeft` of a slice of at least two elements by a non-negative
number of positions is the left rotation of the list. -/
theorem RotateLeft_eq_rotate (fuel : Nat) (s : List T) (positions : Int)
    (hfuel : s.length < fuel) (hlen : 2 ≤ s.length) (hpos : 0 ≤ positions) :
    RotateLeft fuel s positions = Outcome.done (s.rotate positions.toNat) := by
  have hn : ¬ s.length < 2 := by omega
  have hmod : Int.tmod positions (s.length : Int)
      = ((positions.toNat % s.length : Nat) : Int) := by
    rw [Int.tmod_eq_emod hpos (by omega)]
    have : positions = ((positions.toNat : Nat) : Int) := (Int.toNat_of_nonneg hpos).symm
    rw [this, Int.toNat_ofNat]
    exact (Int.natCast_mod _ _).symm
  have hp : positions.toNat % s.length < s.length := Nat.mod_lt _ (by omega)
  have hfront := slice_front s (positions.toNat % s.length) (Nat.le_of_lt hp)
  have hlen1 : ((s.take (positions.toNat % s.length)).reverse
      ++ s.drop (s.take (positions.toNat % s.length)).length).length = s.length := by
    simp
  have hback := slice_back ((s.take (positions.toNat % s.length)).reverse
      ++ s.drop (s.take (positions.toNat % s.length)).length) (positions.toNat % s.length)
      (by rw [hlen1]; exact Nat.le_of_lt hp)
  rw [hlen1] at hback
  have hdrop : ((s.take (positions.toNat % s.length)).reverse
      ++ s.drop (s.take (positions.toNat % s.length)).length).drop
        (positions.toNat % s.length) = s.drop (positions.toNat % s.length) := by
    have e : (s.take (positions.toNat % s.length)).length = positions.toNat % s.length := by
      simp
      omega
    rw [e]
    have e2 : (s.take (positions.toNat % s.length)).reverse.length
        = positions.toNat % s.length := by
      simp
      omega
    rw [List.drop_append_of_le_length (by omega), List.drop_of_length_le (by omega)]
    simp
  rw [hdrop] at hback
  simp only [RotateLeft, hn, if_false, hmod, hfront]
  rw [Reverse_spec fuel _ (by simp; omega)]
  simp only [hback]
  rw [Reverse_spec fuel _ (by simp; omega)]
  simp only []
  rw [Reverse_spec fuel _ (by simp; omega)]
  congr 1
  rw [← List.rotate_mod, List.rotate_eq_drop_append_take (Nat.le_of_lt hp)]
  simp

end Fn

namespace Fn

/-- C19: for every slice `s` and every `chunkSize >= 1`, `Chunk` returns (given a budget
of more than `len(s)` loop steps) chunks whose concatenation by `Flatten` is `s`; every
chunk except the last has exactly `chunkSize` elements; the last has between 1 and
`chunkSize`; an empty `s` gives no chunks; and there are `ceil(len(s) / chunkSize)`
chunks. -/
theorem chunk_splits {T : Type} (s : List T) (chunkSize : Int) (fuel : Nat)
    (hsize : 1 ≤ chunkSize) (hfuel : s.length < fuel) :
    ∃ chunks, Chunk fuel s chunkSize = Outcome.done chunks ∧
      Flatten chunks = s ∧
      (∀ c ∈ chunks.dropLast, (c.length : Int) = chunkSize) ∧
      (∀ c, chunks.getLast? = some c → 1 ≤ c.length ∧ (c.length : Int) ≤ chunkSize) ∧
      (s = [] → chunks = []) ∧
      chunks.length = (s.length + chunkSize.toNat - 1) / chunkSize.toNat := by
  have hk : chunkSize = ((chunkSize.toNat : Nat) : Int) := (Int.toNat_of_nonneg (by omega)).symm
  have hk1 : 1 ≤ chunkSize.toNat := by omega
  obtain ⟨cs, h1, h2, h3, h4, h5⟩ :=
    chunkLoop_spec s chunkSize.toNat hk1 fuel 0 [] (by omega)
  refine ⟨cs, ?_, by simpa using h2, ?_, ?_, ?_, by simpa using h5⟩
  · rw [Chunk, hk]
    simpa using h1
  · intro c hc
    rw [hk, h4 c hc]
  · intro c hc
    have := h3 c (List.mem_of_getLast?_eq_some hc)
    omega
  · intro hs
    have : cs.length = 0 := by
      rw [h5, hs]
      simp only [List.length_nil, Nat.sub_zero, Nat.zero_add]
      exact Nat.div_eq_of_lt (by omega)
    exact List.length_eq_zero.1 this

/-- Witness for C19 on the second call of `TestChunk`: nine numbers in chunks of four. -/
theorem chunk_splits_witness :
    (1 : Int) ≤ 4 ∧ [1, 2, 3, 4, 5, 6, 7, 8, 9].length < 10 ∧
    Chunk 10 [1, 2, 3, 4, 5, 6, 7, 8, 9] 4
      = Outcome.done [[1, 2, 3, 4], [5, 6, 7, 8], [9]] ∧
    ∃ chunks, Chunk 10 [1, 2, 3, 4, 5, 6, 7, 8, 9] 4 = Outcome.done chunks ∧
      Flatten chunks = [1, 2, 3, 4, 5, 6, 7, 8, 9] :=
  ⟨by decide, by decide, by decide,
    (chunk_splits [1, 2, 3, 4, 5, 6, 7, 8, 9] 4 10 (by decide) (by decide)).imp
      (fun _ h => ⟨h.1, h.2.1⟩)⟩

/-- C20: for a slice `s` of length `n >= 2` and `positions >= 0`, `RotateLeft` returns
(given a budget of more than `n` loop steps for each `Reverse`) with `s` holding at every
index `i < n` the original element at index `(i + positions) mod n`; rotating by a
multiple of `n` leaves `s` unchanged. For `n < 2`, `s` is unchanged. -/
theorem rotate_left_index {T : Type} (s : List T) (positions : Int) (fuel : Nat)
    (hfuel : s.length < fuel) :
    (2 ≤ s.length → 0 ≤ positions →
      ∃ t, RotateLeft fuel s positions = Outcome.done t ∧ t.length = s.length ∧
        (∀ i, i < s.length →
          t[i]? = s[(((i : Int) + positions) % (s.length : Int)).toNat]?) ∧
        ((s.length : Int) ∣ positions → t = s)) ∧
    (s.length < 2 → RotateLeft fuel s positions = Outcome.done s) := by
  refine ⟨?_, ?_⟩
  · intro hlen hpos
    refine ⟨s.rotate positions.toNat, RotateLeft_eq_rotate fuel s positions hfuel hlen hpos,
      by simp, ?_, ?_⟩
    · intro i hi
      rw [List.getElem?_rotate hi]
      congr 1
      have hp : positions = ((positions.toNat : Nat) : Int) :=
        (Int.toNat_of_nonneg hpos).symm
      have : ((i : Int) + positions) % (s.length : Int)
          = (((i + positions.toNat) % s.length : Nat) : Int) := by
        rw [hp, Int.toNat_ofNat]
        push_cast
        rfl
      rw [this, Int.toNat_ofNat]
    · intro hdvd
      obtain ⟨m, hm⟩ := hdvd
      have hm0 : 0 ≤ m := by
        by_contra hneg
        have h1 : m ≤ -1 := by omega
        have h2 : (s.length : Int) * m ≤ (s.length : Int) * (-1) :=
          Int.mul_le_mul_of_nonneg_left h1 (by omega)
        omega
      have : positions.toNat = s.length * m.toNat := by
        have hm' : m = ((m.toNat : Nat) : Int) := (Int.toNat_of_nonneg hm0).symm
        rw [hm, hm']
        rw [← Int.natCast_mul, Int.toNat_ofNat, Int.toNat_ofNat]
      rw [this, List.rotate_length_mul]
  · intro hlen
    simp [RotateLeft, hlen]

/-- Witness for C20 on the first call of `TestRotateLeft`: five numbers rotated left by
two positions. -/
theorem rotate_left_index_witness :
    [1, 2, 3, 4, 5].length < 6 ∧ 2 ≤ [1, 2, 3, 4, 5].length ∧ (0 : Int) ≤ 2 ∧
    RotateLeft 6 [1, 2, 3, 4, 5] 2 = Outcome.done [3, 4, 5, 1, 2] ∧
    ∃ t, RotateLeft 6 [1, 2, 3, 4, 5] 2 = Outcome.done t ∧ t.length = 5 :=
  ⟨by decide, by decide, by decide, by decide,
    ((rotate_left_index [1, 2, 3, 4, 5] 2 6 (by decide)).1 (by decide) (by decide)).imp
      (fun _ h => ⟨h.1, h.2.1⟩)⟩

end Fn

/-! ## Package `fn`: `RotateRight`, `Distinct`, `Zip`, `Take`, `Drop`, `Shuffle` -/

namespace Fn

variable {T : Type}

/-- With enough fuel, `RotateRight` of a slice of at least two elements by a non-negative
number of positions is the left rotation by `n - positions mod n`. -/
theorem RotateRight_eq_rotate (fuel : Nat) (s : List T) (positions : Int)
    (hfuel : s.length < fuel) (hlen : 2 ≤ s.length) (hpos : 0 ≤ positions) :
    RotateRight fuel s positions
      = Outcome.done (s.rotate (s.length - positions.toNat % s.length)) := by
  have hn : ¬ s.length < 2 := by omega
  have hmod : Int.tmod positions (s.length : Int)
      = ((positions.toNat % s.length : Nat) : Int) := by
    rw [Int.tmod_eq_emod hpos (by omega)]
    have : positions = ((positions.toNat : Nat) : Int) := (Int.toNat_of_nonneg hpos).symm
    rw [this, Int.toNat_ofNat]
    exact (Int.natCast_mod _ _).symm
  have hp : positions.toNat % s.length < s.length := Nat.mod_lt _ (by omega)
  have hrlen : s.reverse.length = s.length := List.length_reverse s
  have hfront := slice_front s.reverse (positions.toNat % s.length)
    (by rw [hrlen]; exact Nat.le_of_lt hp)
  have hlen1 : ((s.reverse.take (positions.toNat % s.length)).reverse
      ++ s.reverse.drop (s.reverse.take (positions.toNat % s.length)).length).length
      = s.length := by
    simp
  have hback := slice_back ((s.reverse.take (positions.toNat % s.length)).reverse
      ++ s.reverse.drop (s.reverse.take (positions.toNat % s.length)).length)
      (positions.toNat % s.length) (by rw [hlen1]; exact Nat.le_of_lt hp)
  rw [hlen1] at hback
  have hdrop : ((s.reverse.take (positions.toNat % s.length)).reverse
      ++ s.reverse.drop (s.reverse.take (positions.toNat % s.length)).length).drop
        (positions.toNat % s.length) = s.reverse.drop (positions.toNat % s.length) := by
    have e : (s.reverse.take (positions.toNat % s.length)).length
        = positions.toNat % s.length := by
      simp
      omega
    rw [e]
    have e2 : (s.reverse.take (positions.toNat % s.length)).reverse.length
        = positions.toNat % s.length := by
      simp
      omega
    rw [List.drop_append_of_le_length (by omega), List.drop_of_length_le (by omega)]
    simp
  rw [hdrop] at hback
  simp only [RotateRight, hn, if_false, hmod]
  rw [Reverse_spec fuel _ hfuel]
  simp only [hfront]
  rw [Reverse_spec fuel _ (by simp; omega)]
  simp only [hback]
  rw [Reverse_spec fuel _ (by simp; omega)]
  simp only []
  congr 1
  have h1 := List.rotate_reverse s (positions.toNat % s.length)
  rw [Nat.mod_mod] at h1
  have h2 : s.rotate (s.length - positions.toNat % s.length)
      = (s.reverse.rotate (positions.toNat % s.length)).reverse := by
    rw [h1, List.reverse_reverse]
  rw [h2, List.rotate_eq_drop_append_take (by rw [hrlen]; exact Nat.le_of_lt hp)]
  simp

/-- Index arithmetic of a right rotation by `p < n`. -/
theorem right_index_arith (n p i : Nat) (hp : p < n) (hi : i < n) :
    ((i + p) % n + (n - p)) % n = i := by
  by_cases h : i + p < n
  · rw [Nat.mod_eq_of_lt h]
    have : i + p + (n - p) = i + n := by omega
    rw [this, Nat.add_mod_right, Nat.mod_eq_of_lt hi]
  · have h1 : (i + p) % n = i + p - n := by
      rw [Nat.mod_eq_sub_mod (by omega), Nat.mod_eq_of_lt (by omega)]
    rw [h1]
    have : i + p - n + (n - p) = i := by omega
    rw [this, Nat.mod_eq_of_lt hi]

end Fn

namespace Fn

/-- C21: for a slice `s` of length `n >= 2` and `positions >= 0`, `RotateRight` returns
(given a budget of more than `n` loop steps for each `Reverse`) with `s` holding at index
`(i + positions) mod n` the original element at index `i`, for every `i < n`; rotating
by a multiple of `n` leaves `s` unchanged; and `RotateRight` by `positions` applied to
the result of `RotateLeft` by `positions` gives `s` back. For `n < 2`, `s` is
unchanged. -/
theorem rotate_right_index {T : Type} (s : List T) (positions : Int) (fuel : Nat)
    (hfuel : s.length < fuel) :
    (2 ≤ s.length → 0 ≤ positions →
      ∃ t, RotateRight fuel s positions = Outcome.done t ∧ t.length = s.length ∧
        (∀ i, i < s.length →
          t[(((i : Int) + positions) % (s.length : Int)).toNat]? = s[i]?) ∧
        ((s.length : Int) ∣ positions → t = s) ∧
        (∀ u, RotateLeft fuel s positions = Outcome.done u →
          RotateRight fuel u positions = Outcome.done s)) ∧
    (s.length < 2 → RotateRight fuel s positions = Outcome.done s) := by
  refine ⟨?_, ?_⟩
  · intro hlen hpos
    have hn : 0 < s.length := by omega
    have hp : positions.toNat % s.length < s.length := Nat.mod_lt _ hn
    have hP : positions = ((positions.toNat : Nat) : Int) := (Int.toNat_of_nonneg hpos).symm
    refine ⟨s.rotate (s.length - positions.toNat % s.length),
      RotateRight_eq_rotate fuel s positions hfuel hlen hpos, by simp, ?_, ?_, ?_⟩
    · intro i hi
      have hidx : ((i : Int) + positions) % (s.length : Int)
          = (((i + positions.toNat) % s.length : Nat) : Int) := by
        rw [hP, Int.toNat_ofNat]
        push_cast
        rfl
      rw [hidx, Int.toNat_ofNat, List.getElem?_rotate (Nat.mod_lt _ hn)]
      congr 1
      have h1 : (i + positions.toNat) % s.length
          = (i + positions.toNat % s.length) % s.length := by
        exact (Nat.add_mod_mod i positions.toNat s.length).symm
      rw [h1]
      exact right_index_arith s.length (positions.toNat % s.length) i hp hi
    · intro hdvd
      have h0 : positions.toNat % s.length = 0 := by
        have h1 : positions % (s.length : Int) = 0 := Int.emod_eq_zero_of_dvd hdvd
        rw [hP, ← Int.natCast_mod] at h1
        exact_mod_cast h1
      rw [h0, Nat.sub_zero, List.rotate_length]
    · intro u hu
      rw [RotateLeft_eq_rotate fuel s positions hfuel hlen hpos] at hu
      cases hu
      have hlenu : (s.rotate positions.toNat).length = s.length := List.length_rotate _ _
      rw [RotateRight_eq_rotate fuel _ positions (by rw [hlenu]; exact hfuel)
        (by rw [hlenu]; exact hlen) hpos, hlenu, List.rotate_rotate]
      congr 1
      have hdm := Nat.div_add_mod positions.toNat s.length
      have hsum : positions.toNat + (s.length - positions.toNat % s.length)
          = s.length * (positions.toNat / s.length + 1) := by
        rw [Nat.mul_add, Nat.mul_one]
        generalize s.length * (positions.toNat / s.length) = q at hdm ⊢
        omega
      rw [hsum, List.rotate_length_mul]
  · intro hlen
    simp [RotateRight, hlen]

/-- Witness for C21 on the first call of `TestRotateRight`: five numbers rotated right by
two positions. -/
theorem rotate_right_index_witness :
    [1, 2, 3, 4, 5].length < 6 ∧ 2 ≤ [1, 2, 3, 4, 5].length ∧ (0 : Int) ≤ 2 ∧
    RotateRight 6 [1, 2, 3, 4, 5] 2 = Outcome.done [4, 5, 1, 2, 3] ∧
    ∃ t, RotateRight 6 [1, 2, 3, 4, 5] 2 = Outcome.done t ∧ t.length = 5 :=
  ⟨by decide, by decide, by decide, by decide,
    ((rotate_right_index [1, 2, 3, 4, 5] 2 6 (by decide)).1 (by decide) (by decide)).imp
      (fun _ h => ⟨h.1, h.2.1⟩)⟩

end Fn

namespace Fn

open Concurrent

variable {T : Type} [Comparable T]

/-- The flag of `_, ok := seen[x]` after `seen[k] = v`. -/
theorem index_assign_snd (m : GoMap T Unit) (k x : T) :
    ((m.assign k ()).index x).2 = (Comparable.eq k x || (m.index x).2) := by
  rw [GoMap.index_snd, GoMap.index_snd]
  cases hkx : Comparable.eq k x with
  | true => simp [GoMap.assign, hkx]
  | false =>
    simp only [GoMap.assign, List.any_cons, hkx, Bool.false_or]
    rw [Bool.eq_iff_iff, List.any_eq_true, List.any_eq_true]
    constructor
    · rintro ⟨p, hp, hpx⟩
      exact ⟨p, (List.mem_filter.1 hp).1, hpx⟩
    · rintro ⟨p, hp, hpx⟩
      refine ⟨p, List.mem_filter.2 ⟨hp, ?_⟩, hpx⟩
      cases hpk : Comparable.eq p.1 k with
      | false => rfl
      | true =>
        have e1 := ((GoMap.eq_iff p.1 k).1 hpk).1
        rw [e1, hkx] at hpx
        cases hpx

/-- The loop of `Distinct` appends to `result` the first occurrences among the remaining
elements, as long as `seen` finds exactly the elements met before. -/
theorem distinctLoop_spec (rest : List T) (seen : GoMap T Unit)
    (result before : List T)
    (hseen : ∀ x, (seen.index x).2 = before.any (fun y => Comparable.eq y x)) :
    distinctLoop rest seen result = result ++ firstOccurrencesFrom before rest := by
  induction rest generalizing seen result before with
  | nil => simp [distinctLoop, firstOccurrencesFrom]
  | cons v rest ih =>
    cases hv : before.any (fun y => Comparable.eq y v) with
    | true =>
      have hidx : (seen.index v).2 = true := by rw [hseen, hv]
      simp only [distinctLoop, hidx, if_true, firstOccurrencesFrom, hv]
      apply ih
      intro x
      rw [hseen x, List.any_append, List.any_cons, List.any_nil, Bool.or_false]
      cases hvx : Comparable.eq v x with
      | false => simp
      | true =>
        have e1 := ((GoMap.eq_iff v x).1 hvx).1
        rw [← e1, hv]
        rfl
    | false =>
      have hidx : ¬ (seen.index v).2 = true := by rw [hseen, hv]; simp
      simp only [distinctLoop, hidx, if_false, firstOccurrencesFrom, hv]
      rw [ih (seen.assign v ()) (result ++ [v]) (before ++ [v])]
      · simp
      · intro x
        rw [index_assign_snd, hseen x, List.any_append, List.any_cons, List.any_nil,
          Bool.or_false, Bool.or_comm]

theorem Distinct_eq (s : List T) : Distinct s = firstOccurrences s := by
  have := distinctLoop_spec s GoMap.make [] []
    (by intro x; simp [GoMap.index, GoMap.make, GoMap.lookup])
  simpa [Distinct, firstOccurrences] using this

theorem mem_firstOccurrencesFrom (before s : List T) (x : T) :
    x ∈ firstOccurrencesFrom before s ↔
      x ∈ s ∧ before.any (fun y => Comparable.eq y x) = false := by
  induction s generalizing before with
  | nil => simp [firstOccurrencesFrom]
  | cons a s ih =>
    have hsnoc : (before ++ [a]).any (fun y => Comparable.eq y x) = false ↔
        before.any (fun y => Comparable.eq y x) = false ∧ Comparable.eq a x = false := by
      rw [List.any_append, List.any_cons, List.any_nil, Bool.or_false, Bool.or_eq_false_iff]
    cases ha : before.any (fun y => Comparable.eq y a) with
    | true =>
      simp only [firstOccurrencesFrom, ha, if_true]
      rw [ih, hsnoc]
      constructor
      · rintro ⟨h1, h2, _⟩
        exact ⟨List.mem_cons_of_mem _ h1, h2⟩
      · rintro ⟨h1, h2⟩
        have hax : Comparable.eq a x = false := by
          cases hax : Comparable.eq a x with
          | false => rfl
          | true =>
            have e1 := ((GoMap.eq_iff a x).1 hax).1
            rw [e1, h2] at ha
            cases ha
        rcases List.mem_cons.1 h1 with h3 | h3
        · rw [← h3, h2] at ha
          cases ha
        · exact ⟨h3, h2, hax⟩
    | false =>
      simp only [firstOccurrencesFrom, ha, Bool.false_eq_true, if_false, List.mem_cons]
      rw [ih, hsnoc]
      constructor
      · rintro (h1 | ⟨h1, h2, _⟩)
        · rw [h1]
          exact ⟨Or.inl rfl, ha⟩
        · exact ⟨Or.inr h1, h2⟩
      · rintro ⟨h1 | h1, h2⟩
        · exact Or.inl h1
        · cases hax : Comparable.eq a x with
          | false => exact Or.inr ⟨h1, h2, rfl⟩
          | true => exact Or.inl ((GoMap.eq_iff a x).1 hax).1.symm

/-- No two elements of the result are `==`. -/
theorem pairwise_firstOccurrencesFrom (before s : List T) :
    (firstOccurrencesFrom before s).Pairwise (fun a b => Comparable.eq a b = false) := by
  induction s generalizing before with
  | nil => simp [firstOccurrencesFrom]
  | cons a s ih =>
    cases ha : before.any (fun y => Comparable.eq y a) with
    | true =>
      simp only [firstOccurrencesFrom, ha, if_true]
      exact ih _
    | false =>
      simp only [firstOccurrencesFrom, ha, Bool.false_eq_true, if_false, List.pairwise_cons]
      refine ⟨?_, ih _⟩
      intro y hy
      have := ((mem_firstOccurrencesFrom (before ++ [a]) s y).1 hy).2
      rw [List.any_append, List.any_cons, List.any_nil, Bool.or_false,
        Bool.or_eq_false_iff] at this
      exact this.2

/-- A slice without two `==` elements whose elements are all `==` to themselves holds no
value twice. -/
theorem nodup_of_pairwise (l : List T)
    (hp : l.Pairwise (fun a b => Comparable.eq a b = false))
    (hself : ∀ x ∈ l, Comparable.eq x x = true) : l.Nodup := by
  induction l with
  | nil => exact List.nodup_nil
  | cons a l ih =>
    rw [List.pairwise_cons] at hp
    rw [List.nodup_cons]
    refine ⟨?_, ih hp.2 (fun x hx => hself x (List.mem_cons_of_mem _ hx))⟩
    intro ha
    have h1 := hp.1 a ha
    rw [hself a (List.mem_cons_self _ _)] at h1
    cases h1

theorem sublist_firstOccurrencesFrom (before s : List T) :
    (firstOccurrencesFrom before s).Sublist s := by
  induction s generalizing before with
  | nil => simp [firstOccurrencesFrom]
  | cons a s ih =>
    cases ha : before.any (fun y => Comparable.eq y a) with
    | true =>
      simp only [firstOccurrencesFrom, ha, if_true]
      exact (ih _).cons a
    | false =>
      simp only [firstOccurrencesFrom, ha, Bool.false_eq_true, if_false]
      exact (ih _).cons₂ a

theorem firstOccurrencesFrom_append (before a b : List T) :
    firstOccurrencesFrom before (a ++ b)
      = firstOccurrencesFrom before a ++ firstOccurrencesFrom (before ++ a) b := by
  induction a generalizing before with
  | nil => simp [firstOccurrencesFrom]
  | cons x a ih =>
    cases hx : before.any (fun y => Comparable.eq y x) with
    | true =>
      simp only [List.cons_append, firstOccurrencesFrom, hx, if_true, List.append_eq]
      rw [ih, List.append_assoc, List.singleton_append]
    | false =>
      simp only [List.cons_append, firstOccurrencesFrom, hx, Bool.false_eq_true, if_false,
        List.append_eq]
      rw [ih, List.append_assoc, List.singleton_append]

theorem firstOccurrencesFrom_of_pairwise (before l : List T)
    (hl : l.Pairwise (fun a b => Comparable.eq a b = false))
    (hdis : ∀ x ∈ l, before.any (fun y => Comparable.eq y x) = false) :
    firstOccurrencesFrom before l = l := by
  induction l generalizing before with
  | nil => rfl
  | cons a l ih =>
    rw [List.pairwise_cons] at hl
    have ha : before.any (fun y => Comparable.eq y a) = false := hdis a (by simp)
    simp only [firstOccurrencesFrom, ha, Bool.false_eq_true, if_false]
    congr 1
    apply ih _ hl.2
    intro x hx
    rw [List.any_append, List.any_cons, List.any_nil, Bool.or_false, Bool.or_eq_false_iff]
    exact ⟨hdis x (by simp [hx]), hl.1 x hx⟩

/-- Every element that is not `==` to itself is kept. -/
theorem filter_firstOccurrencesFrom (before s : List T) :
    (firstOccurrencesFrom before s).filter (fun x => !Comparable.eq x x)
      = s.filter (fun x => !Comparable.eq x x) := by
  induction s generalizing before with
  | nil => simp [firstOccurrencesFrom]
  | cons a s ih =>
    cases ha : before.any (fun y => Comparable.eq y a) with
    | true =>
      have haa : Comparable.eq a a = true := by
        obtain ⟨y, _, hya⟩ := List.any_eq_true.1 ha
        obtain ⟨e1, e2⟩ := (GoMap.eq_iff y a).1 hya
        rw [e1] at e2
        exact e2
      simp only [firstOccurrencesFrom, ha, if_true]
      rw [ih, List.filter_cons]
      simp [haa]
    | false =>
      simp only [firstOccurrencesFrom, ha, Bool.false_eq_true, if_false]
      rw [List.filter_cons, List.filter_cons, ih]

/-- C22 (amended): `Distinct(s)` is the subsequence of `s` made of the elements that are
`==` to no earlier element (it equals `firstOccurrences s`, it is a sublist of `s`, and an
element appended to `s` is appended to the result exactly when no element of `s` is `==`
to it). So no two of its elements are `==`, it contains exactly the values that occur in
`s`, every element that is not `==` to itself (a NaN) is kept as often as it occurs, and
`Distinct` is idempotent. When every element of `s` is `==` to itself, `Distinct(s)`
contains no element twice. -/
theorem distinct_first_occurrences (s : List T) :
    (Distinct s).Pairwise (fun a b => Comparable.eq a b = false) ∧
    ((∀ x ∈ s, Comparable.eq x x = true) → (Distinct s).Nodup) ∧
    (∀ x, x ∈ Distinct s ↔ x ∈ s) ∧
    Distinct s = firstOccurrences s ∧
    (Distinct s).Sublist s ∧
    (∀ x, Distinct (s ++ [x])
      = if s.any (fun y => Comparable.eq y x) then Distinct s else Distinct s ++ [x]) ∧
    (Distinct s).filter (fun x => !Comparable.eq x x)
      = s.filter (fun x => !Comparable.eq x x) ∧
    Distinct (Distinct s) = Distinct s := by
  have hpair : (Distinct s).Pairwise (fun a b => Comparable.eq a b = false) := by
    rw [Distinct_eq]
    exact pairwise_firstOccurrencesFrom [] s
  have hmem : ∀ x, x ∈ Distinct s ↔ x ∈ s := by
    intro x
    rw [Distinct_eq, firstOccurrences, mem_firstOccurrencesFrom]
    simp
  refine ⟨hpair, ?_, hmem, Distinct_eq s, ?_, ?_, ?_, ?_⟩
  · intro hself
    exact nodup_of_pairwise _ hpair (fun x hx => hself x ((hmem x).1 hx))
  · rw [Distinct_eq]
    exact sublist_firstOccurrencesFrom [] s
  · intro x
    rw [Distinct_eq, Distinct_eq, firstOccurrences, firstOccurrences,
      firstOccurrencesFrom_append]
    cases hx : s.any (fun y => Comparable.eq y x) with
    | true => simp [firstOccurrencesFrom, hx]
    | false => simp [firstOccurrencesFrom, hx]
  · rw [Distinct_eq]
    exact filter_firstOccurrencesFrom [] s
  · rw [Distinct_eq (Distinct s), firstOccurrences]
    exact firstOccurrencesFrom_of_pairwise [] _ hpair (by simp)

/-- Counterexample to C22 as stated: on the `float64` slice `[NaN, NaN, 1, 1]`,
`Distinct` returns `[NaN, NaN, 1]`, which contains NaN twice. -/
theorem distinct_nan :
    Distinct [Float64.nan, Float64.nan, Float64.num 1, Float64.num 1]
      = [Float64.nan, Float64.nan, Float64.num 1] ∧
    ¬ (Distinct [Float64.nan, Float64.nan, Float64.num 1, Float64.num 1]).Nodup :=
  ⟨by decide, by decide⟩

end Fn

namespace Fn

variable {T U V : Type}

/-- The loop of `Zip` over the indices `k, k + 1, ...` completes the element-wise
combination when the first `k` results are already in place. -/
theorem zipLoop_spec (s1 : List T) (s2 : List U) (f : T → U → V)
    (hlen : s1.length = s2.length) (m k : Nat) (result : List V)
    (hk : k + m = s1.length) (hres : result.length = s1.length)
    (hdone : result.take k = (List.zipWith f s1 s2).take k) :
    zipLoop s1 s2 f (List.range' k m) result = Outcome.done (List.zipWith f s1 s2) := by
  induction m generalizing k result with
  | zero =>
    have hk0 : k = s1.length := by omega
    have hz : (List.zipWith f s1 s2).length = s1.length := by simp [hlen]
    rw [List.take_of_length_le (by omega), List.take_of_length_le (by omega)] at hdone
    simp [zipLoop, hdone]
  | succ m ih =>
    have hk1 : k < s1.length := by omega
    have hk2 : k < s2.length := by omega
    have hz : (List.zipWith f s1 s2).length = s1.length := by simp [hlen]
    have g1 : s1[k]? = some s1[k] := List.getElem?_eq_getElem hk1
    have g2 : s2[k]? = some s2[k] := List.getElem?_eq_getElem hk2
    have hkr : k < result.length := by omega
    simp only [List.range', zipLoop, g1, g2, hkr, if_true]
    apply ih (k + 1) _ (by omega) (by simp [hres])
    rw [List.take_succ, List.take_succ, List.set_take,
      List.set_eq_of_length_le (by simp), hdone, List.getElem?_set_self hkr,
      List.getElem?_zipWith, g1, g2]

/-- C23: `Zip(s1, s2, fn)` panics if and only if `len(s1) != len(s2)`; when the lengths
are equal it returns a slice of that length whose element at every index `i` is
`fn(s1[i], s2[i])`. -/
theorem zip_panics_iff [Inhabited V] (s1 : List T) (s2 : List U) (f : T → U → V) :
    (Zip s1 s2 f = Outcome.panicked ↔ s1.length ≠ s2.length) ∧
    (s1.length = s2.length →
      ∃ r, Zip s1 s2 f = Outcome.done r ∧ r.length = s1.length ∧
        ∀ i (h1 : i < s1.length) (h2 : i < s2.length), r[i]? = some (f s1[i] s2[i])) := by
  have heq : s1.length = s2.length → Zip s1 s2 f = Outcome.done (List.zipWith f s1 s2) := by
    intro hlen
    have hne : ¬ s1.length ≠ s2.length := fun h => h hlen
    simp only [Zip, hne, if_false, List.range_eq_range']
    exact zipLoop_spec s1 s2 f hlen s1.length 0 _ (by omega) (by simp) (by simp)
  refine ⟨?_, ?_⟩
  · constructor
    · intro hp hlen
      rw [heq hlen] at hp
      cases hp
    · intro hne
      simp [Zip, hne]
  · intro hlen
    refine ⟨List.zipWith f s1 s2, heq hlen, by simp [hlen], ?_⟩
    intro i h1 h2
    rw [List.getElem?_zipWith, List.getElem?_eq_getElem h1, List.getElem?_eq_getElem h2]

end Fn

namespace Fn

variable {T : Type}

/-- C24: for every slice `s` and every `n` with `0 <= n <= len(s)`, `Take(s, n)` is the
first `n` elements of `s`, `Drop(s, n)` is the remaining `len(s) - n` elements, and the
two together are `s`; for every `n > len(s)`, `Take(s, n)` is `s` itself and `Drop(s, n)`
is the nil slice. -/
theorem take_drop_opposite (s : Slice T) (n : Int) :
    (0 ≤ n → n ≤ s.len →
      ∃ a b, Take s n = Outcome.done a ∧ Drop s n = Outcome.done b ∧
        a.elems = s.elems.take n.toNat ∧ b.elems = s.elems.drop n.toNat ∧
        (a.elems.length : Int) = n ∧ (b.elems.length : Int) = s.len - n ∧
        a.elems ++ b.elems = s.elems) ∧
    (n > s.len → Take s n = Outcome.done s ∧ Drop s n = Outcome.done Slice.nil) := by
  refine ⟨?_, ?_⟩
  · intro h0 hn
    have hgt : ¬ n > s.len := by omega
    cases s with
    | nil =>
      have hn0 : n = 0 := by
        simp only [Slice.len, Slice.elems, List.length_nil] at hn
        omega
      subst hn0
      refine ⟨Slice.nil, Slice.nil, ?_, ?_, ?_⟩
      · simp [Take, Slice.slice, Slice.len, Slice.elems]
      · simp [Drop, Slice.slice, Slice.len, Slice.elems]
      · simp [Slice.elems, Slice.len]
    | of l =>
      have hlen : Slice.len (Slice.of l) = (l.length : Int) := rfl
      rw [hlen] at hn hgt
      have hnat : n = ((n.toNat : Nat) : Int) := (Int.toNat_of_nonneg h0).symm
      have hle : n.toNat ≤ l.length := by omega
      have hfront : slice l 0 n = some (l.take n.toNat) := by
        rw [hnat, Int.toNat_ofNat]
        exact slice_front l n.toNat hle
      have hback : slice l n (l.length : Int) = some (l.drop n.toNat) := by
        rw [hnat, Int.toNat_ofNat]
        exact slice_back l n.toNat hle
      refine ⟨Slice.of (l.take n.toNat), Slice.of (l.drop n.toNat), ?_, ?_, rfl, rfl, ?_, ?_,
        ?_⟩
      · simp [Take, hlen, hgt, Slice.slice, hfront]
      · simp [Drop, hlen, hgt, Slice.slice, hback]
      · simp only [Slice.elems, List.length_take]
        omega
      · simp only [Slice.elems, List.length_drop, hlen]
        omega
      · simp [Slice.elems]
  · intro hgt
    simp [Take, Drop, hgt]

end Fn

namespace Fn

variable {T : Type}

/-- Exchanging two elements of a slice reorders it. -/
theorem swap_perm (s : List T) (i j : Nat) (a b : T) (hi : s[i]? = some a)
    (hj : s[j]? = some b) : ((s.set i b).set j a).Perm s := by
  classical
  obtain ⟨hil, hia⟩ := List.getElem?_eq_some_iff.1 hi
  obtain ⟨hjl, hjb⟩ := List.getElem?_eq_some_iff.1 hj
  have hjl1 : j < (s.set i b).length := by simpa using hjl
  have hjb1 : (s.set i b)[j] = b := by
    rw [List.getElem_set]
    split
    · rfl
    · exact hjb
  rw [List.perm_iff_count]
  intro x
  rw [List.count_set _ _ _ _ hjl1, List.count_set _ _ _ _ hil, hjb1, hia]
  have hpos : (if (a == x) = true then 1 else 0) ≤ List.count x s := by
    split
    · next h =>
      have hax : a = x := by simpa using h
      have : a ∈ s := hia ▸ List.getElem_mem hil
      exact List.count_pos_iff.2 (hax ▸ this)
    · exact Nat.zero_le _
  have hb : (if (b == x) = true then 1 else 0) ≤ 1 := by split <;> omega
  omega

/-- The loop of `Shuffle` from index `i` with draws in range returns a reordering. -/
theorem shuffleLoop_spec (draw : Int → Int) (hdraw : ∀ i, 0 < i → 0 ≤ draw i ∧ draw i ≤ i)
    (fuel : Nat) (s : List T) (i : Int) (hi : i < (s.length : Int))
    (hfuel : i < (fuel : Int)) (hfuel0 : 0 < fuel) :
    ∃ t, shuffleLoop draw fuel s i = Outcome.done t ∧ t.Perm s := by
  induction fuel generalizing s i with
  | zero => omega
  | succ fuel ih =>
    by_cases hpos : i > 0
    · obtain ⟨hd0, hdi⟩ := hdraw i hpos
      have hi0 : (0 : Int) ≤ i := by omega
      have hin : i.toNat < s.length := by omega
      have hjn : (draw i).toNat < s.length := by omega
      have ga : s[i.toNat]? = some s[i.toNat] := List.getElem?_eq_getElem hin
      have gb : s[(draw i).toNat]? = some s[(draw i).toNat] := List.getElem?_eq_getElem hjn
      obtain ⟨t, ht, hperm⟩ := ih
        ((s.set i.toNat s[(draw i).toNat]).set (draw i).toNat s[i.toNat]) (i - 1)
        (by simp; omega) (by omega) (by omega)
      refine ⟨t, ?_, hperm.trans (swap_perm s _ _ _ _ ga gb)⟩
      simp only [shuffleLoop, hpos, if_true, index, hi0, hd0, ga, gb]
      exact ht
    · exact ⟨s, by simp [shuffleLoop, hpos], List.Perm.refl s⟩

/-- C25: for every slice `s` and all random draws with `0 <= j <= i` at the step with
index `i`, `Shuffle` returns (given a budget of more than `len(s)` loop steps) with `s` a
permutation of its original contents, so of the same length and with the same multiset
of elements; the empty slice and one-element slices are left as they are. -/
theorem shuffle_permutes (draw : Int → Int) (fuel : Nat) (s : List T)
    (hdraw : ∀ i, 0 < i → 0 ≤ draw i ∧ draw i ≤ i) (hfuel : s.length < fuel) :
    ∃ t, Shuffle draw fuel s = Outcome.done t ∧ t.Perm s ∧ t.length = s.length ∧
      Multiset.ofList t = Multiset.ofList s ∧ (s.length < 2 → t = s) := by
  obtain ⟨t, ht, hperm⟩ := shuffleLoop_spec draw hdraw fuel s ((s.length : Int) - 1)
    (by omega) (by omega) (by omega)
  refine ⟨t, ht, hperm, hperm.length_eq, Multiset.coe_eq_coe.2 hperm, ?_⟩
  intro hlen
  have hcond : ¬ ((s.length : Int) - 1 > 0) := by omega
  cases fuel with
  | zero => omega
  | succ fuel =>
    simp only [Shuffle, shuffleLoop, hcond, if_false] at ht
    cases ht
    rfl

/-- Witness for C25 on the slice of `TestShuffle` with the draws `j = i / 2`. -/
theorem shuffle_permutes_witness :
    (∀ i : Int, 0 < i → 0 ≤ i / 2 ∧ i / 2 ≤ i) ∧ [1, 2, 3, 4, 5].length < 6 ∧
    Shuffle (fun i => i / 2) 6 [1, 2, 3, 4, 5] = Outcome.done [5, 1, 4, 2, 3] ∧
    ∃ t, Shuffle (fun i => i / 2) 6 [1, 2, 3, 4, 5] = Outcome.done t ∧
      t.Perm [1, 2, 3, 4, 5] :=
  ⟨fun i hi => by omega, by decide, by decide,
    (shuffle_permutes (fun i => i / 2) 6 [1, 2, 3, 4, 5]
      (fun i hi => by show 0 ≤ i / 2 ∧ i / 2 ≤ i; omega) (by decide)).imp
      (fun _ h => ⟨h.1, h.2.1⟩)⟩

end Fn

/-! ## `Parallel` without workers -/

namespace Concurrent.Parallel

variable {E : Type}

/-- Without workers no step starts a task, the queue holds every task sent so far in
order, and the closing goroutine only exists once `tasksCh` is closed. -/
theorem step_noWorkers {c : Cfg E} {s t : State E} {a : Action} (h : Inv c s)
    (hw : c.maxWorkers = 0) (hs : step c s a = some t)
    (hp : s.started = [] ∧ s.tasksCh = List.range s.i ∧
      (s.closer ≠ Closer.notStarted → s.tasksClosed = true)) :
    t.started = [] ∧ t.tasksCh = List.range t.i ∧
      (t.closer ≠ Closer.notStarted → t.tasksClosed = true) := by
  obtain ⟨h1, h2, h3⟩ := hp
  have hnil : s.workers = [] := List.length_eq_zero.1 (h.nworkers.trans hw)
  unfold step at hs
  split at hs
  · cases hs
  · cases a with
    | cancel =>
      simp only [cancel] at hs
      split at hs
      · cases hs
        exact ⟨h1, h2, h3⟩
      · cases hs
    | ctxCase =>
      simp only [ctxCase] at hs
      split at hs
      · split at hs
        · split at hs
          · cases hs
            exact ⟨h1, h2, h3⟩
          · cases hs
        · cases hs
          exact ⟨h1, h2, h3⟩
        · cases hs
      · cases hs
    | main =>
      simp only [main] at hs
      split at hs
      · split at hs
        · split at hs
          · cases hs
            refine ⟨h1, ?_, h3⟩
            simp only [h2, List.range_succ]
          · cases hs
        · cases hs
          exact ⟨h1, h2, fun _ => rfl⟩
      · rename_i hpc
        cases hs
        exact ⟨h1, h2, fun _ => (h.pcSpawn hpc).1⟩
      · split at hs
        · split at hs
          · cases hs
            exact ⟨h1, h2, h3⟩
          · split at hs
            · cases hs
              exact ⟨h1, h2, h3⟩
            · cases hs
              exact ⟨h1, h2, h3⟩
        · split at hs
          · cases hs
            exact ⟨h1, h2, h3⟩
          · cases hs
      · cases hs
    | closer =>
      simp only [closer] at hs
      split at hs
      · rename_i hcl
        split at hs
        · cases hs
          exact ⟨h1, h2, fun _ => h3 (by rw [hcl]; decide)⟩
        · cases hs
      · cases hs
    | worker w =>
      simp only [worker, hnil, List.getElem?_nil] at hs
      cases hs

theorem run_noWorkers {c : Cfg E} (hw : c.maxWorkers = 0) (sched : List Action)
    {s t : State E} (h : Inv c s) (hrun : run c s sched = some t)
    (hp : s.started = [] ∧ s.tasksCh = List.range s.i ∧
      (s.closer ≠ Closer.notStarted → s.tasksClosed = true)) :
    t.started = [] ∧ t.tasksCh = List.range t.i ∧
      (t.closer ≠ Closer.notStarted → t.tasksClosed = true) := by
  induction sched generalizing s with
  | nil =>
    simp only [run, Option.some.injEq] at hrun
    subst hrun
    exact hp
  | cons a rest ih =>
    simp only [run] at hrun
    cases hstep : step c s a with
    | none => simp [hstep] at hrun
    | some u =>
      simp only [hstep, Option.some_bind] at hrun
      exact ih (step_inv h hstep) hrun (step_noWorkers h hw hstep hp)

/-- What the invariant says of a state without workers in which no task was started:
nothing ran, nothing was sent on `resultsCh`, the wait-group counter is zero. -/
theorem idle_of_noWorkers {c : Cfg E} {s : State E} (h : Inv c s) (hw : c.maxWorkers = 0)
    (hstarted : s.started = []) :
    s.workers = [] ∧ s.wg = 0 ∧ s.finished = [] ∧ s.resultsCh = [] ∧ s.received = [] := by
  have hnil : s.workers = [] := List.length_eq_zero.1 (h.nworkers.trans hw)
  have hexec := h.exec
  have hres := h.res
  have hwg := h.wgLive
  rw [hnil, hstarted] at hexec
  simp only [runningOf, gather, List.nil_append] at hexec
  have hfin : s.finished = [] := List.Perm.nil_eq hexec |>.symm
  rw [hnil, hfin] at hres
  simp only [sendingOf, gather, List.nil_append, List.map_nil] at hres
  have hrr : s.received ++ s.resultsCh = [] := (List.Perm.nil_eq hres).symm
  rw [hnil] at hwg
  exact ⟨hnil, hwg, hfin, (List.append_eq_nil.1 hrr).2, (List.append_eq_nil.1 hrr).1⟩

end Concurrent.Parallel

namespace Concurrent

open Parallel

/-- C26: with `maxWorkers = 0` and a never-cancelled context, for every task list and
under every schedule: no worker exists, the wait-group counter is zero, no task is ever
started, the queue `tasksCh` holds every task sent so far, nothing is ever sent on or read
from `resultsCh`, and nothing panics; whenever the call has returned, the value is nil,
all tasks are still in the queue and `resultsCh` is closed; the program is never stuck
before the call returns; no schedule is longer than `5 * len(tasks) + 7` steps; and every
run extends to one where the call has returned nil. -/
theorem parallel_zero_workers {E : Type} (c : Cfg E) (hw : c.maxWorkers = 0)
    (hctx : c.ctx.done = false ∧ c.ctx.canFire = false)
    (sched : List Action) (s : State E) (hrun : run c (start c) sched = some s) :
    (s.workers = [] ∧ s.wg = 0 ∧ s.started = [] ∧ s.finished = [] ∧
      s.tasksCh = List.range s.i ∧ s.resultsCh = [] ∧ s.received = [] ∧
      s.panicked = false) ∧
    (∀ r, s.pc = Pc.returned r →
      r = none ∧ s.tasksCh = List.range c.tasks.length ∧ s.resultsClosed = true) ∧
    ((∀ r, s.pc ≠ Pc.returned r) → ∃ a t, step c s a = some t) ∧
    sched.length ≤ 5 * c.tasks.length + 7 ∧
    ∃ more t, run c s more = some t ∧ t.pc = Pc.returned none := by
  have hstart : (start c).started = [] ∧ (start c).tasksCh = List.range (start c).i ∧
      ((start c).closer ≠ Closer.notStarted → (start c).tasksClosed = true) :=
    ⟨rfl, rfl, fun hne => absurd rfl hne⟩
  have hret : ∀ u : State E, Inv c u → u.started = [] →
      (u.closer ≠ Closer.notStarted → u.tasksClosed = true) →
      ∀ r, u.pc = Pc.returned r → r = none ∧ u.i = c.tasks.length ∧ u.resultsClosed = true := by
    intro u hu hst hcl r hr
    obtain ⟨_, _, _, _, hrec⟩ := idle_of_noWorkers hu hw hst
    rcases hu.ret r hr with h1 | h1 | h1
    · have := never_done hu hctx
      simp [this] at h1
    · rw [hrec] at h1
      simp at h1
    · obtain ⟨h2, h3, _, _⟩ := h1
      rw [hrec] at h2
      refine ⟨h2, hu.closedAll (hcl ?_), h3⟩
      intro hns
      have := hu.closerOpen (by rw [hns]; decide)
      simp [h3] at this
  have hinv : Inv c s := run_inv sched (init_inv c) hrun
  obtain ⟨hst, hq, hcl⟩ := run_noWorkers hw sched (init_inv c) hrun hstart
  obtain ⟨hwk, hwg, hfin, hrc, hrec⟩ := idle_of_noWorkers hinv hw hst
  obtain ⟨hlen, hprog, more, t, r, hmore, hr⟩ := returns_always hrun
  have hinvt : Inv c t := run_inv more hinv hmore
  obtain ⟨hst1, _, hcl1⟩ := run_noWorkers hw more hinv hmore ⟨hst, hq, hcl⟩
  refine ⟨⟨hwk, hwg, hst, hfin, hq, hrc, hrec, hinv.noPanic⟩, ?_, hprog, ?_, more, t, hmore, ?_⟩
  · intro r hr
    obtain ⟨h1, h2, h3⟩ := hret s hinv hst hcl r hr
    exact ⟨h1, by rw [hq, h2], h3⟩
  · rw [hw] at hlen
    omega
  · rw [hr, (hret t hinvt hst1 hcl1 r hr).1]

/-- Witness for C26 on `zeroCfg`, whose first task would return an error: `zeroSched`
runs to `zeroEnd`, where the call has returned nil and no task has been started. -/
theorem parallel_zero_workers_witness :
    zeroCfg.maxWorkers = 0 ∧
    run zeroCfg (start zeroCfg) zeroSched = some zeroEnd ∧
    Parallel zeroCfg zeroSched = some none ∧
    zeroEnd.started = [] ∧
    (∀ r, zeroEnd.pc = Pc.returned r →
      r = none ∧ zeroEnd.tasksCh = List.range zeroCfg.tasks.length ∧
      zeroEnd.resultsClosed = true) :=
  ⟨rfl, rfl, rfl, rfl,
    (parallel_zero_workers zeroCfg rfl ⟨rfl, rfl⟩ zeroSched zeroEnd rfl).2.1⟩

end Concurrent

/-! ## `Chunk`: termination -/

namespace Fn

variable {T : Type}

/-- One step of the loop of `Chunk` with `chunkSize = 0` on a non-empty slice: the index
stays at 0 and an empty chunk is appended. -/
theorem chunkLoop_zero_step (s : List T) (hs : s ≠ []) (fuel : Nat) (acc : List (List T)) :
    chunkLoop s 0 (fuel + 1) 0 acc = chunkLoop s 0 fuel 0 (acc ++ [[]]) := by
  have hlen : 0 < s.length := List.length_pos.2 hs
  have hcond : (0 : Int) < (s.length : Int) := by omega
  have hend : ¬ ((0 : Int) > (s.length : Int)) := by omega
  have hslice : slice s 0 0 = some [] := by
    simp [slice]
  simp only [chunkLoop, hcond, if_true, hend, if_false, hslice, Int.add_zero]

/-- The loop of `Chunk` with `chunkSize = 0` on a non-empty slice uses up every budget. -/
theorem chunkLoop_zero_outOfFuel (s : List T) (hs : s ≠ []) (fuel : Nat)
    (acc : List (List T)) : chunkLoop s 0 fuel 0 acc = Outcome.outOfFuel := by
  induction fuel generalizing acc with
  | zero => rfl
  | succ fuel ih => rw [chunkLoop_zero_step s hs, ih]

/-- C27: `Chunk` returns for every slice when `chunkSize >= 1` (a budget of more than
`len(s)` loop steps is enough) and for the empty slice with any `chunkSize` (one loop
step is enough), but for every non-empty slice and `chunkSize = 0` it does not return
within any budget: each loop step leaves the index at 0 and appends an empty chunk. -/
theorem chunk_terminates (s : List T) :
    (∀ (chunkSize : Int) (fuel : Nat), 1 ≤ chunkSize → s.length < fuel →
      ∃ chunks, Chunk fuel s chunkSize = Outcome.done chunks) ∧
    (∀ (chunkSize : Int) (fuel : Nat), 0 < fuel →
      Chunk fuel ([] : List T) chunkSize = Outcome.done []) ∧
    (s ≠ [] →
      (∀ fuel : Nat, Chunk fuel s 0 = Outcome.outOfFuel) ∧
      (∀ (fuel : Nat) (chunks : List (List T)),
        chunkLoop s 0 fuel 0 chunks = Outcome.outOfFuel ∧
        chunkLoop s 0 (fuel + 1) 0 chunks = chunkLoop s 0 fuel 0 (chunks ++ [[]]))) := by
  refine ⟨?_, ?_, ?_⟩
  · intro chunkSize fuel hsize hfuel
    have hk : chunkSize = ((chunkSize.toNat : Nat) : Int) :=
      (Int.toNat_of_nonneg (by omega)).symm
    obtain ⟨cs, h1, _⟩ :=
      chunkLoop_spec s chunkSize.toNat (by omega) fuel 0 [] (by omega)
    refine ⟨cs, ?_⟩
    rw [Chunk, hk]
    simpa using h1
  · intro chunkSize fuel hfuel
    cases fuel with
    | zero => omega
    | succ fuel => simp [Chunk, chunkLoop]
  · intro hs
    exact ⟨fun fuel => chunkLoop_zero_outOfFuel s hs fuel [],
      fun fuel chunks => ⟨chunkLoop_zero_outOfFuel s hs fuel chunks,
        chunkLoop_zero_step s hs fuel chunks⟩⟩

end Fn
